import Mathlib

/-!
# Exam platform backend (`backend/server.c`): question index, credential table, login

A shallow embedding of the data structures and routines of `server.c`.

Conventions of the embedding:

* a C string is the list of its bytes before the terminating NUL (`List Nat`,
  each byte in `0..255`); a `NULL` pointer is `none`;
* `int` values are `Int`; where the source can leave the 32-bit range the result
  is wrapped with `wrap32`;
* `malloc`/`realloc`/`calloc` are taken to succeed;
* linked structures (`Question.next` chains, `PQNode` chains, `AuthEntry` chains)
  are lists of their payloads in chain order, the `BSTNode` tree is an inductive tree;
* global variables become fields of an explicit state that is passed and returned.
-/

namespace ExamPlatform

/-! ## Constants (`#define`s of the source) -/

def MAX_USERNAME_LENGTH : Nat := 64
def MAX_PASSWORD_LENGTH : Nat := 64
def MAX_QUESTION_LENGTH : Nat := 1024
def MAX_OPTION_LENGTH : Nat := 256
def MAX_EXPLANATION_LENGTH : Nat := 1024
def MAX_POST_SIZE : Nat := 1024
def HASH_TABLE_SIZE : Nat := 101

/-! ## libc routines used by the source -/

/-- The bytes of an ASCII string literal of the source. -/
def lit (s : String) : List Nat := s.toList.map Char.toNat

/-- The C string that starts at the beginning of a NUL-terminated buffer. -/
def c_str (buf : List Nat) : List Nat := buf.takeWhile (fun b => b != 0)

/-- Conversion of a 64-bit or wider integer value to `int` (two's complement wrap). -/
def wrap32 (x : Int) : Int := (x + 2147483648) % 4294967296 - 2147483648

def LONG_MAX : Int := 9223372036854775807
def LONG_MIN : Int := -9223372036854775808

def isspace (c : Nat) : Bool := c == 32 || (9 ≤ c && c ≤ 13)

def isdigit (c : Nat) : Bool := 48 ≤ c && c ≤ 57

/-- The `strtol(s, NULL, 10)` of the C locale: leading white space, an optional sign,
then decimal digits; the value saturates at `LONG_MIN`/`LONG_MAX`. -/
def strtol (s : List Nat) : Int :=
  let s1 := s.dropWhile isspace
  let neg : Bool := s1.head? == some 45
  let s2 := if s1.head? == some 45 || s1.head? == some 43 then s1.drop 1 else s1
  let n : Nat := (s2.takeWhile isdigit).foldl (fun acc d => acc * 10 + (d - 48)) 0
  if neg then max (-(n : Int)) LONG_MIN else min (n : Int) LONG_MAX

/-- The `atoi` of glibc: `(int) strtol(s, NULL, 10)`. -/
def atoi (s : List Nat) : Int := wrap32 (strtol s)

/-- One call `token = strtok_r(s, delim, &rest)` with `s` non-NULL: skips leading
delimiter bytes; at the end of the string returns no token; otherwise the token runs up
to the next delimiter byte and the saved pointer is placed just after that delimiter.
The result is the pair (token, new saved string). -/
def strtok_r (s : List Nat) (delim : List Nat) : Option (List Nat) × List Nat :=
  let s1 := s.dropWhile (fun b => delim.contains b)
  match s1 with
  | [] => (none, [])
  | _ :: _ =>
    (some (s1.takeWhile (fun b => !delim.contains b)),
     (s1.dropWhile (fun b => !delim.contains b)).drop 1)

/-- The C string left in a zero-filled destination by `strncpy(dest, src, n)`,
the byte `dest[n]` being NUL. -/
def strncpy (src : List Nat) (n : Nat) : List Nat := src.take n

/-- The `strchr(s, c)` for a byte `c ≠ 0`: the suffix of `s` starting at the first `c`. -/
def strchr (s : List Nat) (c : Nat) : Option (List Nat) :=
  match s with
  | [] => none
  | b :: t => if b = c then some (b :: t) else strchr t c

/-- The `strstr(haystack, needle)`: the suffix of the haystack starting at the first
occurrence of the needle. -/
def strstr (haystack needle : List Nat) : Option (List Nat) :=
  match haystack with
  | [] => if needle = [] then some [] else none
  | b :: t => if needle.isPrefixOf (b :: t) then some (b :: t) else strstr t needle

/-! ## Data structures -/

/-- The `struct Question`, without its `next` link. -/
structure Question where
  id : Int
  question : List Nat
  options : List (List Nat)
  correct_answer : Int
  explanation : List Nat
  difficulty : Int
deriving DecidableEq, Repr

/-- The `BSTNode *`: `null` is the NULL pointer. -/
inductive BSTNode where
  | null : BSTNode
  | node (question : Question) (left right : BSTNode) : BSTNode
deriving DecidableEq, Repr

/-- The `AuthEntry`, without its `next` link. -/
structure AuthEntry where
  username : List Nat
  password : List Nat
deriving DecidableEq, Repr

/-- The `ConnectionInfo`: `post_data` is NULL until the first body delivery. -/
structure ConnectionInfo where
  post_data : Option (List Nat)
  post_size : Nat
deriving DecidableEq, Repr

/-- The globals `question_head`, `question_bst_root`, `priority_queue_head`. -/
structure Store where
  question_head : List Question
  question_bst_root : BSTNode
  priority_queue_head : List Question
deriving DecidableEq, Repr

/-! ## Binary search tree -/

def insert_bst (root : BSTNode) (question : Question) : BSTNode :=
  match root with
  | .null => .node question .null .null
  | .node rq left right =>
    if question.id < rq.id then .node rq (insert_bst left question) right
    else if question.id > rq.id then .node rq left (insert_bst right question)
    else .node rq left right

def search_bst (root : BSTNode) (id : Int) : Option Question :=
  match root with
  | .null => none
  | .node rq left right =>
    if id = rq.id then some rq
    else if id < rq.id then search_bst left id
    else search_bst right id

/-! ## Difficulty-ordered queues -/

/-- The `while (current->next != NULL && current->next->question->difficulty >= d)` walk
followed by the splice: the argument is the chain `current->next`, the result is the
new `current->next`. -/
def pq_splice (question : Question) (next : List Question) : List Question :=
  match next with
  | [] => [question]
  | n :: rest =>
    if n.difficulty ≥ question.difficulty then n :: pq_splice question rest
    else question :: n :: rest

def insert_priority_queue (question : Question) (priority_queue_head : List Question) :
    List Question :=
  match priority_queue_head with
  | [] => [question]
  | h :: rest =>
    if question.difficulty > h.difficulty then question :: h :: rest
    else h :: pq_splice question rest

def copy_to_temp_queue (q : Question) (temp_queue_head : List Question) : List Question :=
  match temp_queue_head with
  | [] => [q]
  | h :: rest =>
    if q.difficulty > h.difficulty then q :: h :: rest
    else h :: pq_splice q rest

/-- The loop "Copy each question to our temporary queue" of
`handle_get_priority_questions`: starting from an empty `temp_queue_head`, every
question of the list is passed to `copy_to_temp_queue` in list order. -/
def ranked_snapshot (question_head : List Question) : List Question :=
  question_head.foldl (fun temp_queue_head current => copy_to_temp_queue current temp_queue_head) []

def get_next_priority_question (priority_queue_head : List Question) :
    Option Question × List Question :=
  match priority_queue_head with
  | [] => (none, [])
  | top :: rest => (some top, rest)

/-! ## Ingestion of the question file (`load_questions`) -/

/-- The "Error: Missing ..." messages of `load_questions`. -/
inductive ParseError where
  | missing_id : ParseError
  | missing_text : ParseError
  | missing_option (i : Nat) : ParseError
  | missing_correct_answer : ParseError
deriving DecidableEq, Repr

/-- The locals of one pass through the body of the `while (fgets ...)` loop: the record
being filled, the `strtok_r` save pointer `rest`, the error messages printed so far and
the number of `free(new_question)` calls made so far. -/
structure ParseState where
  new_question : Question
  rest : List Nat
  errors : List ParseError
  frees : Nat
deriving DecidableEq, Repr

/-- The record after `memset(new_question, 0, sizeof(Question))`. -/
def zeroed_question : Question :=
  { id := 0, question := [], options := [[], [], [], []], correct_answer := 0,
    explanation := [], difficulty := 0 }

/-- One iteration `i` of `for (int i = 0; i < 4; i++)`: on a missing token the message is
printed, the record is freed, and `continue` moves on to the next `i` of this `for`. -/
def parse_option (st : ParseState) (i : Nat) : ParseState :=
  match strtok_r st.rest (lit "|") with
  | (none, rest) =>
    { st with rest := rest, errors := st.errors ++ [ParseError.missing_option (i + 1)],
              frees := st.frees + 1 }
  | (some token, rest) =>
    { st with rest := rest,
              new_question := { st.new_question with
                options := st.new_question.options.set i
                  (strncpy token (MAX_OPTION_LENGTH - 1)) } }

/-- What one pass of the loop body prints, frees and builds. -/
structure ParseOutcome where
  errors : List ParseError
  frees : Nat
  question : Option Question
deriving DecidableEq, Repr

/-- The body of the `while (fgets ...)` loop from "Parse line using pipe delimiter" to
the computation of the difficulty, for a line whose newline has been removed. The
outcome carries `some q` exactly when control reaches "Add to linked list" with
`*new_question = q`. -/
def parse_line (line : List Nat) : ParseOutcome :=
  match strtok_r line (lit "|") with
  | (none, _) => { errors := [ParseError.missing_id], frees := 1, question := none }
  | (some token, rest) =>
    let q1 : Question := { zeroed_question with id := atoi token }
    match strtok_r rest (lit "|") with
    | (none, _) => { errors := [ParseError.missing_text], frees := 1, question := none }
    | (some token, rest) =>
      let q2 : Question := { q1 with question := strncpy token (MAX_QUESTION_LENGTH - 1) }
      let st := (List.range 4).foldl parse_option
        { new_question := q2, rest := rest, errors := [], frees := 0 }
      match strtok_r st.rest (lit "|") with
      | (none, _) =>
        { errors := st.errors ++ [ParseError.missing_correct_answer], frees := st.frees + 1,
          question := none }
      | (some token, rest) =>
        let q3 : Question := { st.new_question with correct_answer := wrap32 (atoi token - 1) }
        let q4 : Question :=
          match strtok_r rest (lit "|") with
          | (some token, _) =>
            { q3 with explanation := strncpy token (MAX_EXPLANATION_LENGTH - 1) }
          | (none, _) =>
            { q3 with explanation :=
                strncpy (lit "No explanation provided") (MAX_EXPLANATION_LENGTH - 1) }
        { errors := st.errors, frees := st.frees,
          question := some { q4 with difficulty := Int.tmod q4.id 10 + 1 } }

/-- The part "Add to linked list / Add to BST / Add to priority queue". -/
def append_question (s : Store) (new_question : Question) : Store :=
  { question_head := s.question_head ++ [new_question],
    question_bst_root := insert_bst s.question_bst_root new_question,
    priority_queue_head := insert_priority_queue new_question s.priority_queue_head }

/-- The line after "Remove newline if present". -/
def strip_newline (line : List Nat) : List Nat :=
  if line.getLast? = some 10 then line.dropLast else line

/-- One pass of the `while (fgets(line, sizeof(line), file))` loop; `line` is the C
string that `fgets` stored. The function follows the control flow of the pass; a pass
that frees the record twice (see `frees_of_line`) is undefined behaviour in C and is
treated here as a pass that appends nothing. -/
def load_line (s : Store) (line : List Nat) : Store :=
  let l := strip_newline line
  if l.length = 0 then s
  else
    match (parse_line l).question with
    | none => s
    | some q => append_question s q

def empty_store : Store :=
  { question_head := [], question_bst_root := BSTNode.null, priority_queue_head := [] }

/-- The `load_questions`, given the successive results of `fgets`. -/
def load_questions (lines : List (List Nat)) : Store :=
  lines.foldl load_line empty_store

/-- The question that one pass of the loop appends for the line `line`, if any. -/
def accepted_question (line : List Nat) : Option Question :=
  if (strip_newline line).length = 0 then none else (parse_line (strip_newline line)).question

/-- The store after a sequence of appends to the empty store. -/
def build_store (qs : List Question) : Store :=
  qs.foldl append_question empty_store

/-- The non-empty fields of a line, separated by the byte `sep`. -/
def fields (sep : Nat) (line : List Nat) : List (List Nat) :=
  (line.splitOn sep).filter (fun f => !f.isEmpty)

/-! ## Output formatting (`snprintf`, `asprintf`) -/

/-- The decimal digits of `n`, most significant first, as ASCII bytes; `fuel` bounds the
number of divisions by ten and is enough when it is at least the number of digits. -/
def dec_digits (fuel n : Nat) : List Nat :=
  match fuel with
  | 0 => [48 + n % 10]
  | fuel + 1 => if n < 10 then [48 + n] else dec_digits fuel (n / 10) ++ [48 + n % 10]

/-- The conversion `%d`. -/
def fmt_d (x : Int) : List Nat :=
  if x < 0 then 45 :: dec_digits x.natAbs x.natAbs else dec_digits x.natAbs x.natAbs

/-- The text produced by the format
`{"id":%d,"text":"%s","options":["%s","%s","%s","%s"],"correct":%d,"explanation":"%s","difficulty":%d}`
for a question. -/
def question_json (q : Question) : List Nat :=
  lit "\x7b\"id\":" ++ fmt_d q.id ++ lit ",\"text\":\"" ++ q.question ++
  lit "\",\"options\":[\"" ++ q.options.getD 0 [] ++ lit "\",\"" ++ q.options.getD 1 [] ++
  lit "\",\"" ++ q.options.getD 2 [] ++ lit "\",\"" ++ q.options.getD 3 [] ++
  lit "\"],\"correct\":" ++ fmt_d q.correct_answer ++ lit ",\"explanation\":\"" ++
  q.explanation ++ lit "\",\"difficulty\":" ++ fmt_d q.difficulty ++ lit "\x7d"

/-- The statement `offset += snprintf(buffer + offset, buffer_size - offset, ...)` where
the conversion produces the text `s` and the C string in `buffer` is `text`: the result
is the new C string and the new `offset`. At most `buffer_size - offset - 1` bytes of `s`
are stored, the return value is the full length of `s`. When `offset > buffer_size` the
size argument wraps around and the write falls outside the buffer: no result. -/
def snprintf_at (buffer_size : Nat) (text : List Nat) (offset : Nat) (s : List Nat) :
    Option (List Nat × Nat) :=
  if offset > buffer_size then none
  else some (text.take offset ++ s.take (buffer_size - offset - 1), offset + s.length)

/-! ## `GET /api/priority-questions` -/

/-- The value of `count` after "Sanitize input"; `count_param` is the query parameter,
`none` when it is absent. -/
def effective_count (count_param : Option (List Nat)) : Int :=
  let count : Int :=
    match count_param with
    | some p => atoi p
    | none => 5
  if count ≤ 0 ∨ count > 100 then 5 else count

/-- The loop "Get top N questions from priority queue": the arguments are the locals
`temp_queue_head`, `questions_added`, `first`, the C string in `json_buffer` and
`offset`; the result is the C string in `json_buffer` and `offset` at loop exit. -/
def priority_loop (buffer_size : Nat) (count : Int) (temp_queue_head : List Question)
    (questions_added : Nat) (first : Bool) (text : List Nat) (offset : Nat) :
    Option (List Nat × Nat) :=
  match temp_queue_head with
  | [] => some (text, offset)
  | q :: next =>
    if (questions_added : Int) < count ∧ offset < buffer_size - 1024 then
      match (if first then some (text, offset)
             else snprintf_at buffer_size text offset (lit ",")) with
      | none => none
      | some (text1, offset1) =>
        match snprintf_at buffer_size text1 offset1 (question_json q) with
        | none => none
        | some (text2, offset2) =>
          priority_loop buffer_size count next (questions_added + 1) false text2 offset2
    else some (text, offset)

/-- The body that `handle_get_priority_questions` sends, from the sanitized `count` on:
the snapshot is built, the opening bracket is written, the loop runs, the closing
bracket is written. No result when a write falls outside the buffer. -/
def priority_questions_body (count : Int) (question_head : List Question) :
    Option (List Nat) :=
  let buffer_size := 1024 * 1024
  let temp_queue_head := ranked_snapshot question_head
  match snprintf_at buffer_size [] 0 (lit "[") with
  | none => none
  | some (text0, offset0) =>
    match priority_loop buffer_size count temp_queue_head 0 true text0 offset0 with
    | none => none
    | some (text1, offset1) =>
      match snprintf_at buffer_size text1 offset1 (lit "]") with
      | none => none
      | some (text2, _) => some text2

def handle_get_priority_questions (count_param : Option (List Nat))
    (question_head : List Question) : Option (List Nat) :=
  priority_questions_body (effective_count count_param) question_head

/-- The bounds that the field sizes of `struct Question` put on a stored record. -/
def within_bounds (q : Question) : Prop :=
  q.question.length ≤ MAX_QUESTION_LENGTH - 1 ∧
  (∀ o ∈ q.options, o.length ≤ MAX_OPTION_LENGTH - 1) ∧
  q.explanation.length ≤ MAX_EXPLANATION_LENGTH - 1 ∧
  (-2147483648 ≤ q.id ∧ q.id ≤ 2147483647) ∧
  (-2147483648 ≤ q.correct_answer ∧ q.correct_answer ≤ 2147483647) ∧
  (-2147483648 ≤ q.difficulty ∧ q.difficulty ≤ 2147483647)

instance (q : Question) : Decidable (within_bounds q) := by
  unfold within_bounds
  infer_instance

/-- The JSON array text of a list of questions: the objects separated by commas,
between brackets. -/
def json_array (qs : List Question) : List Nat :=
  lit "[" ++ List.intercalate (lit ",") (qs.map question_json) ++ lit "]"

/-- The text that the loop of `handle_get_priority_questions` adds for a list of
questions: each object preceded by a comma, except the very first one when `first` is set. -/
def json_items (first : Bool) (qs : List Question) : List Nat :=
  match qs with
  | [] => []
  | q :: rest => (if first then [] else lit ",") ++ question_json q ++ json_items false rest

/-! ## Credential table -/

/-- The value of `int c = *str` for a byte of a `char` string (plain `char` is signed). -/
def char_to_int (b : Nat) : Int := if b < 128 then (b : Int) else (b : Int) - 256

/-- Conversion of an `int` to `unsigned int`. -/
def to_unsigned (c : Int) : Nat := (c % 4294967296).toNat

/-- One pass of the loop of `hash_string`: `hash = ((hash << 5) + hash) + c` in
`unsigned int` arithmetic. -/
def hash_step (hash : Nat) (b : Nat) : Nat :=
  (((hash * 32) % 4294967296 + hash) % 4294967296 + to_unsigned (char_to_int b)) % 4294967296

def hash_string (str : List Nat) : Nat :=
  (str.foldl hash_step 5381) % HASH_TABLE_SIZE

/-- The global `auth_hash_table`: the chain of each slot. -/
abbrev AuthTable := Nat → List AuthEntry

/-- The table `{NULL}` at program start. -/
def empty_auth_table : AuthTable := fun _ => []

/-- The `insert_auth_entry` for non-NULL arguments. -/
def insert_auth_entry (auth_hash_table : AuthTable) (username password : List Nat) :
    AuthTable :=
  let index := hash_string username
  let new_entry : AuthEntry :=
    { username := strncpy username (MAX_USERNAME_LENGTH - 1),
      password := strncpy password (MAX_PASSWORD_LENGTH - 1) }
  fun i => if i = index then new_entry :: auth_hash_table i else auth_hash_table i

/-- The loop `while (current)` of `check_auth_hash_table`; `strcmp(a, b) == 0` is
equality of the two C strings. -/
def scan_chain (current : List AuthEntry) (username password : List Nat) : Bool :=
  match current with
  | [] => false
  | e :: next =>
    if e.username = username ∧ e.password = password then true
    else scan_chain next username password

/-- The `check_auth_hash_table` for non-NULL arguments. -/
def check_auth_hash_table (auth_hash_table : AuthTable) (username password : List Nat) :
    Bool :=
  let index := hash_string username
  scan_chain (auth_hash_table index) username password

def authenticate (auth_hash_table : AuthTable) (username password : List Nat) : Bool :=
  check_auth_hash_table auth_hash_table username password

/-- The table after a sequence of `insert_auth_entry` calls on the initial table. -/
def build_auth_table (pairs : List (List Nat × List Nat)) : AuthTable :=
  pairs.foldl (fun t pr => insert_auth_entry t pr.1 pr.2) empty_auth_table

/-! ## Login (`parse_post_data`, `handle_login`) -/

/-- The `parse_post_data`: `data` is the C string passed (`none` for NULL); the result
is the pair written to `username` and `password` when the function returns 1, and
`none` when it returns 0. -/
def parse_post_data (data : Option (List Nat)) : Option (List Nat × List Nat) :=
  match data with
  | none => none
  | some d =>
    match strstr d (lit "username="), strstr d (lit "password=") with
    | some us, some ps =>
      let user_start := us.drop 9
      let pass_start := ps.drop 9
      let user_len :=
        match strchr user_start 38 with
        | some user_end => user_start.length - user_end.length
        | none => user_start.length
      let pass_len :=
        match strchr pass_start 38 with
        | some pass_end => pass_start.length - pass_end.length
        | none => pass_start.length
      if user_len ≥ MAX_USERNAME_LENGTH ∨ pass_len ≥ MAX_PASSWORD_LENGTH then none
      else some (strncpy user_start user_len, strncpy pass_start pass_len)
    | _, _ => none

inductive MHD_Result where
  | MHD_NO : MHD_Result
  | MHD_YES : MHD_Result
deriving DecidableEq, Repr

def MHD_HTTP_OK : Nat := 200
def MHD_HTTP_BAD_REQUEST : Nat := 400
def MHD_HTTP_UNAUTHORIZED : Nat := 401

def error_response : List Nat :=
  lit "\x7b\"success\":false,\"message\":\"Invalid credentials\"\x7d"

def success_response : List Nat :=
  lit "\x7b\"success\":true,\"message\":\"Login successful\"\x7d"

/-- A response passed to `MHD_queue_response`. -/
structure Response where
  status : Nat
  body : List Nat
deriving DecidableEq, Repr

/-- What one call of `handle_login` leaves behind: its return value, `*con_cls`,
`*upload_data_size` and the response it queued, if any. -/
structure LoginStep where
  ret : MHD_Result
  con_cls : Option ConnectionInfo
  upload_data_size : Nat
  response : Option Response
deriving DecidableEq, Repr

/-- One call of `handle_login`. The argument `upload_data` holds the
`*upload_data_size` bytes delivered with the call; `post_data` of the connection holds
the `post_size` bytes before the NUL that the function keeps at `post_data[post_size]`.
The sum `post_size + *upload_data_size` is the size of data held in memory and does not
wrap around. Queuing a response returns `MHD_YES`. -/
def handle_login (auth_hash_table : AuthTable) (upload_data : List Nat)
    (con_cls : Option ConnectionInfo) : LoginStep :=
  match con_cls with
  | none =>
    { ret := MHD_Result.MHD_YES, con_cls := some { post_data := none, post_size := 0 },
      upload_data_size := upload_data.length, response := none }
  | some con_info =>
    if upload_data.length ≠ 0 then
      if con_info.post_size + upload_data.length > MAX_POST_SIZE then
        { ret := MHD_Result.MHD_NO, con_cls := some con_info,
          upload_data_size := upload_data.length, response := none }
      else
        { ret := MHD_Result.MHD_YES,
          con_cls := some
            { post_data := some (con_info.post_data.getD [] ++ upload_data),
              post_size := con_info.post_size + upload_data.length },
          upload_data_size := 0, response := none }
    else
      match parse_post_data (con_info.post_data.map c_str) with
      | none =>
        { ret := MHD_Result.MHD_YES, con_cls := none, upload_data_size := 0,
          response := some { status := MHD_HTTP_BAD_REQUEST, body := error_response } }
      | some (username, password) =>
        if authenticate auth_hash_table username password then
          { ret := MHD_Result.MHD_YES, con_cls := none, upload_data_size := 0,
            response := some { status := MHD_HTTP_OK, body := success_response } }
        else
          { ret := MHD_Result.MHD_YES, con_cls := none, upload_data_size := 0,
            response := some { status := MHD_HTTP_UNAUTHORIZED, body := error_response } }

/-- The successive calls of `handle_login` made for the deliveries of a list, in order:
the connection state after the last call and the return values of the calls. -/
def deliver (auth_hash_table : AuthTable) (con_cls : Option ConnectionInfo)
    (deliveries : List (List Nat)) : Option ConnectionInfo × List MHD_Result :=
  match deliveries with
  | [] => (con_cls, [])
  | upload_data :: later =>
    let step := handle_login auth_hash_table upload_data con_cls
    let r := deliver auth_hash_table step.con_cls later
    (r.1, step.ret :: r.2)

/-- A stored question with the given id and difficulty, for concrete evaluations. -/
def sample_question (id difficulty : Int) : Question :=
  { id := id, question := lit "Q", options := [lit "a", lit "b", lit "c", lit "d"],
    correct_answer := 0, explanation := [], difficulty := difficulty }

/-! ## Reading the question file (`fgets`) -/

/-- The bytes of a stream up to and including its first newline. -/
def through_newline (stream : List Nat) : List Nat :=
  match stream with
  | [] => []
  | b :: rest => if b = 10 then [b] else b :: through_newline rest

/-- One call `fgets(line, n, file)`: at end of file no result; otherwise the bytes
stored in `line` (up to and including the next newline, at most `n - 1` of them) and the
rest of the stream. -/
def fgets (n : Nat) (stream : List Nat) : Option (List Nat × List Nat) :=
  match stream with
  | [] => none
  | _ :: _ =>
    let line := through_newline (stream.take (n - 1))
    some (line, stream.drop line.length)

/-- The successive results of `fgets(line, n, file)` until end of file; `fuel` bounds
the number of calls and is enough when it is the length of the stream. -/
def read_lines (n : Nat) (fuel : Nat) (stream : List Nat) : List (List Nat) :=
  match fuel with
  | 0 => []
  | fuel + 1 =>
    match fgets n stream with
    | none => []
    | some (line, rest) => line :: read_lines n fuel rest

/-- The `load_questions` on the content of the question file: `char line[2048]`, and the
loop body sees the C string that `fgets` stored. -/
def load_questions_file (file : List Nat) : Store :=
  load_questions ((read_lines 2048 file.length file).map c_str)

/-- The number of `free(new_question)` calls in the loop pass for a line; a pass with
more than one frees the same record again, which is undefined behaviour. -/
def frees_of_line (line : List Nat) : Nat :=
  if (strip_newline line).length = 0 then 0 else (parse_line (strip_newline line)).frees

/-- The messages that the loop pass for a line prints. -/
def errors_of_line (line : List Nat) : List ParseError :=
  if (strip_newline line).length = 0 then [] else (parse_line (strip_newline line)).errors

/-- The `load_questions` with undefined behaviour made explicit: no result from the
first pass on that frees the record more than once. -/
def load_questions_defined (lines : List (List Nat)) : Option Store :=
  lines.foldl
    (fun acc line =>
      match acc with
      | none => none
      | some s => if frees_of_line line ≤ 1 then some (load_line s line) else none)
    (some empty_store)

/-! ## `GET /api/questions` -/

/-- The text produced by the format `%d|%s|%s|%s|%s|%s|%d|%s\n` of the full listing,
the seventh argument being `current->correct_answer + 1`. -/
def question_line (current : Question) : List Nat :=
  fmt_d current.id ++ lit "|" ++ current.question ++ lit "|" ++
  current.options.getD 0 [] ++ lit "|" ++ current.options.getD 1 [] ++ lit "|" ++
  current.options.getD 2 [] ++ lit "|" ++ current.options.getD 3 [] ++ lit "|" ++
  fmt_d (wrap32 (current.correct_answer + 1)) ++ lit "|" ++ current.explanation ++ lit "\n"

/-- The `get_question_by_id_json`: the globals after the call and the string returned. -/
def get_question_by_id_json (s : Store) (id : Int) : Store × List Nat :=
  match search_bst s.question_bst_root id with
  | none => (s, lit "\x7b\"error\":\"Question not found\"\x7d")
  | some q => (s, question_json q)

/-- The loop `while (current != NULL && offset < buffer_size - 1024)` of the full
listing: the arguments are `current`, the C string in `buffer` and `offset`. -/
def listing_loop (buffer_size : Nat) (current : List Question) (text : List Nat)
    (offset : Nat) : Option (List Nat × Nat) :=
  match current with
  | [] => some (text, offset)
  | q :: next =>
    if offset < buffer_size - 1024 then
      match snprintf_at buffer_size text offset (question_line q) with
      | none => none
      | some (text1, offset1) => listing_loop buffer_size next text1 offset1
    else some (text, offset)

/-- The `handle_get_questions`: the globals after the call and the body of the response
(`id_param` is the query parameter `id`, `none` when absent). No body when a write
falls outside the buffer. -/
def handle_get_questions (s : Store) (id_param : Option (List Nat)) :
    Store × Option (List Nat) :=
  match s.question_head with
  | [] => (s, some (lit "\x7b\"error\":\"No questions available\"\x7d"))
  | _ :: _ =>
    match id_param with
    | some p =>
      let r := get_question_by_id_json s (atoi p)
      (r.1, some r.2)
    | none =>
      let buffer_size := 1024 * 1024
      match listing_loop buffer_size s.question_head [] 0 with
      | none => (s, none)
      | some (text, offset) =>
        if offset < buffer_size then (s, some (text.take offset))
        else (s, some (text.take (buffer_size - 1)))

/-- The text of one listing line per question, in list order. -/
def listing_text (qs : List Question) : List Nat :=
  match qs with
  | [] => []
  | q :: rest => question_line q ++ listing_text rest

/-- The value of the field `key` in a payload: the text after the first occurrence of
`key`, up to the next `&` or the end. -/
def field_value (key data : List Nat) : Option (List Nat) :=
  (strstr data key).map (fun s => (s.drop key.length).takeWhile (fun b => b != 38))

/-- The question built from the fields of a line: `f1` to `f7` are the first seven
fields, `f8` the eighth if there is one. -/
def question_of_fields (f1 f2 f3 f4 f5 f6 f7 : List Nat) (f8 : Option (List Nat)) : Question :=
  { id := atoi f1,
    question := strncpy f2 (MAX_QUESTION_LENGTH - 1),
    options := [strncpy f3 (MAX_OPTION_LENGTH - 1), strncpy f4 (MAX_OPTION_LENGTH - 1),
      strncpy f5 (MAX_OPTION_LENGTH - 1), strncpy f6 (MAX_OPTION_LENGTH - 1)],
    correct_answer := wrap32 (atoi f7 - 1),
    explanation := strncpy (f8.getD (lit "No explanation provided")) (MAX_EXPLANATION_LENGTH - 1),
    difficulty := Int.tmod (atoi f1) 10 + 1 }

/-- A source line of eight fields in canonical form, without its terminator: the id and
the 1-based correct index written as `%d` writes them. -/
def canonical_line (id : Int) (f2 f3 f4 f5 f6 : List Nat) (correct : Int) (f8 : List Nat) :
    List Nat :=
  fmt_d id ++ lit "|" ++ f2 ++ lit "|" ++ f3 ++ lit "|" ++ f4 ++ lit "|" ++ f5 ++ lit "|" ++
  f6 ++ lit "|" ++ fmt_d correct ++ lit "|" ++ f8

/-! ## Token-level view of the line parser -/

/-- The locals of a loop pass when the line is seen as the list of its remaining
non-empty fields instead of the `strtok_r` save pointer. -/
structure TokenState where
  new_question : Question
  rest : List (List Nat)
  errors : List ParseError
  frees : Nat
deriving DecidableEq, Repr

/-- The step `parse_option` on the list of remaining fields: the next field, if any, is
the token. -/
def parse_option_tokens (st : TokenState) (i : Nat) : TokenState :=
  match st.rest with
  | [] =>
    { st with rest := [], errors := st.errors ++ [ParseError.missing_option (i + 1)],
              frees := st.frees + 1 }
  | token :: rest =>
    { st with rest := rest,
              new_question := { st.new_question with
                options := st.new_question.options.set i
                  (strncpy token (MAX_OPTION_LENGTH - 1)) } }

/-- The token-level view of the locals of a loop pass: the save pointer is replaced by
the list of the non-empty fields that remain after it. -/
def token_state (st : ParseState) : TokenState :=
  { new_question := st.new_question, rest := fields 124 st.rest, errors := st.errors,
    frees := st.frees }

/-- The `parse_line` on the list of the non-empty fields of the line: every call of
`strtok_r` takes the next field of the list. -/
def parse_tokens (fs : List (List Nat)) : ParseOutcome :=
  match fs with
  | [] => { errors := [ParseError.missing_id], frees := 1, question := none }
  | token :: rest =>
    let q1 : Question := { zeroed_question with id := atoi token }
    match rest with
    | [] => { errors := [ParseError.missing_text], frees := 1, question := none }
    | token :: rest =>
      let q2 : Question := { q1 with question := strncpy token (MAX_QUESTION_LENGTH - 1) }
      let st := (List.range 4).foldl parse_option_tokens
        { new_question := q2, rest := rest, errors := [], frees := 0 }
      match st.rest with
      | [] =>
        { errors := st.errors ++ [ParseError.missing_correct_answer], frees := st.frees + 1,
          question := none }
      | token :: rest =>
        let q3 : Question := { st.new_question with correct_answer := wrap32 (atoi token - 1) }
        let q4 : Question :=
          match rest with
          | token :: _ =>
            { q3 with explanation := strncpy token (MAX_EXPLANATION_LENGTH - 1) }
          | [] =>
            { q3 with explanation :=
                strncpy (lit "No explanation provided") (MAX_EXPLANATION_LENGTH - 1) }
        { errors := st.errors, frees := st.frees,
          question := some { q4 with difficulty := Int.tmod q4.id 10 + 1 } }

/-- The ids of the questions of a tree, left subtree first, then the node, then the
right subtree. -/
def tree_ids (root : BSTNode) : List Int :=
  match root with
  | .null => []
  | .node q left right => tree_ids left ++ q.id :: tree_ids right

/-- The strict search-tree order on question ids. -/
def is_bst (root : BSTNode) : Prop :=
  match root with
  | .null => True
  | .node q left right =>
    (∀ x ∈ tree_ids left, x < q.id) ∧ (∀ x ∈ tree_ids right, q.id < x) ∧
    is_bst left ∧ is_bst right

/-! ## Loading the credential file (`load_auth_data`) -/

/-- The pair passed to `insert_auth_entry` by one pass of the loop of `load_auth_data`
(`line` is the C string that `fgets` stored), or `none` when the line has no colon. -/
def split_credential (line : List Nat) : Option (List Nat × List Nat) :=
  let l := strip_newline line
  match strchr l 58 with
  | none => none
  | some colon => some (l.take (l.length - colon.length), colon.drop 1)

/-- One pass of the `while (fgets(line, sizeof(line), fp))` loop of `load_auth_data`. -/
def load_auth_line (auth_hash_table : AuthTable) (line : List Nat) : AuthTable :=
  match split_credential line with
  | none => auth_hash_table
  | some (username, password) => insert_auth_entry auth_hash_table username password

/-- The `load_auth_data`, given the successive results of `fgets`. -/
def load_auth_lines (lines : List (List Nat)) : AuthTable :=
  lines.foldl load_auth_line empty_auth_table

/-- The `load_auth_data` on the content of the credential file:
`char line[MAX_USERNAME_LENGTH + MAX_PASSWORD_LENGTH + 2]`. -/
def load_auth_data (file : List Nat) : AuthTable :=
  load_auth_lines
    ((read_lines (MAX_USERNAME_LENGTH + MAX_PASSWORD_LENGTH + 2) file.length file).map c_str)

/-- The pairs passed to `insert_auth_entry` while the credential file is loaded. -/
def credential_pairs (file : List Nat) : List (List Nat × List Nat) :=
  ((read_lines (MAX_USERNAME_LENGTH + MAX_PASSWORD_LENGTH + 2) file.length file).map
    c_str).filterMap split_credential

/-! ## The store in dynamic memory -/

/-- A cell of dynamic memory: a `Question` record with its `next` pointer, a `BSTNode`,
a `PQNode`, or a `char` buffer. A pointer is an address, 0 being `NULL`. -/
inductive Cell where
  | question (q : Question) (next : Nat) : Cell
  | bst (question left right : Nat) : Cell
  | pq (question next : Nat) : Cell
  | chars (text : List Nat) : Cell
deriving DecidableEq, Repr

/-- Dynamic memory: entry `a` is the cell at address `a + 1`, `none` for a free
address; the addresses beyond the list are free. -/
abbrev Heap := List (Option Cell)

/-- The cell that a pointer points to; none for `NULL` and for a free address. -/
def heap_read (h : Heap) (p : Nat) : Option Cell :=
  match p with
  | 0 => none
  | a + 1 => (h.get? a).join

/-- The index of the lowest free entry. -/
def first_free (h : Heap) : Nat :=
  match h with
  | [] => 0
  | none :: _ => 0
  | some _ :: rest => first_free rest + 1

/-- The `malloc` followed by the first stores into the new cell, which give it the
content `c`: the lowest free address is taken (the address of a freed cell is used
again) and allocation succeeds. The result is the pointer and the memory. -/
def malloc (h : Heap) (c : Cell) : Nat × Heap :=
  (first_free h + 1,
   if first_free h < h.length then h.set (first_free h) (some c) else h ++ [some c])

/-- A store through a pointer; no result when the pointer points to no cell. -/
def heap_write (h : Heap) (p : Nat) (c : Cell) : Option Heap :=
  match heap_read h p with
  | none => none
  | some _ => some (h.set (p - 1) (some c))

/-- The `free`: nothing happens for `NULL`; no result (undefined behaviour) for a
pointer to no cell. -/
def free (h : Heap) (p : Nat) : Option Heap :=
  if p = 0 then some h
  else
    match heap_read h p with
    | none => none
    | some _ => some (h.set (p - 1) none)

/-- The dynamic memory together with the globals `question_head`, `question_bst_root`
and `priority_queue_head`, which are pointers into it. -/
structure Memory where
  heap : Heap
  question_head : Nat
  question_bst_root : Nat
  priority_queue_head : Nat
deriving DecidableEq, Repr

/-- The record `*p` for a `Question *p`. -/
def question_at (h : Heap) (p : Nat) : Option Question :=
  match heap_read h p with
  | some (Cell.question q _) => some q
  | _ => none

/-- The `search_bst` on memory: the pointer returned (0 for `NULL`); no result when a
pointer to no cell of the expected type is followed or the recursion is deeper than
`fuel`. -/
def search_bst_mem (fuel : Nat) (h : Heap) (root : Nat) (id : Int) : Option Nat :=
  match fuel with
  | 0 => none
  | fuel + 1 =>
    if root = 0 then some 0
    else
      match heap_read h root with
      | some (Cell.bst question left right) =>
        match question_at h question with
        | some rq =>
          if id = rq.id then some question
          else if id < rq.id then search_bst_mem fuel h left id
          else search_bst_mem fuel h right id
        | none => none
      | _ => none

/-- The `get_question_by_id_json` on memory: the memory after the call and the pointer
to the string returned (allocated by `strdup` or `asprintf`). -/
def get_question_by_id_json_mem (fuel : Nat) (m : Memory) (id : Int) :
    Option (Memory × Nat) :=
  match search_bst_mem fuel m.heap m.question_bst_root id with
  | none => none
  | some q =>
    if q = 0 then
      some ({ heap := (malloc m.heap
                (Cell.chars (lit "\x7b\"error\":\"Question not found\"\x7d"))).2,
              question_head := m.question_head,
              question_bst_root := m.question_bst_root,
              priority_queue_head := m.priority_queue_head },
            (malloc m.heap (Cell.chars (lit "\x7b\"error\":\"Question not found\"\x7d"))).1)
    else
      match question_at m.heap q with
      | none => none
      | some qd =>
        some ({ heap := (malloc m.heap (Cell.chars (question_json qd))).2,
                question_head := m.question_head,
                question_bst_root := m.question_bst_root,
                priority_queue_head := m.priority_queue_head },
              (malloc m.heap (Cell.chars (question_json qd))).1)

/-- The value `node->question->difficulty` for a `PQNode *node`. -/
def node_difficulty (h : Heap) (node : Nat) : Option Int :=
  match heap_read h node with
  | some (Cell.pq question _) => (question_at h question).map (fun q => q.difficulty)
  | _ => none

/-- The loop `while (current->next != NULL && current->next->question->difficulty >=
q->difficulty) current = current->next;` of `copy_to_temp_queue`: the value of
`current` at loop exit. -/
def find_position (fuel : Nat) (h : Heap) (difficulty : Int) (current : Nat) : Option Nat :=
  match fuel with
  | 0 => none
  | fuel + 1 =>
    match heap_read h current with
    | some (Cell.pq _ next) =>
      if next = 0 then some current
      else
        match node_difficulty h next with
        | none => none
        | some d =>
          if d ≥ difficulty then find_position fuel h difficulty next else some current
    | _ => none

/-- The `else` branch of `copy_to_temp_queue`: the walk to the position, then
`new_node->next = current->next; current->next = new_node;`. -/
def insert_after_position (fuel : Nat) (h : Heap) (difficulty : Int)
    (temp_queue_head new_node q : Nat) : Option Heap :=
  match find_position fuel h difficulty temp_queue_head with
  | none => none
  | some current =>
    match heap_read h current with
    | some (Cell.pq cq cnext) =>
      match heap_write h new_node (Cell.pq q cnext) with
      | none => none
      | some h1 => heap_write h1 current (Cell.pq cq new_node)
    | _ => none

/-- The `copy_to_temp_queue(q, &temp_queue_head)` on memory: the memory and the value of
`temp_queue_head` after the call. -/
def copy_to_temp_queue_mem (fuel : Nat) (h : Heap) (q : Nat) (temp_queue_head : Nat) :
    Option (Heap × Nat) :=
  match question_at (malloc h (Cell.pq q 0)).2 q with
  | none => none
  | some qd =>
    if temp_queue_head = 0 then
      (heap_write (malloc h (Cell.pq q 0)).2 (malloc h (Cell.pq q 0)).1
        (Cell.pq q temp_queue_head)).map (fun h2 => (h2, (malloc h (Cell.pq q 0)).1))
    else
      match node_difficulty (malloc h (Cell.pq q 0)).2 temp_queue_head with
      | none => none
      | some d =>
        if qd.difficulty > d then
          (heap_write (malloc h (Cell.pq q 0)).2 (malloc h (Cell.pq q 0)).1
            (Cell.pq q temp_queue_head)).map (fun h2 => (h2, (malloc h (Cell.pq q 0)).1))
        else
          (insert_after_position fuel (malloc h (Cell.pq q 0)).2 qd.difficulty
            temp_queue_head (malloc h (Cell.pq q 0)).1 q).map
            (fun h3 => (h3, temp_queue_head))

/-- The loop "Copy each question to our temporary queue" of
`handle_get_priority_questions` on memory: the arguments are the memory, `current` and
`temp_queue_head`; `walk` bounds the walks inside `copy_to_temp_queue`, `fuel` the
number of passes. -/
def copy_loop (walk fuel : Nat) (h : Heap) (current temp_queue_head : Nat) :
    Option (Heap × Nat) :=
  match fuel with
  | 0 => none
  | fuel + 1 =>
    if current = 0 then some (h, temp_queue_head)
    else
      match copy_to_temp_queue_mem walk h current temp_queue_head with
      | none => none
      | some (h1, temp1) =>
        match heap_read h1 current with
        | some (Cell.question _ next) => copy_loop walk fuel h1 next temp1
        | _ => none

/-- The loop "Get top N questions from priority queue" on memory: as `priority_loop`,
with the node at the head of the temporary queue read from memory and freed in each
pass. The result is the memory, `temp_queue_head`, the C string in `json_buffer` and
`offset` at loop exit. -/
def priority_loop_mem (buffer_size : Nat) (count : Int) (fuel : Nat) (h : Heap)
    (temp_queue_head : Nat) (questions_added : Nat) (first : Bool) (text : List Nat)
    (offset : Nat) : Option (Heap × Nat × List Nat × Nat) :=
  match fuel with
  | 0 => none
  | fuel + 1 =>
    if temp_queue_head ≠ 0 ∧ (questions_added : Int) < count ∧
        offset < buffer_size - 1024 then
      match (if first then some (text, offset)
             else snprintf_at buffer_size text offset (lit ",")) with
      | none => none
      | some (text1, offset1) =>
        match heap_read h temp_queue_head with
        | some (Cell.pq question next) =>
          match question_at h question with
          | none => none
          | some q =>
            match snprintf_at buffer_size text1 offset1 (question_json q) with
            | none => none
            | some (text2, offset2) =>
              match free h temp_queue_head with
              | none => none
              | some h1 =>
                priority_loop_mem buffer_size count fuel h1 next (questions_added + 1)
                  false text2 offset2
        | _ => none
    else some (h, temp_queue_head, text, offset)

/-- The loop "Free any remaining nodes". -/
def free_queue (fuel : Nat) (h : Heap) (temp_queue_head : Nat) : Option Heap :=
  match fuel with
  | 0 => none
  | fuel + 1 =>
    if temp_queue_head = 0 then some h
    else
      match heap_read h temp_queue_head with
      | some (Cell.pq _ next) =>
        match free h temp_queue_head with
        | none => none
        | some h1 => free_queue fuel h1 next
      | _ => none

/-- The `handle_get_priority_questions` on memory: the memory after the call and the
body of the response. The bytes of `json_buffer` are carried by the local `text`; the
cell of the buffer records its allocation and its release. No result when a pointer to
no cell is followed, when a write falls outside the buffer, or when a loop makes more
than `fuel` passes. -/
def handle_get_priority_questions_mem (fuel : Nat) (m : Memory)
    (count_param : Option (List Nat)) : Option (Memory × List Nat) :=
  match copy_loop fuel fuel m.heap m.question_head 0 with
  | none => none
  | some (h1, temp_queue_head) =>
    match snprintf_at (1024 * 1024) [] 0 (lit "[") with
    | none => none
    | some (text0, offset0) =>
      match priority_loop_mem (1024 * 1024) (effective_count count_param) fuel
          (malloc h1 (Cell.chars [])).2 temp_queue_head 0 true text0 offset0 with
      | none => none
      | some (h3, temp3, text1, offset1) =>
        match free_queue fuel h3 temp3 with
        | none => none
        | some h4 =>
          match snprintf_at (1024 * 1024) text1 offset1 (lit "]") with
          | none => none
          | some (text2, _) =>
            match free h4 (malloc h1 (Cell.chars [])).1 with
            | none => none
            | some h5 =>
              some ({ heap := h5, question_head := m.question_head,
                      question_bst_root := m.question_bst_root,
                      priority_queue_head := m.priority_queue_head }, text2)

/-! ### Layout of the store in memory -/

/-- The address of the first entry of a chain laid out in memory, `NULL` for the empty
chain. -/
def head_addr {α : Type} (l : List (Nat × α)) : Nat :=
  match l with
  | [] => 0
  | e :: _ => e.1

/-- The linked list of questions: each entry is the address of a record with the
record stored there; the `next` pointer of a record is the address of the next entry. -/
def list_in (h : Heap) (l : List (Nat × Question)) : Bool :=
  match l with
  | [] => true
  | e :: rest =>
    decide (heap_read h e.1 = some (Cell.question e.2 (head_addr rest))) && list_in h rest

/-- A chain of `PQNode`s: each entry is the address of a node, the pointer to its
question and the record that this pointer points to. -/
def queue_in (h : Heap) (l : List (Nat × Nat × Question)) : Bool :=
  match l with
  | [] => true
  | e :: rest =>
    decide (heap_read h e.1 = some (Cell.pq e.2.1 (head_addr rest))) &&
    decide (question_at h e.2.1 = some e.2.2) && queue_in h rest

/-- A tree of `BSTNode`s laid out in memory: the address of each node, the pointer to
its question and the record that this pointer points to. -/
inductive TreeLayout where
  | null : TreeLayout
  | node (addr question : Nat) (q : Question) (left right : TreeLayout) : TreeLayout
deriving DecidableEq, Repr

def root_addr (t : TreeLayout) : Nat :=
  match t with
  | .null => 0
  | .node addr _ _ _ _ => addr

def tree_of (t : TreeLayout) : BSTNode :=
  match t with
  | .null => .null
  | .node _ _ q left right => .node q (tree_of left) (tree_of right)

def depth (t : TreeLayout) : Nat :=
  match t with
  | .null => 0
  | .node _ _ _ left right => max (depth left) (depth right) + 1

def tree_in (h : Heap) (t : TreeLayout) : Bool :=
  match t with
  | .null => true
  | .node addr question q left right =>
    decide (heap_read h addr = some (Cell.bst question (root_addr left) (root_addr right))) &&
    decide (question_at h question = some q) && tree_in h left && tree_in h right

/-- A memory holding three questions (ids 5, 2, 8 in list order, the address 3 being
free), their search tree and their master queue. -/
def sample_memory : Memory :=
  { heap :=
      [some (Cell.question (sample_question 5 6) 2), some (Cell.question (sample_question 2 3) 4),
       none, some (Cell.question (sample_question 8 9) 0),
       some (Cell.bst 1 6 7), some (Cell.bst 2 0 0), some (Cell.bst 4 0 0),
       some (Cell.pq 4 9), some (Cell.pq 1 10), some (Cell.pq 2 0)],
    question_head := 1, question_bst_root := 5, priority_queue_head := 8 }

def sample_list : List (Nat × Question) :=
  [(1, sample_question 5 6), (2, sample_question 2 3), (4, sample_question 8 9)]

def sample_tree : TreeLayout :=
  .node 5 1 (sample_question 5 6) (.node 6 2 (sample_question 2 3) .null .null)
    (.node 7 4 (sample_question 8 9) .null .null)

set_option maxRecDepth 8192

/-! ## Lemmas on the search tree -/

theorem search_bst_insert_bst (t : BSTNode) (q : Question) (id : Int) :
    search_bst (insert_bst t q) id =
      match search_bst t id with
      | some x => some x
      | none => if id = q.id then some q else none := by
  induction t with
  | null =>
    by_cases h : id = q.id <;> simp [insert_bst, search_bst, h]
  | node rq l r ihl ihr =>
    unfold insert_bst
    by_cases h1 : q.id < rq.id
    · simp only [h1, if_true]
      by_cases h2 : id = rq.id
      · simp [search_bst, h2]
      · by_cases h3 : id < rq.id
        · simp [search_bst, h2, h3, ihl]
        · simp only [search_bst, h2, h3, if_false]
          have : id ≠ q.id := by omega
          cases hs : search_bst r id <;> simp [this]
    · simp only [h1, if_false]
      by_cases h1' : q.id > rq.id
      · simp only [h1', if_true]
        by_cases h2 : id = rq.id
        · simp [search_bst, h2]
        · by_cases h3 : id < rq.id
          · simp only [search_bst, h2, h3, if_false, if_true]
            have : id ≠ q.id := by omega
            cases hs : search_bst l id <;> simp [this]
          · simp [search_bst, h2, h3, ihr]
      · simp only [h1', if_false]
        by_cases h2 : id = rq.id
        · simp [search_bst, h2]
        · have : id ≠ q.id := by omega
          cases hs : search_bst (BSTNode.node rq l r) id <;> simp [this]

theorem insert_bst_of_search_some (t : BSTNode) (q : Question)
    (h : search_bst t q.id ≠ none) : insert_bst t q = t := by
  induction t with
  | null => simp [search_bst] at h
  | node rq l r ihl ihr =>
    unfold insert_bst
    by_cases h1 : q.id < rq.id
    · have h2 : q.id ≠ rq.id := by omega
      simp only [search_bst, h1, h2, if_true, if_false] at h
      simp [h1, ihl h]
    · by_cases h1' : q.id > rq.id
      · have h2 : q.id ≠ rq.id := by omega
        simp only [search_bst, h1, h2, if_false] at h
        simp [h1, h1', ihr h]
      · simp [h1, h1']

theorem search_bst_id (t : BSTNode) (id : Int) (x : Question)
    (h : search_bst t id = some x) : x.id = id := by
  induction t with
  | null => simp [search_bst] at h
  | node rq l r ihl ihr =>
    unfold search_bst at h
    by_cases h2 : id = rq.id
    · simp [h2] at h; rw [← h]; exact h2.symm
    · by_cases h3 : id < rq.id
      · simp only [h2, h3, if_false, if_true] at h; exact ihl h
      · simp only [h2, h3, if_false] at h; exact ihr h

/-! ## Lemmas on `strtok_r` and the fields of a line -/

theorem lit_pipe : lit "|" = [124] := by decide

theorem strtok_r_sep (xs : List Nat) : strtok_r (124 :: xs) [124] = strtok_r xs [124] := by
  simp [strtok_r, List.dropWhile_cons]

theorem strtok_r_tok (x : Nat) (xs : List Nat) (hx : x ≠ 124) :
    strtok_r (x :: xs) [124] =
      (some ((x :: xs).takeWhile (fun b => !(b == 124))),
        ((x :: xs).dropWhile (fun b => !(b == 124))).drop 1) := by
  have hf : (fun b : Nat => !decide (b = 124)) = (fun b => !(b == 124)) := by
    funext b
    by_cases h : b = 124 <;> simp [h]
  simp [strtok_r, List.dropWhile_cons, List.takeWhile_cons, hx, hf]

theorem fields_nil (sep : Nat) : fields sep [] = [] := by
  simp [fields, List.splitOn, List.splitOnP_nil]

theorem fields_cons_sep (sep : Nat) (s : List Nat) : fields sep (sep :: s) = fields sep s := by
  simp [fields, List.splitOn, List.splitOnP_cons]

theorem fields_token (sep : Nat) (x : Nat) (s : List Nat) (hx : x ≠ sep) :
    fields sep (x :: s) =
      (x :: s).takeWhile (fun b => !(b == sep)) ::
        fields sep (((x :: s).dropWhile (fun b => !(b == sep))).drop 1) := by
  have hsplit := List.takeWhile_append_dropWhile (fun b => !(b == sep)) (x :: s)
  have htw : ∀ y ∈ (x :: s).takeWhile (fun b => !(b == sep)), ¬ ((y == sep) = true) := by
    intro y hy
    have := List.mem_takeWhile_imp hy
    simpa using this
  have hne : (x :: s).takeWhile (fun b => !(b == sep)) ≠ [] := by
    simp [List.takeWhile_cons, hx]
  cases hd : (x :: s).dropWhile (fun b => !(b == sep)) with
  | nil =>
    rw [hd, List.append_nil] at hsplit
    have h1 : (x :: s).splitOnP (· == sep) = [x :: s] := by
      apply List.splitOnP_eq_single
      intro y hy
      rw [← hsplit] at hy
      exact htw y hy
    rw [hsplit]
    simp [fields, List.splitOn, h1, List.splitOnP_nil]
  | cons d ds =>
    have hdsep : (d == sep) = true := by
      have := List.head_dropWhile_not (fun b => !(b == sep)) (x :: s) (by rw [hd]; simp)
      simp [hd] at this
      simp [this]
    rw [hd] at hsplit
    have h1 : (x :: s).splitOnP (· == sep) =
        (x :: s).takeWhile (fun b => !(b == sep)) :: ds.splitOnP (· == sep) := by
      conv_lhs => rw [← hsplit]
      exact List.splitOnP_first (· == sep) _ htw d hdsep ds
    simp only [fields, List.splitOn, h1, List.drop_one, List.tail_cons]
    rw [List.filter_cons_of_pos]
    simpa using hne

theorem strtok_r_fields (s : List Nat) :
    fields 124 s =
      match strtok_r s (lit "|") with
      | (none, _) => []
      | (some t, r) => t :: fields 124 r := by
  rw [lit_pipe]
  induction s with
  | nil => simp [strtok_r, fields_nil]
  | cons x xs ih =>
    by_cases hx : x = 124
    · subst hx
      rw [fields_cons_sep, ih, strtok_r_sep]
    · rw [fields_token 124 x xs hx, strtok_r_tok x xs hx]

theorem strtok_r_of_fields (s : List Nat) (h : 0 < (fields 124 s).length) :
    ∃ t r, strtok_r s (lit "|") = (some t, r) ∧ fields 124 s = t :: fields 124 r := by
  have h1 := strtok_r_fields s
  rcases hs : strtok_r s (lit "|") with ⟨_ | t, r⟩
  · rw [hs] at h1; simp [h1] at h
  · rw [hs] at h1; exact ⟨t, r, rfl, h1⟩

theorem parse_option_some (st : ParseState) (i : Nat) (t r : List Nat)
    (h : strtok_r st.rest (lit "|") = (some t, r)) :
    parse_option st i =
      { st with rest := r,
                new_question := { st.new_question with
                  options := st.new_question.options.set i (strncpy t (MAX_OPTION_LENGTH - 1)) } } := by
  simp [parse_option, h]

theorem load_line_eq (s : Store) (line : List Nat) :
    load_line s line =
      match accepted_question line with
      | none => s
      | some q => append_question s q := by
  unfold load_line accepted_question
  by_cases h : (strip_newline line).length = 0
  · simp [h]
  · simp only [h, if_false]

theorem foldl_load_line (lines : List (List Nat)) (s : Store) :
    lines.foldl load_line s = (lines.filterMap accepted_question).foldl append_question s := by
  induction lines generalizing s with
  | nil => rfl
  | cons l ls ih =>
    rw [List.foldl_cons, ih, load_line_eq]
    cases h : accepted_question l <;> simp [List.filterMap_cons, h]

theorem load_questions_eq_build_store (lines : List (List Nat)) :
    load_questions lines = build_store (lines.filterMap accepted_question) :=
  foldl_load_line lines empty_store

theorem question_head_foldl (qs : List Question) (s : Store) :
    (qs.foldl append_question s).question_head = s.question_head ++ qs := by
  induction qs generalizing s with
  | nil => simp
  | cons q qs ih => simp [List.foldl_cons, ih, append_question]

theorem bst_root_foldl (qs : List Question) (s : Store) :
    (qs.foldl append_question s).question_bst_root = qs.foldl insert_bst s.question_bst_root := by
  induction qs generalizing s with
  | nil => simp
  | cons q qs ih => simp [List.foldl_cons, ih, append_question]

theorem search_bst_foldl (qs : List Question) (t : BSTNode) (id : Int) :
    search_bst (qs.foldl insert_bst t) id =
      (search_bst t id).or (qs.find? (fun x => decide (x.id = id))) := by
  induction qs generalizing t with
  | nil => simp
  | cons q qs ih =>
    rw [List.foldl_cons, ih, search_bst_insert_bst, List.find?_cons]
    by_cases h : id = q.id
    · cases hs : search_bst t id <;> simp [h]
    · have h' : ¬ q.id = id := fun e => h e.symm
      cases hs : search_bst t id <;> simp [h, h']

theorem search_bst_build_store (qs : List Question) (id : Int) :
    search_bst (build_store qs).question_bst_root id = qs.find? (fun x => decide (x.id = id)) := by
  unfold build_store
  rw [bst_root_foldl, search_bst_foldl]
  simp [empty_store, search_bst]

theorem question_head_build_store (qs : List Question) :
    (build_store qs).question_head = qs := by
  unfold build_store
  rw [question_head_foldl]
  simp [empty_store]

/-! ## The search index (C1, C2, C3) -/

/-- C2: for the tree built from the empty tree by any sequence of `insert_bst` calls and
every id carried by none of the inserted questions, `search_bst` returns NULL. -/
theorem C2_search_absent_id (qs : List Question) (id : Int) (h : ∀ q ∈ qs, q.id ≠ id) :
    search_bst (qs.foldl insert_bst BSTNode.null) id = none := by
  rw [search_bst_foldl]
  have : qs.find? (fun x => decide (x.id = id)) = none := by
    rw [List.find?_eq_none]
    intro x hx
    simpa using h x hx
  simp [this, search_bst]

theorem C2_search_absent_id_witness :
    (∀ q ∈ [{ zeroed_question with id := 5 }, { zeroed_question with id := 2 },
        { zeroed_question with id := 8 }], q.id ≠ 3) ∧
    search_bst
      ([{ zeroed_question with id := 5 }, { zeroed_question with id := 2 },
        { zeroed_question with id := 8 }].foldl insert_bst BSTNode.null) 3 = none :=
  ⟨by decide, C2_search_absent_id _ 3 (by decide)⟩

/-- C3: in the store built by appending the questions `qs`, one of which has the id of
`q2`, appending `q2` leaves the search tree as it was, `search_bst` with that id still
returns the first-appended question with that id, and the insertion-ordered list is the
old list followed by `q2`: one longer, holding both questions. -/
theorem C3_duplicate_id_append (qs : List Question) (q1 q2 : Question)
    (hmem : q1 ∈ qs) (hid : q1.id = q2.id) :
    (append_question (build_store qs) q2).question_bst_root = (build_store qs).question_bst_root ∧
    (∃ first, qs.find? (fun x => decide (x.id = q2.id)) = some first ∧
      search_bst (build_store qs).question_bst_root q2.id = some first ∧
      search_bst (append_question (build_store qs) q2).question_bst_root q2.id = some first) ∧
    (append_question (build_store qs) q2).question_head = (build_store qs).question_head ++ [q2] ∧
    (append_question (build_store qs) q2).question_head.length =
      (build_store qs).question_head.length + 1 ∧
    q1 ∈ (append_question (build_store qs) q2).question_head ∧
    q2 ∈ (append_question (build_store qs) q2).question_head := by
  have hsome : (qs.find? (fun x => decide (x.id = q2.id))).isSome = true := by
    rw [List.find?_isSome]
    exact ⟨q1, hmem, by simpa using hid⟩
  obtain ⟨first, hfirst⟩ := Option.isSome_iff_exists.mp hsome
  have hsearch : search_bst (build_store qs).question_bst_root q2.id = some first := by
    rw [search_bst_build_store, hfirst]
  have hsame : (append_question (build_store qs) q2).question_bst_root =
      (build_store qs).question_bst_root := by
    simp only [append_question]
    exact insert_bst_of_search_some _ _ (by rw [hsearch]; simp)
  refine ⟨hsame, ⟨first, hfirst, hsearch, by rw [hsame]; exact hsearch⟩, rfl, ?_, ?_, ?_⟩
  · simp [append_question]
  · simp [append_question, question_head_build_store, hmem]
  · simp [append_question]

theorem C3_duplicate_id_append_witness :
    sample_question 4 5 ∈ [sample_question 9 10, sample_question 4 5, sample_question 12 3] ∧
    (append_question
        (build_store [sample_question 9 10, sample_question 4 5, sample_question 12 3])
        (sample_question 4 1)).question_bst_root =
      (build_store
        [sample_question 9 10, sample_question 4 5, sample_question 12 3]).question_bst_root ∧
    search_bst
      (append_question
        (build_store [sample_question 9 10, sample_question 4 5, sample_question 12 3])
        (sample_question 4 1)).question_bst_root 4 = some (sample_question 4 5) ∧
    (append_question
        (build_store [sample_question 9 10, sample_question 4 5, sample_question 12 3])
        (sample_question 4 1)).question_head =
      [sample_question 9 10, sample_question 4 5, sample_question 12 3, sample_question 4 1] :=
  ⟨by decide,
   (C3_duplicate_id_append [sample_question 9 10, sample_question 4 5, sample_question 12 3]
      (sample_question 4 5) (sample_question 4 1) (by decide) (by decide)).1,
   by decide, by decide⟩

/-! ## The ranked snapshot (C4) -/

theorem copy_to_temp_queue_eq_splice (q : Question) (l : List Question) :
    copy_to_temp_queue q l = pq_splice q l := by
  cases l with
  | nil => rfl
  | cons h rest =>
    simp only [copy_to_temp_queue, pq_splice]
    by_cases hc : q.difficulty > h.difficulty
    · have : ¬ h.difficulty ≥ q.difficulty := by omega
      simp [hc, this]
    · have : h.difficulty ≥ q.difficulty := by omega
      simp [hc, this]

theorem pq_splice_perm (q : Question) (l : List Question) :
    (pq_splice q l).Perm (q :: l) := by
  induction l with
  | nil => simp [pq_splice]
  | cons n rest ih =>
    simp only [pq_splice]
    by_cases hc : n.difficulty ≥ q.difficulty
    · simp only [hc, if_true]
      exact (List.Perm.cons n ih).trans (List.Perm.swap q n rest)
    · simp only [hc, if_false]
      exact List.Perm.refl _

theorem pq_splice_sorted (q : Question) (l : List Question)
    (h : l.Pairwise (fun a b => a.difficulty ≥ b.difficulty)) :
    (pq_splice q l).Pairwise (fun a b => a.difficulty ≥ b.difficulty) := by
  induction l with
  | nil => simp [pq_splice]
  | cons n rest ih =>
    simp only [pq_splice]
    rw [List.pairwise_cons] at h
    by_cases hc : n.difficulty ≥ q.difficulty
    · simp only [hc, if_true]
      rw [List.pairwise_cons]
      refine ⟨?_, ih h.2⟩
      intro b hb
      have hb' := (pq_splice_perm q rest).mem_iff.mp hb
      rcases List.mem_cons.mp hb' with e | hmem
      · rw [e]; exact hc
      · exact h.1 b hmem
    · simp only [hc, if_false]
      rw [List.pairwise_cons]
      refine ⟨?_, List.pairwise_cons.mpr h⟩
      intro b hb
      rcases List.mem_cons.mp hb with e | hmem
      · rw [e]; omega
      · have := h.1 b hmem; omega

theorem pq_splice_filter (q : Question) (l : List Question) (d : Int)
    (h : l.Pairwise (fun a b => a.difficulty ≥ b.difficulty)) :
    (pq_splice q l).filter (fun x => decide (x.difficulty = d)) =
      l.filter (fun x => decide (x.difficulty = d)) ++
        [q].filter (fun x => decide (x.difficulty = d)) := by
  induction l with
  | nil => simp [pq_splice]
  | cons n rest ih =>
    simp only [pq_splice]
    rw [List.pairwise_cons] at h
    by_cases hc : n.difficulty ≥ q.difficulty
    · simp only [hc, if_true]
      simp only [List.filter_cons, ih h.2]
      by_cases hn : n.difficulty = d <;> simp [hn]
    · simp only [hc, if_false]
      by_cases hq : q.difficulty = d
      · have hempty : (n :: rest).filter (fun x => decide (x.difficulty = d)) = [] := by
          rw [List.filter_eq_nil_iff]
          intro x hx
          rcases List.mem_cons.mp hx with e | hmem
          · rw [e]; simp; omega
          · have := h.1 x hmem; simp; omega
        rw [List.filter_cons, hempty]
        simp [hq]
      · simp [List.filter_cons, hq]

theorem snapshot_foldl (qs acc : List Question)
    (h : acc.Pairwise (fun a b => a.difficulty ≥ b.difficulty)) :
    (qs.foldl (fun t c => copy_to_temp_queue c t) acc).Perm (acc ++ qs) ∧
    (qs.foldl (fun t c => copy_to_temp_queue c t) acc).Pairwise
      (fun a b => a.difficulty ≥ b.difficulty) ∧
    ∀ d : Int, (qs.foldl (fun t c => copy_to_temp_queue c t) acc).filter
        (fun x => decide (x.difficulty = d)) =
      (acc ++ qs).filter (fun x => decide (x.difficulty = d)) := by
  induction qs generalizing acc with
  | nil => simp [h]
  | cons q qs ih =>
    rw [List.foldl_cons, copy_to_temp_queue_eq_splice]
    obtain ⟨hp, hs, hf⟩ := ih (pq_splice q acc) (pq_splice_sorted q acc h)
    refine ⟨?_, hs, ?_⟩
    · refine hp.trans ?_
      have h1 : (pq_splice q acc ++ qs).Perm ((q :: acc) ++ qs) :=
        List.Perm.append_right qs (pq_splice_perm q acc)
      refine h1.trans ?_
      simpa using (@List.perm_middle _ q acc qs).symm
    · intro d
      rw [hf d, List.filter_append, pq_splice_filter q acc d h, List.filter_append]
      simp only [List.filter_cons, List.filter_nil]
      by_cases hq : q.difficulty = d <;> simp [hq]

/-- C4: the temporary queue that the calls of `copy_to_temp_queue` build from the
insertion-ordered list is the stable sort of the list by descending difficulty: a
permutation of the list, with non-increasing difficulties from head to tail, in which
the questions of each difficulty keep their insertion order; four questions of
difficulties 3, 7, 7, 1 come out as second, third, first, fourth. -/
theorem C4_ranked_snapshot_stable_sort (qs : List Question) :
    (ranked_snapshot qs).Perm qs ∧
    (ranked_snapshot qs).Pairwise (fun a b => a.difficulty ≥ b.difficulty) ∧
    (∀ d : Int, (ranked_snapshot qs).filter (fun x => decide (x.difficulty = d)) =
      qs.filter (fun x => decide (x.difficulty = d))) ∧
    (∀ a b c e : Question,
      ranked_snapshot [{ a with difficulty := 3 }, { b with difficulty := 7 },
          { c with difficulty := 7 }, { e with difficulty := 1 }] =
        [{ b with difficulty := 7 }, { c with difficulty := 7 }, { a with difficulty := 3 },
          { e with difficulty := 1 }]) := by
  obtain ⟨hp, hs, hf⟩ := snapshot_foldl qs [] List.Pairwise.nil
  refine ⟨by simpa [ranked_snapshot] using hp, hs, ?_, ?_⟩
  · intro d
    simpa [ranked_snapshot] using hf d
  · intro a b c e
    simp [ranked_snapshot, copy_to_temp_queue, pq_splice]

/-! ## Lemmas on the output buffer of the ranking query -/

theorem dec_digits_length (fuel n k : Nat) (hk : 1 ≤ k) (hn : n < 10 ^ k) :
    (dec_digits fuel n).length ≤ k := by
  induction fuel generalizing n k with
  | zero => simpa [dec_digits] using hk
  | succ fuel ih =>
    unfold dec_digits
    by_cases h : n < 10
    · simpa [h] using hk
    · simp only [h, if_false, List.length_append, List.length_singleton]
      have hk2 : 2 ≤ k := by
        by_contra hlt
        have : k = 1 := by omega
        subst this
        omega
      have hdiv : n / 10 < 10 ^ (k - 1) := by
        apply Nat.div_lt_of_lt_mul
        have : 10 ^ k = 10 * 10 ^ (k - 1) := by
          rw [← Nat.pow_succ']
          congr 1
          omega
        omega
      have := ih (n / 10) (k - 1) (by omega) hdiv
      omega

theorem fmt_d_length (x : Int) (h1 : -2147483648 ≤ x) (h2 : x ≤ 2147483647) :
    (fmt_d x).length ≤ 11 := by
  have hn : x.natAbs < 10 ^ 10 := by omega
  have := dec_digits_length x.natAbs x.natAbs 10 (by omega) hn
  unfold fmt_d
  split <;> simp <;> omega

theorem option_length (q : Question) (i : Nat)
    (h : ∀ o ∈ q.options, o.length ≤ MAX_OPTION_LENGTH - 1) :
    (q.options.getD i []).length ≤ 255 := by
  rw [List.getD_eq_getElem?_getD]
  cases hget : q.options[i]? with
  | none => simp
  | some o =>
    have hmem : o ∈ q.options := List.getElem?_mem hget
    have := h o hmem
    simpa [MAX_OPTION_LENGTH] using this

theorem question_json_length (q : Question) (h : within_bounds q) :
    (question_json q).length ≤ 3182 := by
  obtain ⟨hq, ho, he, hid, hc, hd⟩ := h
  have h0 := option_length q 0 ho
  have h1 := option_length q 1 ho
  have h2 := option_length q 2 ho
  have h3 := option_length q 3 ho
  have hi := fmt_d_length q.id hid.1 hid.2
  have hcl := fmt_d_length q.correct_answer hc.1 hc.2
  have hdl := fmt_d_length q.difficulty hd.1 hd.2
  simp only [MAX_QUESTION_LENGTH, MAX_EXPLANATION_LENGTH] at hq he
  have l1 : (lit "\x7b\"id\":").length = 6 := by decide
  have l2 : (lit ",\"text\":\"").length = 9 := by decide
  have l3 : (lit "\",\"options\":[\"").length = 14 := by decide
  have l4 : (lit "\",\"").length = 3 := by decide
  have l5 : (lit "\"],\"correct\":").length = 13 := by decide
  have l6 : (lit ",\"explanation\":\"").length = 16 := by decide
  have l7 : (lit "\",\"difficulty\":").length = 15 := by decide
  have l8 : (lit "\x7d").length = 1 := by decide
  simp only [question_json, List.length_append, l1, l2, l3, l4, l5, l6, l7, l8]
  omega

theorem snprintf_at_fits (bs : Nat) (text s : List Nat) (h : text.length + s.length < bs) :
    snprintf_at bs text text.length s = some (text ++ s, (text ++ s).length) := by
  unfold snprintf_at
  have h1 : ¬ text.length > bs := by omega
  have h2 : s.length ≤ bs - text.length - 1 := by omega
  simp [h1, List.take_of_length_le h2]

theorem priority_loop_fits (bs : Nat) (count : Int) (temp : List Question)
    (added : Nat) (first : Bool) (text : List Nat)
    (hb : ∀ q ∈ temp, within_bounds q)
    (hroom : text.length + (count.toNat - added) * 3183 + 1024 < bs) :
    priority_loop bs count temp added first text text.length =
      some (text ++ json_items first (temp.take (count.toNat - added)),
            (text ++ json_items first (temp.take (count.toNat - added))).length) := by
  induction temp generalizing added first text with
  | nil => simp [priority_loop, json_items]
  | cons q next ih =>
    unfold priority_loop
    by_cases hlt : (added : Int) < count
    · have hk : count.toNat - added = (count.toNat - (added + 1)) + 1 := by omega
      have hguard : text.length < bs - 1024 := by omega
      have hq := question_json_length q (hb q (List.mem_cons_self _ _))
      have hcomma : (lit ",").length = 1 := by decide
      rw [hk] at hroom
      rw [hk, List.take_succ_cons]
      simp only [hlt, hguard, and_self, if_true, json_items]
      have hb' : ∀ x ∈ next, within_bounds x := fun x hx => hb x (List.mem_cons_of_mem _ hx)
      cases first with
      | true =>
        simp only [if_true]
        rw [snprintf_at_fits bs text (question_json q) (by omega)]
        simp only
        rw [ih (added + 1) false (text ++ question_json q) hb'
          (by simp only [List.length_append]; omega)]
        simp [List.append_assoc]
      | false =>
        simp only [Bool.false_eq_true, if_false]
        rw [snprintf_at_fits bs text (lit ",") (by omega)]
        simp only
        rw [snprintf_at_fits bs (text ++ lit ",") (question_json q)
          (by simp only [List.length_append]; omega)]
        simp only
        rw [ih (added + 1) false (text ++ lit "," ++ question_json q) hb'
          (by simp only [List.length_append]; omega)]
        simp [List.append_assoc]
    · have hk : count.toNat - added = 0 := by omega
      simp [hlt, hk, json_items]

theorem json_items_false (qs : List Question) :
    json_items false qs = (qs.map (fun q => lit "," ++ question_json q)).flatten := by
  induction qs with
  | nil => rfl
  | cons q rest ih => simp [json_items, ih]

theorem json_items_true (qs : List Question) :
    json_items true qs = List.intercalate (lit ",") (qs.map question_json) := by
  cases qs with
  | nil => rfl
  | cons q rest =>
    simp only [json_items, if_true, List.nil_append, json_items_false, List.map_cons]
    induction rest generalizing q with
    | nil => simp [List.intercalate]
    | cons r rest ih =>
      have := ih r
      simp only [List.intercalate, List.map_cons, List.intersperse_cons₂, List.flatten_cons,
        List.append_assoc] at this ⊢
      rw [this]

/-! ## The ranking query (C5) -/

theorem json_items_length (m : List Question) (f : Bool) (hm : ∀ q ∈ m, within_bounds q) :
    (json_items f m).length ≤ m.length * 3183 := by
  induction m generalizing f with
  | nil => simp [json_items]
  | cons a m ih =>
    have ha := question_json_length a (hm a (List.mem_cons_self _ _))
    have hrest := ih false (fun x hx => hm x (List.mem_cons_of_mem _ hx))
    have hc : (if f = true then ([] : List Nat) else lit ",").length ≤ 1 := by
      cases f <;> decide
    simp only [json_items, List.length_append, List.length_cons]
    omega

theorem ranked_snapshot_mem (question_head : List Question) (q : Question) :
    q ∈ ranked_snapshot question_head ↔ q ∈ question_head := by
  have hperm := (snapshot_foldl question_head [] List.Pairwise.nil).1
  simpa [ranked_snapshot] using hperm.mem_iff

theorem priority_questions_body_eq (question_head : List Question) (count : Int)
    (hbounds : ∀ q ∈ question_head, within_bounds q) (h100 : count ≤ 100) :
    priority_questions_body count question_head =
      some (json_array ((ranked_snapshot question_head).take count.toNat)) := by
  have hb : ∀ q ∈ ranked_snapshot question_head, within_bounds q :=
    fun q hq => hbounds q ((ranked_snapshot_mem question_head q).mp hq)
  have hopen : (lit "[").length = 1 := by decide
  have hclose : (lit "]").length = 1 := by decide
  have h0 : snprintf_at (1024 * 1024) [] 0 (lit "[") = some (lit "[", (lit "[").length) := by
    have := snprintf_at_fits (1024 * 1024) [] (lit "[") (by rw [hopen]; decide)
    simpa using this
  have hloop := priority_loop_fits (1024 * 1024) count (ranked_snapshot question_head) 0 true
    (lit "[") hb (by rw [hopen]; omega)
  rw [Nat.sub_zero] at hloop
  have htake : ∀ q ∈ (ranked_snapshot question_head).take count.toNat, within_bounds q :=
    fun q hq => hb q (List.mem_of_mem_take hq)
  have hlen := json_items_length _ true htake
  have htl : ((ranked_snapshot question_head).take count.toNat).length ≤ 100 := by
    rw [List.length_take]
    omega
  have hfit : (lit "[" ++ json_items true ((ranked_snapshot question_head).take count.toNat)).length
      + (lit "]").length < 1024 * 1024 := by
    simp only [List.length_append, hopen, hclose]
    have : ((ranked_snapshot question_head).take count.toNat).length * 3183 ≤ 100 * 3183 :=
      Nat.mul_le_mul_right _ htl
    omega
  have hend := snprintf_at_fits (1024 * 1024) _ (lit "]") hfit
  unfold priority_questions_body
  simp only [h0, hloop, hend]
  rw [json_array, json_items_true]

/-- C5: for every list of stored questions within the field bounds and every count from
1 to 100, the body sent by `handle_get_priority_questions` is the JSON array of the
first `count` questions of the ranked snapshot, in snapshot order (non-increasing
difficulty); that is `min count n` questions, so neither bound check of the loop on the
1 MB buffer nor a truncated write shortens the result. -/
theorem C5_priority_questions_top_k (question_head : List Question) (count : Int)
    (hbounds : ∀ q ∈ question_head, within_bounds q) (h1 : 1 ≤ count) (h100 : count ≤ 100) :
    priority_questions_body count question_head =
      some (json_array ((ranked_snapshot question_head).take count.toNat)) ∧
    (∀ count_param, effective_count count_param = count →
      handle_get_priority_questions count_param question_head =
        some (json_array ((ranked_snapshot question_head).take count.toNat))) ∧
    (((ranked_snapshot question_head).take count.toNat).length : Int) =
      min count (question_head.length : Int) ∧
    ((ranked_snapshot question_head).take count.toNat).Pairwise
      (fun a b => a.difficulty ≥ b.difficulty) := by
  have hbody := priority_questions_body_eq question_head count hbounds h100
  obtain ⟨hp, hs, _⟩ := snapshot_foldl question_head [] List.Pairwise.nil
  refine ⟨hbody, ?_, ?_, ?_⟩
  · intro count_param hc
    rw [handle_get_priority_questions, hc, hbody]
  · have hlen : (ranked_snapshot question_head).length = question_head.length := by
      simpa [ranked_snapshot] using hp.length_eq
    rw [List.length_take, hlen]
    omega
  · exact List.Pairwise.sublist (List.take_sublist _ _) hs

theorem C5_priority_questions_top_k_witness :
    (∀ q ∈ [sample_question 2 3, sample_question 6 7, sample_question 16 7,
      sample_question 10 1], within_bounds q) ∧
    (ranked_snapshot [sample_question 2 3, sample_question 6 7, sample_question 16 7,
      sample_question 10 1]).take (2 : Int).toNat =
        [sample_question 6 7, sample_question 16 7] ∧
    priority_questions_body 2 [sample_question 2 3, sample_question 6 7,
        sample_question 16 7, sample_question 10 1] =
      some (json_array ((ranked_snapshot [sample_question 2 3, sample_question 6 7,
        sample_question 16 7, sample_question 10 1]).take (2 : Int).toNat)) :=
  ⟨by decide, by decide,
   (C5_priority_questions_top_k [sample_question 2 3, sample_question 6 7,
      sample_question 16 7, sample_question 10 1] 2 (by decide) (by decide) (by decide)).1⟩

theorem effective_count_some (p : List Nat) :
    effective_count (some p) = if 1 ≤ atoi p ∧ atoi p ≤ 100 then atoi p else 5 := by
  unfold effective_count
  by_cases h : atoi p ≤ 0 ∨ atoi p > 100
  · have : ¬ (1 ≤ atoi p ∧ atoi p ≤ 100) := by omega
    simp [h, this]
  · have : 1 ≤ atoi p ∧ atoi p ≤ 100 := by omega
    simp [h, this]

/-! ## The credential table (C7, C8) -/

theorem scan_chain_iff (chain : List AuthEntry) (u p : List Nat) :
    scan_chain chain u p = true ↔ ({ username := u, password := p } : AuthEntry) ∈ chain := by
  induction chain with
  | nil => simp [scan_chain]
  | cons e next ih =>
    unfold scan_chain
    by_cases h : e.username = u ∧ e.password = p
    · have he : e = { username := u, password := p } := by
        cases e; simp at h; simp [h]
      simp [h, he]
    · have hne : ({ username := u, password := p } : AuthEntry) ≠ e := by
        intro he
        apply h
        rw [← he]
        exact ⟨rfl, rfl⟩
      simp [h, ih, hne]

theorem strncpy_short (s : List Nat) (n : Nat) (h : s.length ≤ n) : strncpy s n = s := by
  simp [strncpy, List.take_of_length_le h]

theorem mem_build_auth_table (pairs : List (List Nat × List Nat)) (t : AuthTable) (i : Nat)
    (e : AuthEntry) :
    e ∈ (pairs.foldl (fun t pr => insert_auth_entry t pr.1 pr.2) t) i ↔
      e ∈ t i ∨ ∃ pr ∈ pairs, hash_string pr.1 = i ∧
        e = { username := strncpy pr.1 (MAX_USERNAME_LENGTH - 1),
              password := strncpy pr.2 (MAX_PASSWORD_LENGTH - 1) } := by
  induction pairs generalizing t with
  | nil => simp
  | cons pr rest ih =>
    rw [List.foldl_cons, ih]
    simp only [insert_auth_entry, List.mem_cons, exists_eq_or_imp]
    by_cases hi : i = hash_string pr.1
    · subst hi
      simp only [if_true, List.mem_cons, true_and]
      tauto
    · have hi' : ¬ hash_string pr.1 = i := fun h => hi h.symm
      simp only [hi, if_false, hi', false_and, false_or]

/-- C7 (as stated, refuted): a username of 64 bytes is stored cut to 63 bytes, so the
check with the full username fails right after the insertion. -/
theorem C7_counterexample :
    check_auth_hash_table
      (insert_auth_entry empty_auth_table (List.replicate 64 97) (lit "x"))
      (List.replicate 64 97) (lit "x") = false := by
  decide

/-- C7 (amended): for every table state and every username and password shorter than
64 bytes each, `check_auth_hash_table(u, p)` is true after `insert_auth_entry(u, p)`. -/
theorem C7_insert_then_check (table : AuthTable) (u p : List Nat)
    (hu : u.length < MAX_USERNAME_LENGTH) (hp : p.length < MAX_PASSWORD_LENGTH) :
    check_auth_hash_table (insert_auth_entry table u p) u p = true := by
  have h1 : strncpy u (MAX_USERNAME_LENGTH - 1) = u := strncpy_short u _ (by omega)
  have h2 : strncpy p (MAX_PASSWORD_LENGTH - 1) = p := strncpy_short p _ (by omega)
  simp [check_auth_hash_table, insert_auth_entry, scan_chain, h1, h2]

theorem C7_insert_then_check_witness :
    (lit "alice").length < MAX_USERNAME_LENGTH ∧ (lit "secret").length < MAX_PASSWORD_LENGTH ∧
    check_auth_hash_table
      (insert_auth_entry (build_auth_table [(lit "ba", lit "pw")]) (lit "alice") (lit "secret"))
      (lit "alice") (lit "secret") = true :=
  ⟨by decide, by decide,
   C7_insert_then_check (build_auth_table [(lit "ba", lit "pw")]) (lit "alice") (lit "secret")
     (by decide) (by decide)⟩

/-- C8: in the table built from the initial table by `insert_auth_entry` calls whose
usernames and passwords are all shorter than 64 bytes, `check_auth_hash_table(u, p)` is
true exactly when the pair `(u, p)` is one of the inserted pairs. -/
theorem C8_check_iff_inserted (pairs : List (List Nat × List Nat)) (u p : List Nat)
    (hshort : ∀ pr ∈ pairs, pr.1.length < MAX_USERNAME_LENGTH ∧ pr.2.length < MAX_PASSWORD_LENGTH) :
    check_auth_hash_table (build_auth_table pairs) u p = true ↔ (u, p) ∈ pairs := by
  unfold check_auth_hash_table build_auth_table
  rw [scan_chain_iff, mem_build_auth_table]
  simp only [empty_auth_table, List.not_mem_nil, false_or]
  constructor
  · rintro ⟨pr, hmem, _, he⟩
    obtain ⟨h1, h2⟩ := hshort pr hmem
    rw [strncpy_short pr.1 _ (by omega), strncpy_short pr.2 _ (by omega)] at he
    have hu : u = pr.1 := by injection he
    have hp : p = pr.2 := by injection he
    rw [hu, hp]
    exact hmem
  · intro hmem
    obtain ⟨h1, h2⟩ := hshort (u, p) hmem
    refine ⟨(u, p), hmem, rfl, ?_⟩
    rw [strncpy_short u _ (by exact Nat.le_pred_of_lt h1),
      strncpy_short p _ (by exact Nat.le_pred_of_lt h2)]

theorem C8_check_iff_inserted_witness :
    (∀ pr ∈ [(lit "alice", lit "secret"), (lit "ba", lit "pw"), (lit "alice", lit "other")],
      pr.1.length < MAX_USERNAME_LENGTH ∧ pr.2.length < MAX_PASSWORD_LENGTH) ∧
    hash_string (lit "ba") = hash_string (lit "alice") ∧
    (check_auth_hash_table
      (build_auth_table [(lit "alice", lit "secret"), (lit "ba", lit "pw"),
        (lit "alice", lit "other")]) (lit "alice") (lit "secret") = true ↔
      (lit "alice", lit "secret") ∈
        [(lit "alice", lit "secret"), (lit "ba", lit "pw"), (lit "alice", lit "other")]) ∧
    check_auth_hash_table
      (build_auth_table [(lit "alice", lit "secret"), (lit "ba", lit "pw"),
        (lit "alice", lit "other")]) (lit "alice") (lit "other") = true ∧
    check_auth_hash_table
      (build_auth_table [(lit "alice", lit "secret"), (lit "ba", lit "pw"),
        (lit "alice", lit "other")]) (lit "alice") (lit "pw") = false ∧
    check_auth_hash_table (build_auth_table [(lit "ba", lit "pw")])
      (lit "alice") (lit "pw") = false :=
  ⟨by decide, by decide,
   C8_check_iff_inserted [(lit "alice", lit "secret"), (lit "ba", lit "pw"),
     (lit "alice", lit "other")] (lit "alice") (lit "secret") (by decide),
   by decide, by decide, by decide⟩

/-! ## Lemmas on `handle_login` -/

theorem handle_login_data (table : AuthTable) (con_info : ConnectionInfo) (b : Nat)
    (rest : List Nat) :
    handle_login table (b :: rest) (some con_info) =
      if con_info.post_size + (b :: rest).length > MAX_POST_SIZE then
        { ret := MHD_Result.MHD_NO, con_cls := some con_info,
          upload_data_size := (b :: rest).length, response := none }
      else
        { ret := MHD_Result.MHD_YES,
          con_cls := some
            { post_data := some (con_info.post_data.getD [] ++ b :: rest),
              post_size := con_info.post_size + (b :: rest).length },
          upload_data_size := 0, response := none } := by
  simp [handle_login]

theorem handle_login_post_size (table : AuthTable) (upload_data : List Nat)
    (con_cls : Option ConnectionInfo)
    (h : ∀ ci, con_cls = some ci → ci.post_size ≤ MAX_POST_SIZE) :
    ∀ ci, (handle_login table upload_data con_cls).con_cls = some ci →
      ci.post_size ≤ MAX_POST_SIZE := by
  intro ci hci
  cases con_cls with
  | none =>
    simp [handle_login] at hci
    rw [← hci]
    simp
  | some c =>
    have hc := h c rfl
    cases upload_data with
    | nil =>
      simp only [handle_login, List.length_nil, ne_eq, not_true_eq_false, if_false] at hci
      split at hci
      · simp at hci
      · split at hci <;> simp at hci
    | cons b rest =>
      rw [handle_login_data] at hci
      split at hci
      · simp at hci
        rw [← hci]; exact hc
      · simp at hci
        rw [← hci]
        simp only
        simp only [List.length_cons] at *
        omega

theorem deliver_post_size (table : AuthTable) (deliveries : List (List Nat))
    (con_cls : Option ConnectionInfo)
    (h : ∀ ci, con_cls = some ci → ci.post_size ≤ MAX_POST_SIZE) :
    ∀ ci, (deliver table con_cls deliveries).1 = some ci → ci.post_size ≤ MAX_POST_SIZE := by
  induction deliveries generalizing con_cls with
  | nil => simpa [deliver] using h
  | cons d ds ih =>
    simp only [deliver]
    exact ih _ (handle_login_post_size table d con_cls h)

theorem deliver_single_bytes (table : AuthTable) (n : Nat) (b : Nat) (con_info : ConnectionInfo)
    (h : con_info.post_size + n ≤ MAX_POST_SIZE) :
    deliver table (some con_info) (List.replicate n [b]) =
      (some { post_data := if n = 0 then con_info.post_data
                           else some (con_info.post_data.getD [] ++ List.replicate n b),
              post_size := con_info.post_size + n },
       List.replicate n MHD_Result.MHD_YES) := by
  induction n generalizing con_info with
  | zero => simp [deliver]
  | succ n ih =>
    have hfit : ¬ con_info.post_size + [b].length > MAX_POST_SIZE := by
      simp only [List.length_singleton]; omega
    simp only [List.replicate_succ, deliver]
    rw [handle_login_data]
    simp only [hfit, if_false]
    rw [ih _ (by simp only [List.length_singleton]; omega)]
    simp only [List.length_singleton, Option.getD_some, List.append_assoc,
      List.singleton_append, Nat.succ_ne_zero, if_false]
    have : con_info.post_size + 1 + n = con_info.post_size + (n + 1) := by omega
    rw [this]
    by_cases hn : n = 0
    · subst hn; simp
    · simp [hn]

/-! ## The login handler (C9, C10) -/

theorem c_str_initial (buf : List Nat) : c_str buf <+: buf :=
  List.takeWhile_prefix _

theorem handle_login_complete (table : AuthTable) (con_info : ConnectionInfo) :
    (handle_login table [] (some con_info)).response =
      match parse_post_data (con_info.post_data.map c_str) with
      | none => some { status := MHD_HTTP_BAD_REQUEST, body := error_response }
      | some (username, password) =>
        if check_auth_hash_table table username password then
          some { status := MHD_HTTP_OK, body := success_response }
        else some { status := MHD_HTTP_UNAUTHORIZED, body := error_response } := by
  simp only [handle_login, List.length_nil, ne_eq, not_true_eq_false, if_false, authenticate]
  cases parse_post_data (con_info.post_data.map c_str) with
  | none => rfl
  | some pr =>
    obtain ⟨u, p⟩ := pr
    simp only
    split <;> rfl

/-- C9: a non-empty delivery of N bytes to `handle_login` is answered `MHD_NO` exactly
when `post_size + N > MAX_POST_SIZE` (1024), and then the connection data are left as
they were; otherwise the bytes are appended and `post_size` grows by N. Hence, whatever
the deliveries made on a connection, `post_size` never exceeds 1024; one delivery of
1025 bytes is rejected; 1024 one-byte deliveries are all accepted and a further byte is
rejected. -/
theorem C9_body_accumulator_bound (table : AuthTable) (b : Nat) :
    (∀ (con_info : ConnectionInfo) (rest : List Nat),
      ((handle_login table (b :: rest) (some con_info)).ret = MHD_Result.MHD_NO ↔
        con_info.post_size + (b :: rest).length > MAX_POST_SIZE) ∧
      handle_login table (b :: rest) (some con_info) =
        if con_info.post_size + (b :: rest).length > MAX_POST_SIZE then
          { ret := MHD_Result.MHD_NO, con_cls := some con_info,
            upload_data_size := (b :: rest).length, response := none }
        else
          { ret := MHD_Result.MHD_YES,
            con_cls := some
              { post_data := some (con_info.post_data.getD [] ++ b :: rest),
                post_size := con_info.post_size + (b :: rest).length },
            upload_data_size := 0, response := none }) ∧
    (∀ (deliveries : List (List Nat)) (con_info : ConnectionInfo),
      (deliver table none deliveries).1 = some con_info →
        con_info.post_size ≤ MAX_POST_SIZE) ∧
    MAX_POST_SIZE = 1024 ∧
    (handle_login table (List.replicate 1025 b)
      (some { post_data := none, post_size := 0 })).ret = MHD_Result.MHD_NO ∧
    deliver table none ([] :: List.replicate 1024 [b]) =
      (some { post_data := some (List.replicate 1024 b), post_size := 1024 },
       MHD_Result.MHD_YES :: List.replicate 1024 MHD_Result.MHD_YES) ∧
    handle_login table [b] (some { post_data := some (List.replicate 1024 b), post_size := 1024 }) =
      { ret := MHD_Result.MHD_NO,
        con_cls := some { post_data := some (List.replicate 1024 b), post_size := 1024 },
        upload_data_size := 1, response := none } := by
  refine ⟨?_, ?_, rfl, ?_, ?_, ?_⟩
  · intro con_info rest
    refine ⟨?_, handle_login_data table con_info b rest⟩
    rw [handle_login_data]
    split <;> simp_all
  · intro deliveries con_info h
    exact deliver_post_size table deliveries none (by simp) con_info h
  · have : List.replicate 1025 b = b :: List.replicate 1024 b := List.replicate_succ b 1024
    rw [this, handle_login_data]
    simp [MAX_POST_SIZE]
  · have h := deliver_single_bytes table 1024 b { post_data := none, post_size := 0 }
      (by simp [MAX_POST_SIZE])
    have h0 : deliver table none ([] :: List.replicate 1024 [b]) =
        ((deliver table (some { post_data := none, post_size := 0 })
            (List.replicate 1024 [b])).1,
         MHD_Result.MHD_YES ::
          (deliver table (some { post_data := none, post_size := 0 })
            (List.replicate 1024 [b])).2) := by
      rw [deliver]
      rfl
    rw [h0, h]
    simp
  · rw [handle_login_data]
    simp [MAX_POST_SIZE]

theorem C9_body_accumulator_bound_witness :
    (deliver empty_auth_table none [[], lit "user", lit "name=a"]).1 =
      some { post_data := some (lit "username=a"), post_size := 10 } ∧
    (∀ con_info : ConnectionInfo,
      (deliver empty_auth_table none [[], lit "user", lit "name=a"]).1 = some con_info →
      con_info.post_size ≤ MAX_POST_SIZE) :=
  ⟨by decide,
   fun con_info h => (C9_body_accumulator_bound empty_auth_table 97).2.1
     [[], lit "user", lit "name=a"] con_info h⟩

theorem strstr_some_of_occurs (hay needle : List Nat) (h : needle <:+: hay) :
    ∃ s, strstr hay needle = some s := by
  induction hay with
  | nil =>
    have : needle = [] := List.eq_nil_of_infix_nil h
    simp [strstr, this]
  | cons b t ih =>
    simp only [strstr]
    by_cases hp : needle.isPrefixOf (b :: t) = true
    · simp [hp]
    · simp only [hp]
      rcases List.infix_cons_iff.mp h with h1 | h2
      · exact absurd (List.isPrefixOf_iff_prefix.mpr h1) hp
      · simpa using ih h2

theorem strchr_length_le (s : List Nat) (c : Nat) (e : List Nat) (h : strchr s c = some e) :
    e.length ≤ s.length := by
  induction s with
  | nil => simp [strchr] at h
  | cons b t ih =>
    simp only [strchr] at h
    split at h
    · simp at h; rw [← h]
    · have := ih h
      simp only [List.length_cons]
      omega

theorem strchr_none_takeWhile (s : List Nat) (c : Nat) (h : strchr s c = none) :
    s.takeWhile (fun b => b != c) = s := by
  induction s with
  | nil => rfl
  | cons b t ih =>
    simp only [strchr] at h
    split at h
    · simp at h
    · rename_i hb
      simp [List.takeWhile_cons, hb, ih h]

theorem strchr_some_takeWhile (s : List Nat) (c : Nat) (e : List Nat) (h : strchr s c = some e) :
    s.take (s.length - e.length) = s.takeWhile (fun b => b != c) := by
  induction s with
  | nil => simp [strchr] at h
  | cons b t ih =>
    simp only [strchr] at h
    split at h
    · rename_i hb
      simp at h
      rw [← h]
      simp [List.takeWhile_cons, hb]
    · rename_i hb
      have hle := strchr_length_le t c e h
      have : (b :: t).length - e.length = (t.length - e.length) + 1 := by
        simp only [List.length_cons]; omega
      rw [this, List.take_succ_cons, ih h]
      simp [List.takeWhile_cons, hb]

theorem strchr_some_length (s : List Nat) (c : Nat) (e : List Nat) (h : strchr s c = some e) :
    s.length - e.length = (s.takeWhile (fun b => b != c)).length := by
  rw [← strchr_some_takeWhile s c e h, List.length_take]
  exact (Nat.min_eq_left (Nat.sub_le _ _)).symm

theorem take_length_takeWhile (p : Nat → Bool) (s : List Nat) :
    s.take (s.takeWhile p).length = s.takeWhile p := by
  induction s with
  | nil => rfl
  | cons b t ih =>
    by_cases hb : p b = true
    · simp [List.takeWhile_cons, hb, ih]
    · simp [List.takeWhile_cons, hb]

theorem strchr_none_length (s : List Nat) (c : Nat) (h : strchr s c = none) :
    s.length = (s.takeWhile (fun b => b != c)).length := by
  rw [strchr_none_takeWhile s c h]

theorem parse_post_data_eq (d us ps : List Nat)
    (hu : strstr d (lit "username=") = some us) (hp : strstr d (lit "password=") = some ps) :
    parse_post_data (some d) =
      if ((us.drop 9).takeWhile (fun b => b != 38)).length ≥ MAX_USERNAME_LENGTH ∨
         ((ps.drop 9).takeWhile (fun b => b != 38)).length ≥ MAX_PASSWORD_LENGTH then none
      else some ((us.drop 9).takeWhile (fun b => b != 38),
                 (ps.drop 9).takeWhile (fun b => b != 38)) := by
  simp only [parse_post_data, hu, hp]
  cases hcu : strchr (us.drop 9) 38 with
  | none =>
    have l1 := strchr_none_length _ _ hcu
    cases hcp : strchr (ps.drop 9) 38 with
    | none =>
      have l2 := strchr_none_length _ _ hcp
      simp only [strncpy]
      rw [l1, l2]
      simp only [take_length_takeWhile]
    | some pe =>
      have l2 := strchr_some_length _ _ _ hcp
      simp only [strncpy]
      rw [l1, l2]
      simp only [take_length_takeWhile]
  | some ue =>
    have l1 := strchr_some_length _ _ _ hcu
    cases hcp : strchr (ps.drop 9) 38 with
    | none =>
      have l2 := strchr_none_length _ _ hcp
      simp only [strncpy]
      rw [l1, l2]
      simp only [take_length_takeWhile]
    | some pe =>
      have l2 := strchr_some_length _ _ _ hcp
      simp only [strncpy]
      rw [l1, l2]
      simp only [take_length_takeWhile]

theorem strstr_cons (b : Nat) (t needle : List Nat) :
    strstr (b :: t) needle =
      if needle.isPrefixOf (b :: t) then some (b :: t) else strstr t needle := by
  rw [strstr]

theorem strstr_append_skip (a rest needle : List Nat)
    (h : ∀ s, s <:+ a → s ≠ [] → ¬ needle <+: s ++ rest) :
    strstr (a ++ rest) needle = strstr rest needle := by
  induction a with
  | nil => rfl
  | cons b t ih =>
    have hb : ¬ needle <+: (b :: t) ++ rest := h (b :: t) (List.suffix_refl _) (by simp)
    have hb' : needle.isPrefixOf (b :: (t ++ rest)) = false := by
      cases hv : needle.isPrefixOf (b :: (t ++ rest)) with
      | false => rfl
      | true => exact absurd (List.isPrefixOf_iff_prefix.mp hv) hb
    have ht := ih (fun s hs hne => h s (hs.trans (List.suffix_cons b t)) hne)
    rw [List.cons_append, strstr_cons, hb']
    simpa using ht

theorem strstr_at_start (needle rest : List Nat) (hne : needle ≠ []) :
    strstr (needle ++ rest) needle = some (needle ++ rest) := by
  cases needle with
  | nil => exact absurd rfl hne
  | cons b t =>
    have hv : (b :: t).isPrefixOf (b :: (t ++ rest)) = true :=
      List.isPrefixOf_iff_prefix.mpr (List.prefix_append (b :: t) rest)
    rw [List.cons_append, strstr_cons, hv]
    rfl

theorem c_str_of_no_nul (buf : List Nat) (h : 0 ∉ buf) : c_str buf = buf := by
  unfold c_str
  rw [List.takeWhile_eq_self_iff]
  intro b hb
  have : b ≠ 0 := fun e => h (e ▸ hb)
  simpa using this

theorem takeWhile_ne_append (c : Nat) (u r : List Nat) (h : c ∉ u) :
    (u ++ c :: r).takeWhile (fun b => b != c) = u := by
  induction u with
  | nil => simp [List.takeWhile_cons]
  | cons x t ih =>
    have hx : x ≠ c := fun e => h (by simp [e])
    have ht : c ∉ t := fun hm => h (List.mem_cons_of_mem _ hm)
    simp [List.takeWhile_cons, hx, ih ht]

theorem takeWhile_ne_all (c : Nat) (u : List Nat) (h : c ∉ u) :
    u.takeWhile (fun b => b != c) = u := by
  rw [List.takeWhile_eq_self_iff]
  intro b hb
  have : b ≠ c := fun e => h (e ▸ hb)
  simpa using this

theorem password_key_not_in_username_key (s rest : List Nat)
    (hs : s <:+ lit "username=") (hne : s ≠ []) : ¬ lit "password=" <+: s ++ rest := by
  intro hp
  cases s with
  | nil => exact hne rfl
  | cons c s' =>
    have hc : c ∈ lit "username=" := hs.subset (List.mem_cons_self _ _)
    have h112 : c = 112 := by
      obtain ⟨t, ht⟩ := hp
      have hl : lit "password=" = 112 :: lit "assword=" := by decide
      rw [hl] at ht
      simp only [List.cons_append, List.cons.injEq] at ht
      exact ht.1.symm
    rw [h112] at hc
    revert hc
    decide

theorem password_key_not_across (u s rest : List Nat) (hs : s <:+ u)
    (hkey : ¬ lit "password=" <:+: u) : ¬ lit "password=" <+: s ++ ([38] ++ rest) := by
  intro hp
  obtain ⟨t, ht⟩ := hp
  rw [List.singleton_append] at ht
  have h38 : 38 ∉ lit "password=" := by decide
  rcases List.append_eq_append_iff.mp ht with ⟨a, h1, _⟩ | ⟨c, h1, h2⟩
  · exact hkey ((List.prefix_append _ a |>.isInfix).trans (h1 ▸ hs.isInfix))
  · cases c with
    | nil =>
      simp only [List.append_nil] at h1
      exact hkey (h1 ▸ hs.isInfix)
    | cons x c' =>
      simp only [List.cons_append, List.cons.injEq] at h2
      apply h38
      rw [h1, h2.1]
      simp

theorem strstr_password_key (u p : List Nat) (hkey : ¬ lit "password=" <:+: u) :
    strstr (lit "username=" ++ u ++ lit "&password=" ++ p) (lit "password=") =
      some (lit "password=" ++ p) := by
  have hsplit : lit "username=" ++ u ++ lit "&password=" ++ p =
      lit "username=" ++ (u ++ ([38] ++ (lit "password=" ++ p))) := by
    have : lit "&password=" = [38] ++ lit "password=" := by decide
    rw [this]
    simp only [List.append_assoc]
  rw [hsplit]
  rw [strstr_append_skip _ _ _ (fun s hs hne => password_key_not_in_username_key s _ hs hne)]
  rw [strstr_append_skip _ _ _ (fun s hs _ => password_key_not_across u s _ hs hkey)]
  rw [strstr_append_skip [38] _ _ (fun s hs hne => by
    have hs' : s = [38] := by
      rcases List.suffix_cons_iff.mp hs with h | h
      · exact h
      · exact absurd (List.eq_nil_of_suffix_nil h) hne
    rw [hs']
    intro hp
    obtain ⟨t, ht⟩ := hp
    have hl : lit "password=" = 112 :: lit "assword=" := by decide
    rw [hl] at ht
    simp at ht)]
  exact strstr_at_start _ _ (by decide)

/-! ## Field extraction and the login responses (C11, C12, C13) -/

/-- C11 (as stated, refuted): the username `password=x` is shorter than 64 bytes and
holds no `&` and no NUL, yet for the payload `username=password=x&password=secret` the
first `password=` that `strstr` finds lies inside the username, and the password
extracted is `x`, not `secret`. -/
theorem C11_counterexample :
    (lit "password=x").length < 64 ∧ (lit "secret").length < 64 ∧
    38 ∉ lit "password=x" ∧ 38 ∉ lit "secret" ∧ 0 ∉ lit "password=x" ∧ 0 ∉ lit "secret" ∧
    parse_post_data
      (some (c_str (lit "username=" ++ lit "password=x" ++ lit "&password=" ++ lit "secret"))) =
      some (lit "password=x", lit "x") ∧
    parse_post_data
      (some (c_str (lit "username=" ++ lit "password=x" ++ lit "&password=" ++ lit "secret"))) ≠
      some (lit "password=x", lit "secret") := by
  decide

/-- C11 (amended): for every username `u` and password `p`, each shorter than 64 bytes
and free of `&` and NUL, where `u` does not contain the text `password=`,
`parse_post_data` succeeds on `username=u&password=p` and extracts exactly `u` and `p`. -/
theorem C11_parse_post_data_extracts (u p : List Nat)
    (hu : u.length < MAX_USERNAME_LENGTH) (hp : p.length < MAX_PASSWORD_LENGTH)
    (hua : 38 ∉ u) (hpa : 38 ∉ p) (hu0 : 0 ∉ u) (hp0 : 0 ∉ p)
    (hkey : ¬ lit "password=" <:+: u) :
    parse_post_data (some (c_str (lit "username=" ++ u ++ lit "&password=" ++ p))) =
      some (u, p) := by
  have hnul : 0 ∉ lit "username=" ++ u ++ lit "&password=" ++ p := by
    have h1 : 0 ∉ lit "username=" := by decide
    have h2 : 0 ∉ lit "&password=" := by decide
    simp only [List.mem_append, not_or]
    exact ⟨⟨⟨h1, hu0⟩, h2⟩, hp0⟩
  rw [c_str_of_no_nul _ hnul]
  have hup : strstr (lit "username=" ++ u ++ lit "&password=" ++ p) (lit "username=") =
      some (lit "username=" ++ (u ++ (38 :: (lit "password=" ++ p)))) := by
    have hsplit : lit "username=" ++ u ++ lit "&password=" ++ p =
        lit "username=" ++ (u ++ (38 :: (lit "password=" ++ p))) := by
      have : lit "&password=" = 38 :: lit "password=" := by decide
      rw [this]
      simp only [List.append_assoc, List.cons_append]
    rw [hsplit]
    exact strstr_at_start _ _ (by decide)
  rw [parse_post_data_eq _ _ _ hup (strstr_password_key u p hkey)]
  have d1 : (lit "username=" ++ (u ++ (38 :: (lit "password=" ++ p)))).drop 9 =
      u ++ (38 :: (lit "password=" ++ p)) := List.drop_left' (by decide)
  have d2 : (lit "password=" ++ p).drop 9 = p := List.drop_left' (by decide)
  rw [d1, d2, takeWhile_ne_append 38 u _ hua, takeWhile_ne_all 38 p hpa]
  have : ¬ (u.length ≥ MAX_USERNAME_LENGTH ∨ p.length ≥ MAX_PASSWORD_LENGTH) := by omega
  simp only [this, if_false]

theorem C11_parse_post_data_extracts_witness :
    (lit "alice").length < MAX_USERNAME_LENGTH ∧ (lit "secret").length < MAX_PASSWORD_LENGTH ∧
    parse_post_data
      (some (c_str (lit "username=" ++ lit "alice" ++ lit "&password=" ++ lit "secret"))) =
      some (lit "alice", lit "secret") :=
  ⟨by decide, by decide,
   C11_parse_post_data_extracts (lit "alice") (lit "secret") (by decide) (by decide)
     (by decide) (by decide) (by decide) (by decide) (by decide)⟩

/-- C12: for every payload in which `username=` and `password=` both occur,
`parse_post_data` fails exactly when the username value or the password value (the text
after the first occurrence of the key, up to the next `&` or the end) is 64 bytes or
longer; when both are at most 63 bytes it succeeds and returns the two values whole.
A failure returns no pair: nothing is cut to fit. -/
theorem C12_parse_post_data_length_check (d : List Nat)
    (hu : lit "username=" <:+: d) (hp : lit "password=" <:+: d) :
    ∃ uv pv, field_value (lit "username=") d = some uv ∧
      field_value (lit "password=") d = some pv ∧
      (parse_post_data (some d) = none ↔ 64 ≤ uv.length ∨ 64 ≤ pv.length) ∧
      (64 ≤ uv.length ∨ 64 ≤ pv.length → parse_post_data (some d) = none) ∧
      (uv.length ≤ 63 → pv.length ≤ 63 → parse_post_data (some d) = some (uv, pv)) := by
  obtain ⟨us, hus⟩ := strstr_some_of_occurs d _ hu
  obtain ⟨ps, hps⟩ := strstr_some_of_occurs d _ hp
  have hl1 : (lit "username=").length = 9 := by decide
  have hl2 : (lit "password=").length = 9 := by decide
  refine ⟨(us.drop 9).takeWhile (fun b => b != 38), (ps.drop 9).takeWhile (fun b => b != 38),
    by simp [field_value, hus, hl1], by simp [field_value, hps, hl2], ?_, ?_, ?_⟩
  · rw [parse_post_data_eq d us ps hus hps]
    simp only [MAX_USERNAME_LENGTH, MAX_PASSWORD_LENGTH]
    split <;> simp_all
  · intro h
    rw [parse_post_data_eq d us ps hus hps]
    simp only [MAX_USERNAME_LENGTH, MAX_PASSWORD_LENGTH]
    rw [if_pos h]
  · intro h1 h2
    rw [parse_post_data_eq d us ps hus hps]
    simp only [MAX_USERNAME_LENGTH, MAX_PASSWORD_LENGTH]
    rw [if_neg (by omega)]

theorem C12_parse_post_data_length_check_witness :
    lit "username=" <:+: lit "password=pw&username=" ++ List.replicate 64 97 ∧
    lit "password=" <:+: lit "password=pw&username=" ++ List.replicate 64 97 ∧
    parse_post_data (some (lit "password=pw&username=" ++ List.replicate 64 97)) = none ∧
    ∃ uv pv,
      field_value (lit "username=") (lit "password=pw&username=" ++ List.replicate 64 97) =
        some uv ∧
      field_value (lit "password=") (lit "password=pw&username=" ++ List.replicate 64 97) =
        some pv ∧
      (parse_post_data (some (lit "password=pw&username=" ++ List.replicate 64 97)) = none ↔
        64 ≤ uv.length ∨ 64 ≤ pv.length) ∧
      (64 ≤ uv.length ∨ 64 ≤ pv.length →
        parse_post_data (some (lit "password=pw&username=" ++ List.replicate 64 97)) = none) ∧
      (uv.length ≤ 63 → pv.length ≤ 63 →
        parse_post_data (some (lit "password=pw&username=" ++ List.replicate 64 97)) =
          some (uv, pv)) :=
  ⟨by decide, by decide, by decide,
   C12_parse_post_data_length_check (lit "password=pw&username=" ++ List.replicate 64 97)
     (by decide) (by decide)⟩

/-- C13 (as stated, refuted): against a table holding `alice`/`secret`, the payload
`username=alice` (no `password=`: malformed) and the payload
`username=alice&password=wrong` (authentication failure) are answered with the same
message; only the status, 400 and 401, differs. -/
theorem C13_counterexample :
    (handle_login (build_auth_table [(lit "alice", lit "secret")]) []
      (some { post_data := some (lit "username=alice"), post_size := 14 })).response =
      some { status := 400,
             body := lit "\x7b\"success\":false,\"message\":\"Invalid credentials\"\x7d" } ∧
    (handle_login (build_auth_table [(lit "alice", lit "secret")]) []
      (some { post_data := some (lit "username=alice&password=wrong"),
              post_size := 29 })).response =
      some { status := 401,
             body := lit "\x7b\"success\":false,\"message\":\"Invalid credentials\"\x7d" } := by
  decide

/-- C13 (amended): whenever `parse_post_data` fails on the payload of one connection and
succeeds on the payload of another whose extracted pair `check_auth_hash_table` rejects,
the two responses of `handle_login` carry the same message (`error_response`) and differ
in their status: 400 for the malformed payload, 401 for the authentication failure. -/
theorem C13_error_responses (table : AuthTable) (bad good : ConnectionInfo)
    (username password : List Nat)
    (hbad : parse_post_data (bad.post_data.map c_str) = none)
    (hgood : parse_post_data (good.post_data.map c_str) = some (username, password))
    (hrej : check_auth_hash_table table username password = false) :
    (handle_login table [] (some bad)).response =
      some { status := MHD_HTTP_BAD_REQUEST, body := error_response } ∧
    (handle_login table [] (some good)).response =
      some { status := MHD_HTTP_UNAUTHORIZED, body := error_response } ∧
    MHD_HTTP_BAD_REQUEST ≠ MHD_HTTP_UNAUTHORIZED := by
  refine ⟨?_, ?_, by decide⟩
  · rw [handle_login_complete, hbad]
  · rw [handle_login_complete, hgood]
    simp [hrej]

theorem C13_error_responses_witness :
    (handle_login (build_auth_table [(lit "alice", lit "secret")]) []
      (some { post_data := some (lit "password=secret"), post_size := 15 })).response =
      some { status := MHD_HTTP_BAD_REQUEST, body := error_response } ∧
    (handle_login (build_auth_table [(lit "alice", lit "secret")]) []
      (some { post_data := some (lit "username=bob&password=secret"),
              post_size := 28 })).response =
      some { status := MHD_HTTP_UNAUTHORIZED, body := error_response } ∧
    MHD_HTTP_BAD_REQUEST ≠ MHD_HTTP_UNAUTHORIZED :=
  C13_error_responses (build_auth_table [(lit "alice", lit "secret")])
    { post_data := some (lit "password=secret"), post_size := 15 }
    { post_data := some (lit "username=bob&password=secret"), post_size := 28 }
    (lit "bob") (lit "secret") (by decide) (by decide) (by decide)

/-! ## Lemmas on the parsed record and on reading the file -/

theorem strtok_r_head (l f : List Nat) (rest : List (List Nat))
    (h : fields 124 l = f :: rest) :
    ∃ r, strtok_r l (lit "|") = (some f, r) ∧ fields 124 r = rest := by
  obtain ⟨t, r, h1, e1⟩ := strtok_r_of_fields l (by rw [h]; simp)
  rw [h] at e1
  simp only [List.cons.injEq] at e1
  exact ⟨r, by rw [h1, e1.1], e1.2.symm⟩

theorem strtok_r_last (r : List Nat) :
    (strtok_r r (lit "|")).1 = (fields 124 r).head? := by
  have h := strtok_r_fields r
  rcases hs : strtok_r r (lit "|") with ⟨_ | t, r'⟩
  · rw [hs] at h; simp [h]
  · rw [hs] at h; simp [h]

theorem parse_line_fields (l f1 f2 f3 f4 f5 f6 f7 : List Nat) (rest : List (List Nat))
    (h : fields 124 l = f1 :: f2 :: f3 :: f4 :: f5 :: f6 :: f7 :: rest) :
    parse_line l =
      { errors := [], frees := 0,
        question := some (question_of_fields f1 f2 f3 f4 f5 f6 f7 rest.head?) } := by
  obtain ⟨r1, h1, e1⟩ := strtok_r_head l f1 _ h
  obtain ⟨r2, h2, e2⟩ := strtok_r_head r1 f2 _ e1
  obtain ⟨r3, h3, e3⟩ := strtok_r_head r2 f3 _ e2
  obtain ⟨r4, h4, e4⟩ := strtok_r_head r3 f4 _ e3
  obtain ⟨r5, h5, e5⟩ := strtok_r_head r4 f5 _ e4
  obtain ⟨r6, h6, e6⟩ := strtok_r_head r5 f6 _ e5
  obtain ⟨r7, h7, e7⟩ := strtok_r_head r6 f7 _ e6
  have h8 := strtok_r_last r7
  rw [e7] at h8
  have hr : List.range 4 = [0, 1, 2, 3] := rfl
  unfold parse_line
  simp only [h1, h2, hr, List.foldl]
  rw [parse_option_some _ 0 f3 r3 h3]
  rw [parse_option_some _ 1 f4 r4 h4]
  rw [parse_option_some _ 2 f5 r5 h5]
  rw [parse_option_some _ 3 f6 r6 h6]
  simp only [h7]
  rcases hs : strtok_r r7 (lit "|") with ⟨_ | t8, r8⟩
  · rw [hs] at h8
    simp only at h8
    simp [question_of_fields, zeroed_question, ← h8]
  · rw [hs] at h8
    simp only at h8
    simp [question_of_fields, zeroed_question, ← h8]

theorem strip_newline_concat (l : List Nat) : strip_newline (l ++ [10]) = l := by
  simp [strip_newline]

theorem through_newline_line (l rest : List Nat) (h : 10 ∉ l) :
    through_newline (l ++ 10 :: rest) = l ++ [10] := by
  induction l with
  | nil => simp [through_newline]
  | cons b t ih =>
    have hb : b ≠ 10 := fun e => h (by simp [e])
    have ht : 10 ∉ t := fun hm => h (List.mem_cons_of_mem _ hm)
    simp [through_newline, hb, ih ht]

theorem read_lines_single (l : List Nat) (h : 10 ∉ l) (hlen : l.length + 1 ≤ 2047) :
    read_lines 2048 (l ++ [10]).length (l ++ [10]) = [l ++ [10]] := by
  have hf : fgets 2048 (l ++ [10]) = some (l ++ [10], []) := by
    have htake : (l ++ [10]).take (2048 - 1) = l ++ [10] :=
      List.take_of_length_le (by simp only [List.length_append, List.length_singleton]; omega)
    cases hl : l ++ [10] with
    | nil => simp at hl
    | cons b t =>
      rw [← hl]
      have : fgets 2048 (l ++ [10]) =
          some (through_newline ((l ++ [10]).take (2048 - 1)),
            (l ++ [10]).drop (through_newline ((l ++ [10]).take (2048 - 1))).length) := by
        rw [hl]; rfl
      rw [this, htake, through_newline_line l [] h]
      simp
  have hfuel : (l ++ [10]).length = l.length + 1 := by simp
  rw [hfuel, read_lines, hf]
  simp only
  cases hn : l.length with
  | zero => rfl
  | succ n => rfl

theorem load_questions_file_single (l : List Nat) (h : 10 ∉ l) (h0 : 0 ∉ l)
    (hlen : l.length + 1 ≤ 2047) :
    load_questions_file (l ++ [10]) = load_line empty_store (l ++ [10]) := by
  unfold load_questions_file
  rw [read_lines_single l h hlen]
  have hnul : 0 ∉ l ++ [10] := by simp [h0]
  simp [load_questions, c_str_of_no_nul _ hnul]

theorem wrap32_of_range (x : Int) (h1 : -2147483648 ≤ x) (h2 : x ≤ 2147483647) :
    wrap32 x = x := by
  unfold wrap32
  omega

theorem wrap32_range (x : Int) : -2147483648 ≤ wrap32 x ∧ wrap32 x ≤ 2147483647 := by
  unfold wrap32
  omega

theorem atoi_range (s : List Nat) : -2147483648 ≤ atoi s ∧ atoi s ≤ 2147483647 :=
  wrap32_range _

/-! ## Lemmas on the full listing -/

theorem question_line_pos (q : Question) : 1 ≤ (question_line q).length := by
  have l : (lit "\n").length = 1 := by decide
  simp only [question_line, List.length_append, l]
  omega

theorem listing_loop_fits (bs : Nat) (qs : List Question) (text : List Nat)
    (h : qs ≠ [] → text.length + (listing_text qs.dropLast).length < bs - 1024 ∧
      text.length + (listing_text qs).length < bs) :
    listing_loop bs qs text text.length =
      some (text ++ listing_text qs, (text ++ listing_text qs).length) := by
  induction qs generalizing text with
  | nil => simp [listing_loop, listing_text]
  | cons q rest ih =>
    obtain ⟨h1, h2⟩ := h (by simp)
    have hguard : text.length < bs - 1024 := by omega
    have hfit : text.length + (question_line q).length < bs := by
      simp only [listing_text, List.length_append] at h2
      omega
    unfold listing_loop
    rw [if_pos hguard, snprintf_at_fits bs text _ hfit]
    simp only
    rw [ih (text ++ question_line q)]
    · simp [listing_text, List.append_assoc]
    · intro hne
      obtain ⟨r, rs, hr⟩ := List.exists_cons_of_ne_nil hne
      have hd : (q :: rest).dropLast = q :: rest.dropLast := by
        rw [hr]; rfl
      rw [hd] at h1
      simp only [listing_text, List.length_append] at h1 h2 ⊢
      omega

theorem handle_get_questions_listing (s : Store) (hne : s.question_head ≠ [])
    (h1 : (listing_text s.question_head.dropLast).length < 1024 * 1024 - 1024)
    (h2 : (listing_text s.question_head).length < 1024 * 1024) :
    handle_get_questions s none = (s, some (listing_text s.question_head)) := by
  have hloop := listing_loop_fits (1024 * 1024) s.question_head []
    (fun _ => ⟨by simpa using h1, by simpa using h2⟩)
  simp only [List.nil_append, List.length_nil] at hloop
  unfold handle_get_questions
  cases hq : s.question_head with
  | nil => exact absurd hq hne
  | cons q rest =>
    rw [hq] at hloop h2
    simp only [hloop, h2, if_true]
    rw [List.take_length]

theorem handle_get_questions_listing_length (s : Store) (body : List Nat)
    (hne : s.question_head ≠ []) (h : (handle_get_questions s none).2 = some body) :
    body.length < 1024 * 1024 := by
  unfold handle_get_questions at h
  cases hq : s.question_head with
  | nil => exact absurd hq hne
  | cons q rest =>
    rw [hq] at h
    simp only at h
    cases hl : listing_loop (1024 * 1024) (q :: rest) [] 0 with
    | none => rw [hl] at h; simp at h
    | some r =>
      obtain ⟨text, offset⟩ := r
      rw [hl] at h
      simp only at h
      split at h
      · rename_i ho
        simp only [Option.some.injEq] at h
        rw [← h, List.length_take]
        omega
      · simp only [Option.some.injEq] at h
        rw [← h, List.length_take]
        omega

theorem listing_text_replicate_length (n : Nat) (q : Question) :
    (listing_text (List.replicate n q)).length = n * (question_line q).length := by
  induction n with
  | zero => simp [listing_text]
  | succ n ih =>
    rw [List.replicate_succ]
    simp only [listing_text, List.length_append, ih]
    rw [Nat.succ_mul]
    omega

theorem load_questions_replicate (n : Nat) (line : List Nat) (q : Question)
    (h : accepted_question line = some q) :
    load_questions (List.replicate n line) = build_store (List.replicate n q) := by
  rw [load_questions_eq_build_store]
  congr 1
  induction n with
  | zero => rfl
  | succ n ih => simp [List.replicate_succ, List.filterMap_cons, h, ih]

theorem listing_text_length_le (qs : List Question) (hb : ∀ q ∈ qs, within_bounds q) :
    (listing_text qs).length ≤ qs.length * 3096 := by
  induction qs with
  | nil => simp [listing_text]
  | cons q rest ih =>
    have hr := ih (fun x hx => hb x (List.mem_cons_of_mem _ hx))
    obtain ⟨hq, ho, he, hid, hc, _⟩ := hb q (List.mem_cons_self _ _)
    have h0 := option_length q 0 ho
    have h1 := option_length q 1 ho
    have h2 := option_length q 2 ho
    have h3 := option_length q 3 ho
    have hi := fmt_d_length q.id hid.1 hid.2
    have hw := (show -2147483648 ≤ wrap32 (q.correct_answer + 1) ∧ wrap32 (q.correct_answer + 1) ≤ 2147483647 by unfold wrap32; omega)
    have hcl := fmt_d_length (wrap32 (q.correct_answer + 1)) hw.1 hw.2
    simp only [MAX_QUESTION_LENGTH, MAX_EXPLANATION_LENGTH] at hq he
    have l1 : (lit "|").length = 1 := by decide
    have l2 : (lit "\n").length = 1 := by decide
    simp only [listing_text, question_line, List.length_append, List.length_cons, l1, l2]
    omega

theorem listing_fits_of_bounds (qs : List Question) (hb : ∀ q ∈ qs, within_bounds q)
    (hn : qs.length ≤ 338) :
    (listing_text qs.dropLast).length < 1024 * 1024 - 1024 ∧
    (listing_text qs).length < 1024 * 1024 := by
  have h1 := listing_text_length_le qs hb
  have h2 := listing_text_length_le qs.dropLast (fun q hq => hb q (List.mem_of_mem_dropLast hq))
  have h3 : qs.dropLast.length ≤ 338 := by
    rw [List.length_dropLast]; omega
  constructor
  · have : qs.dropLast.length * 3096 ≤ 338 * 3096 := Nat.mul_le_mul_right _ h3
    omega
  · have : qs.length * 3096 ≤ 338 * 3096 := Nat.mul_le_mul_right _ hn
    omega

theorem listing_overflow (n : Nat) (line : List Nat) (q : Question)
    (hacc : accepted_question line = some q)
    (hbig : 1024 * 1024 ≤ n * (question_line q).length) :
    (load_questions (List.replicate n line)).question_head.length = n ∧
    (handle_get_questions (load_questions (List.replicate n line)) none).2 ≠
      some (listing_text (load_questions (List.replicate n line)).question_head) := by
  have hstore := load_questions_replicate n _ _ hacc
  have hhead := question_head_build_store (List.replicate n q)
  rw [hstore, hhead]
  refine ⟨List.length_replicate n q, ?_⟩
  intro heq
  have hne : (build_store (List.replicate n q)).question_head ≠ [] := by
    rw [hhead]
    intro h
    have h0 := congrArg List.length h
    rw [List.length_replicate, List.length_nil] at h0
    rw [h0] at hbig
    omega
  have hlen := handle_get_questions_listing_length _ _ hne heq
  rw [listing_text_replicate_length] at hlen
  omega

/-! ## Lemmas on `%d` and `atoi` -/

theorem dec_digits_value (fuel n : Nat) (h : n < 10 ^ (fuel + 1)) :
    (dec_digits fuel n).foldl (fun acc d => acc * 10 + (d - 48)) 0 = n := by
  induction fuel generalizing n with
  | zero =>
    have : n < 10 := by simpa using h
    simp [dec_digits, Nat.mod_eq_of_lt this]
  | succ fuel ih =>
    unfold dec_digits
    by_cases hn : n < 10
    · simp [hn]
    · have hdiv : n / 10 < 10 ^ (fuel + 1) := by
        apply Nat.div_lt_of_lt_mul
        have : 10 ^ (fuel + 1 + 1) = 10 * 10 ^ (fuel + 1) := Nat.pow_succ'
        omega
      simp only [hn, if_false, List.foldl_append, List.foldl_cons, List.foldl_nil, ih _ hdiv]
      omega

theorem dec_digits_isdigit (fuel n : Nat) : ∀ d ∈ dec_digits fuel n, 48 ≤ d ∧ d ≤ 57 := by
  induction fuel generalizing n with
  | zero =>
    intro d hd
    simp only [dec_digits, List.mem_singleton] at hd
    omega
  | succ fuel ih =>
    intro d hd
    unfold dec_digits at hd
    by_cases hn : n < 10
    · simp only [hn, if_true, List.mem_singleton] at hd
      omega
    · simp only [hn, if_false, List.mem_append, List.mem_singleton] at hd
      rcases hd with h | h
      · exact ih _ d h
      · omega

theorem dec_digits_ne_nil (fuel n : Nat) : dec_digits fuel n ≠ [] := by
  cases fuel with
  | zero => simp [dec_digits]
  | succ fuel =>
    unfold dec_digits
    split <;> simp

theorem takeWhile_isdigit (ds : List Nat) (h : ∀ d ∈ ds, 48 ≤ d ∧ d ≤ 57) :
    ds.takeWhile isdigit = ds := by
  rw [List.takeWhile_eq_self_iff]
  intro d hd
  have := h d hd
  simp [isdigit, this.1, this.2]

theorem strtol_digits (ds : List Nat) (hne : ds ≠ []) (h : ∀ d ∈ ds, 48 ≤ d ∧ d ≤ 57) :
    strtol ds = min ((ds.foldl (fun acc d => acc * 10 + (d - 48)) 0 : Nat) : Int) LONG_MAX := by
  cases ds with
  | nil => exact absurd rfl hne
  | cons d0 rest =>
    have h0 := h d0 (List.mem_cons_self _ _)
    have hsp : isspace d0 = false := by
      simp only [isspace, Bool.or_eq_false_iff, Bool.and_eq_false_iff, beq_eq_false_iff_ne,
        decide_eq_false_iff_not]
      omega
    have h45 : d0 ≠ 45 := by omega
    have h43 : d0 ≠ 43 := by omega
    have htw := takeWhile_isdigit (d0 :: rest) h
    simp only [strtol, List.dropWhile_cons, hsp, List.head?_cons]
    simp [h45, h43, htw]

theorem strtol_minus_digits (ds : List Nat) (h : ∀ d ∈ ds, 48 ≤ d ∧ d ≤ 57) :
    strtol (45 :: ds) =
      max (-((ds.foldl (fun acc d => acc * 10 + (d - 48)) 0 : Nat) : Int)) LONG_MIN := by
  have hsp : isspace 45 = false := by decide
  have htw := takeWhile_isdigit ds h
  simp only [strtol, List.dropWhile_cons, hsp, List.head?_cons]
  simp [htw]

theorem atoi_fmt_d (x : Int) (h1 : -2147483648 ≤ x) (h2 : x ≤ 2147483647) :
    atoi (fmt_d x) = x := by
  have hv := dec_digits_value x.natAbs x.natAbs
    (Nat.lt_of_lt_of_le (Nat.lt_pow_self (by omega) _) (Nat.pow_le_pow_right (by omega) (by omega)))
  have hd := dec_digits_isdigit x.natAbs x.natAbs
  unfold atoi fmt_d
  by_cases hx : x < 0
  · simp only [hx, if_true]
    rw [strtol_minus_digits _ hd, hv]
    unfold wrap32 LONG_MIN
    omega
  · simp only [hx, if_false]
    rw [strtol_digits _ (dec_digits_ne_nil _ _) hd, hv]
    unfold wrap32 LONG_MAX
    omega

theorem fmt_d_bytes (x : Int) : ∀ b ∈ fmt_d x, b = 45 ∨ (48 ≤ b ∧ b ≤ 57) := by
  intro b hb
  unfold fmt_d at hb
  split at hb
  · rcases List.mem_cons.mp hb with h | h
    · exact Or.inl h
    · exact Or.inr (dec_digits_isdigit _ _ b h)
  · exact Or.inr (dec_digits_isdigit _ _ b hb)

theorem fmt_d_ne_nil (x : Int) : fmt_d x ≠ [] := by
  unfold fmt_d
  split
  · simp
  · exact dec_digits_ne_nil _ _

/-! ## Lemmas on canonical lines -/

theorem dropWhile_ne_append (c : Nat) (u r : List Nat) (h : c ∉ u) :
    (u ++ c :: r).dropWhile (fun b => b != c) = c :: r := by
  induction u with
  | nil => simp [List.dropWhile_cons]
  | cons x t ih =>
    have hx : x ≠ c := fun e => h (by simp [e])
    have ht : c ∉ t := fun hm => h (List.mem_cons_of_mem _ hm)
    simp [List.dropWhile_cons, hx, ih ht]

theorem fields_cons_field (f rest : List Nat) (hne : f ≠ []) (h : 124 ∉ f) :
    fields 124 (f ++ 124 :: rest) = f :: fields 124 rest := by
  cases f with
  | nil => exact absurd rfl hne
  | cons x t =>
    have hx : x ≠ 124 := fun e => h (by simp [e])
    have e1 := takeWhile_ne_append 124 (x :: t) rest h
    have e2 := dropWhile_ne_append 124 (x :: t) rest h
    rw [List.cons_append] at e1 e2 ⊢
    rw [fields_token 124 x _ hx]
    have e1' : List.takeWhile (fun b => !(b == 124)) (x :: (t ++ 124 :: rest)) = x :: t := e1
    have e2' : List.dropWhile (fun b => !(b == 124)) (x :: (t ++ 124 :: rest)) = 124 :: rest := e2
    rw [e1', e2']
    rfl

theorem fields_last_field (f : List Nat) (hne : f ≠ []) (h : 124 ∉ f) :
    fields 124 f = [f] := by
  cases f with
  | nil => exact absurd rfl hne
  | cons x t =>
    have hx : x ≠ 124 := fun e => h (by simp [e])
    have e1 : List.takeWhile (fun b => !(b == 124)) (x :: t) = x :: t :=
      takeWhile_ne_all 124 (x :: t) h
    have e2 : List.dropWhile (fun b => !(b == 124)) (x :: t) = [] := by
      rw [List.dropWhile_eq_nil_iff]
      intro b hb
      have : b ≠ 124 := fun e => h (e ▸ hb)
      simpa using this
    rw [fields_token 124 x _ hx, e1, e2]
    simp [fields_nil]

theorem fmt_d_clean (x : Int) : 124 ∉ fmt_d x ∧ 10 ∉ fmt_d x ∧ 0 ∉ fmt_d x := by
  refine ⟨?_, ?_, ?_⟩ <;> intro hm <;> have := fmt_d_bytes x _ hm <;> omega

theorem canonical_line_eq (i : Int) (f2 f3 f4 f5 f6 : List Nat) (c : Int) (f8 : List Nat) :
    canonical_line i f2 f3 f4 f5 f6 c f8 =
      fmt_d i ++ 124 :: (f2 ++ 124 :: (f3 ++ 124 :: (f4 ++ 124 :: (f5 ++ 124 ::
        (f6 ++ 124 :: (fmt_d c ++ 124 :: f8)))))) := by
  simp [canonical_line, lit_pipe, List.append_assoc]

theorem fields_canonical_line (i : Int) (f2 f3 f4 f5 f6 : List Nat) (c : Int) (f8 : List Nat)
    (hne : ∀ f ∈ [f2, f3, f4, f5, f6, f8], f ≠ [])
    (hclean : ∀ f ∈ [f2, f3, f4, f5, f6, f8], 124 ∉ f) :
    fields 124 (canonical_line i f2 f3 f4 f5 f6 c f8) =
      [fmt_d i, f2, f3, f4, f5, f6, fmt_d c, f8] := by
  rw [canonical_line_eq]
  rw [fields_cons_field _ _ (fmt_d_ne_nil i) (fmt_d_clean i).1]
  rw [fields_cons_field _ _ (hne f2 (by simp)) (hclean f2 (by simp))]
  rw [fields_cons_field _ _ (hne f3 (by simp)) (hclean f3 (by simp))]
  rw [fields_cons_field _ _ (hne f4 (by simp)) (hclean f4 (by simp))]
  rw [fields_cons_field _ _ (hne f5 (by simp)) (hclean f5 (by simp))]
  rw [fields_cons_field _ _ (hne f6 (by simp)) (hclean f6 (by simp))]
  rw [fields_cons_field _ _ (fmt_d_ne_nil c) (fmt_d_clean c).1]
  rw [fields_last_field _ (hne f8 (by simp)) (hclean f8 (by simp))]

theorem canonical_line_clean (i : Int) (f2 f3 f4 f5 f6 : List Nat) (c : Int) (f8 : List Nat)
    (b : Nat) (hb : b ≠ 124) (hd : b ∉ fmt_d i ∧ b ∉ fmt_d c)
    (hclean : ∀ f ∈ [f2, f3, f4, f5, f6, f8], b ∉ f) :
    b ∉ canonical_line i f2 f3 f4 f5 f6 c f8 := by
  rw [canonical_line_eq]
  have h2 := hclean f2 (by simp)
  have h3 := hclean f3 (by simp)
  have h4 := hclean f4 (by simp)
  have h5 := hclean f5 (by simp)
  have h6 := hclean f6 (by simp)
  have h8 := hclean f8 (by simp)
  simp only [List.mem_append, List.mem_cons, not_or]
  exact ⟨hd.1, hb, h2, hb, h3, hb, h4, hb, h5, hb, h6, hb, hd.2, hb, h8⟩

theorem wrap32_round_trip (c : Int) (h1 : -2147483648 ≤ c) (h2 : c ≤ 2147483647) :
    wrap32 (wrap32 (c - 1) + 1) = c := by
  unfold wrap32
  omega

/-! ## Ingestion of a line (C14, C15, C16) -/

theorem difficulty_of_parse_line (l : List Nat) (q : Question)
    (h : (parse_line l).question = some q) : q.difficulty = Int.tmod q.id 10 + 1 := by
  unfold parse_line at h
  split at h
  · simp at h
  · split at h
    · simp at h
    · simp only at h
      split at h
      · simp at h
      · simp only [Option.some.injEq] at h
        rw [← h]

theorem difficulty_of_accepted (line : List Nat) (q : Question)
    (h : accepted_question line = some q) :
    q.difficulty = Int.tmod q.id 10 + 1 ∧ (0 ≤ q.id → 1 ≤ q.difficulty ∧ q.difficulty ≤ 10) := by
  unfold accepted_question at h
  split at h
  · simp at h
  · have hd := difficulty_of_parse_line _ q h
    refine ⟨hd, ?_⟩
    intro hid
    rw [hd]
    have h1 : 0 ≤ Int.tmod q.id 10 := Int.tmod_nonneg _ hid
    have h2 : Int.tmod q.id 10 < 10 := Int.tmod_lt_of_pos _ (by decide)
    omega

/-- C14 (the code at the failing input): the line `-5|q|a|b|c|d|1` is accepted and stored
with id -5 and difficulty -4, outside the 1-10 scale. -/
theorem C14_negative_id_difficulty :
    (load_questions_file (lit "-5|q|a|b|c|d|1\n")).question_head.map
      (fun q => (q.id, q.difficulty)) = [(-5, -4)] ∧
    Int.tmod (-5) 10 + 1 = -4 ∧ ¬ (1 ≤ (-4 : Int) ∧ (-4 : Int) ≤ 10) := by
  decide

/-- C15 (the code at the failing input): for the line `1|q|a|b|c` the pass prints
"Missing option 4", frees the record, goes on with the `for` loop, prints "Missing
correct answer" and frees the record a second time; from there on the behaviour of
`load_questions` is undefined, also for the valid line that follows. A line with two
fields frees the record five times; lines with no field, one field or six fields free
it once. -/
theorem C15_missing_option_double_free :
    errors_of_line (lit "1|q|a|b|c\n") =
      [ParseError.missing_option 4, ParseError.missing_correct_answer] ∧
    frees_of_line (lit "1|q|a|b|c\n") = 2 ∧
    load_questions_defined [lit "1|q|a|b|c\n", lit "2|r|a|b|c|d|1\n"] = none ∧
    frees_of_line (lit "1|q\n") = 5 ∧
    frees_of_line (lit "|\n") = 1 ∧ frees_of_line (lit "1\n") = 1 ∧
    frees_of_line (lit "1|q|a|b|c|d\n") = 1 := by
  decide

/-- C16 (as stated, refuted): (a) the line `1|q|a|b|c|d|-2147483648` has seven fields
within their bounds, the integer value of field 7 is -2147483648, and the stored
`correct_answer` is 2147483647, not that value minus one; (b) a source line of 2059 bytes
whose eight fields are all within their bounds (text and explanation of 1023 bytes each)
is cut by `fgets` after 2047 bytes, and the stored explanation is its first 1011 bytes. -/
theorem C16_counterexample :
    (fields 124 (lit "1|q|a|b|c|d|-2147483648") =
        [lit "1", lit "q", lit "a", lit "b", lit "c", lit "d", lit "-2147483648"] ∧
      atoi (lit "-2147483648") = -2147483648 ∧
      (load_line empty_store (lit "1|q|a|b|c|d|-2147483648\n")).question_head.map
        (fun q => q.correct_answer) = [2147483647]) ∧
    (fields 124 (lit "1|" ++ List.replicate 1023 113 ++ lit "|a|b|c|d|1|" ++
        List.replicate 1023 101) =
        [lit "1", List.replicate 1023 113, lit "a", lit "b", lit "c", lit "d", lit "1",
          List.replicate 1023 101] ∧
      (load_questions_file (lit "1|" ++ List.replicate 1023 113 ++ lit "|a|b|c|d|1|" ++
        List.replicate 1023 101 ++ [10])).question_head.map (fun q => q.explanation) =
        [List.replicate 1011 101]) := by
  refine ⟨by decide, ?_⟩
  decide!

/-- C16 (amended): for every line, as read by `fgets`, whose non-empty `|`-separated
fields are seven or eight in number and within the stored length bounds, and whose
seventh field has an integer value other than -2147483648, `load_questions` appends the
question with id = `atoi` of field 1, text = field 2, options = fields 3 to 6 in order,
correct_answer = (`atoi` of field 7) - 1, and explanation = field 8 when present,
"No explanation provided" otherwise. A source line of at most 2046 bytes, free of NUL,
followed by a newline is read whole by `fgets`, so a file made of it yields that store. -/
theorem C16_stored_question (line f1 f2 f3 f4 f5 f6 f7 : List Nat) (f8 : Option (List Nat))
    (hfields : fields 124 (strip_newline line) =
      f1 :: f2 :: f3 :: f4 :: f5 :: f6 :: f7 :: f8.toList)
    (h2 : f2.length ≤ MAX_QUESTION_LENGTH - 1)
    (h3 : f3.length ≤ MAX_OPTION_LENGTH - 1) (h4 : f4.length ≤ MAX_OPTION_LENGTH - 1)
    (h5 : f5.length ≤ MAX_OPTION_LENGTH - 1) (h6 : f6.length ≤ MAX_OPTION_LENGTH - 1)
    (h8 : (f8.getD []).length ≤ MAX_EXPLANATION_LENGTH - 1)
    (h7 : atoi f7 ≠ -2147483648) :
    (∀ s : Store, load_line s line = append_question s
      { id := atoi f1, question := f2, options := [f3, f4, f5, f6],
        correct_answer := atoi f7 - 1,
        explanation := f8.getD (lit "No explanation provided"),
        difficulty := Int.tmod (atoi f1) 10 + 1 }) ∧
    (10 ∉ strip_newline line → 0 ∉ strip_newline line →
      (strip_newline line).length + 1 ≤ 2047 →
      load_questions_file (strip_newline line ++ [10]) = build_store
        [{ id := atoi f1, question := f2, options := [f3, f4, f5, f6],
           correct_answer := atoi f7 - 1,
           explanation := f8.getD (lit "No explanation provided"),
           difficulty := Int.tmod (atoi f1) 10 + 1 }]) := by
  have hq : question_of_fields f1 f2 f3 f4 f5 f6 f7 f8.toList.head? =
      { id := atoi f1, question := f2, options := [f3, f4, f5, f6],
        correct_answer := atoi f7 - 1,
        explanation := f8.getD (lit "No explanation provided"),
        difficulty := Int.tmod (atoi f1) 10 + 1 } := by
    have hw : wrap32 (atoi f7 - 1) = atoi f7 - 1 := by
      have := atoi_range f7
      exact wrap32_of_range _ (by omega) (by omega)
    have he : strncpy (f8.toList.head?.getD (lit "No explanation provided"))
        (MAX_EXPLANATION_LENGTH - 1) = f8.getD (lit "No explanation provided") := by
      cases f8 with
      | none => decide
      | some x => exact strncpy_short _ _ h8
    simp only [question_of_fields, hw, he, strncpy_short _ _ h2, strncpy_short _ _ h3,
      strncpy_short _ _ h4, strncpy_short _ _ h5, strncpy_short _ _ h6]
  have hparse := parse_line_fields _ f1 f2 f3 f4 f5 f6 f7 _ hfields
  rw [hq] at hparse
  have hne : (strip_newline line).length ≠ 0 := by
    intro h0
    rw [List.length_eq_zero.mp h0, fields_nil] at hfields
    simp at hfields
  have hload : ∀ s : Store, load_line s line = append_question s
      { id := atoi f1, question := f2, options := [f3, f4, f5, f6],
        correct_answer := atoi f7 - 1,
        explanation := f8.getD (lit "No explanation provided"),
        difficulty := Int.tmod (atoi f1) 10 + 1 } := by
    intro s
    rw [load_line_eq]
    simp [accepted_question, hne, hparse]
  refine ⟨hload, ?_⟩
  intro hnl hnul hlen
  rw [load_questions_file_single _ hnl hnul hlen, load_line_eq]
  simp [accepted_question, strip_newline_concat, hne, hparse, build_store]

theorem C16_stored_question_witness :
    (∀ s : Store, load_line s (lit "12|What?|a|b|c|d|3|Because\n") = append_question s
      { id := atoi (lit "12"), question := lit "What?",
        options := [lit "a", lit "b", lit "c", lit "d"],
        correct_answer := atoi (lit "3") - 1,
        explanation := (some (lit "Because")).getD (lit "No explanation provided"),
        difficulty := Int.tmod (atoi (lit "12")) 10 + 1 }) ∧
    atoi (lit "12") = 12 ∧ atoi (lit "3") - 1 = 2 ∧
    load_questions_file (strip_newline (lit "12|What?|a|b|c|d|3|Because\n") ++ [10]) =
      build_store
        [{ id := atoi (lit "12"), question := lit "What?",
           options := [lit "a", lit "b", lit "c", lit "d"],
           correct_answer := atoi (lit "3") - 1,
           explanation := (some (lit "Because")).getD (lit "No explanation provided"),
           difficulty := Int.tmod (atoi (lit "12")) 10 + 1 }] :=
  ⟨(C16_stored_question (lit "12|What?|a|b|c|d|3|Because\n") (lit "12") (lit "What?")
      (lit "a") (lit "b") (lit "c") (lit "d") (lit "3") (some (lit "Because"))
      (by decide) (by decide) (by decide) (by decide) (by decide) (by decide) (by decide)
      (by decide)).1,
   by decide, by decide,
   (C16_stored_question (lit "12|What?|a|b|c|d|3|Because\n") (lit "12") (lit "What?")
      (lit "a") (lit "b") (lit "c") (lit "d") (lit "3") (some (lit "Because"))
      (by decide) (by decide) (by decide) (by decide) (by decide) (by decide) (by decide)
      (by decide)).2 (by decide) (by decide) (by decide)⟩

/-! ## The question listing (C17, C18) -/

/-- C17 (as stated, refuted): the source line with id 1, a text of 1023 bytes `q`, the
options `a`, `b`, `c`, `d`, correct index 1 and an explanation of 1023 bytes `e` is in
canonical form with every field within its bound, but it is 2059 bytes long: `fgets`
cuts it after 2047 bytes and the line of the full listing is not the source line. -/
theorem C17_counterexample :
    (canonical_line 1 (List.replicate 1023 113) (lit "a") (lit "b") (lit "c") (lit "d") 1
      (List.replicate 1023 101)).length = 2059 ∧
    (handle_get_questions
      (load_questions_file
        (canonical_line 1 (List.replicate 1023 113) (lit "a") (lit "b") (lit "c") (lit "d") 1
          (List.replicate 1023 101) ++ [10])) none).2 ≠
      some (canonical_line 1 (List.replicate 1023 113) (lit "a") (lit "b") (lit "c") (lit "d") 1
        (List.replicate 1023 101) ++ [10]) := by
  decide!

/-- C17 (amended): for every source line of eight non-empty fields in canonical form (id
and correct index as `%d` writes an `int`, no field over its length bound, no `|`,
newline or NUL inside a field) that with its newline is at most 2047 bytes long, the
question ingested from it is written by the full listing as exactly the source line
followed by a newline; the listing of the file made of that line is that line. -/
theorem C17_listing_round_trip (i c : Int) (f2 f3 f4 f5 f6 f8 : List Nat)
    (hi : -2147483648 ≤ i ∧ i ≤ 2147483647) (hc : -2147483648 ≤ c ∧ c ≤ 2147483647)
    (hne : ∀ f ∈ [f2, f3, f4, f5, f6, f8], f ≠ [])
    (hclean : ∀ f ∈ [f2, f3, f4, f5, f6, f8], 124 ∉ f ∧ 10 ∉ f ∧ 0 ∉ f)
    (h2 : f2.length ≤ MAX_QUESTION_LENGTH - 1)
    (hopt : ∀ f ∈ [f3, f4, f5, f6], f.length ≤ MAX_OPTION_LENGTH - 1)
    (h8 : f8.length ≤ MAX_EXPLANATION_LENGTH - 1)
    (hlen : (canonical_line i f2 f3 f4 f5 f6 c f8).length + 1 ≤ 2047) :
    accepted_question (canonical_line i f2 f3 f4 f5 f6 c f8 ++ [10]) =
      some { id := i, question := f2, options := [f3, f4, f5, f6],
             correct_answer := wrap32 (c - 1), explanation := f8,
             difficulty := Int.tmod i 10 + 1 } ∧
    question_line
      { id := i, question := f2, options := [f3, f4, f5, f6],
        correct_answer := wrap32 (c - 1), explanation := f8,
        difficulty := Int.tmod i 10 + 1 } = canonical_line i f2 f3 f4 f5 f6 c f8 ++ [10] ∧
    (handle_get_questions
      (load_questions_file (canonical_line i f2 f3 f4 f5 f6 c f8 ++ [10])) none).2 =
      some (canonical_line i f2 f3 f4 f5 f6 c f8 ++ [10]) := by
  have hfields := fields_canonical_line i f2 f3 f4 f5 f6 c f8 hne
    (fun f hf => (hclean f hf).1)
  have hparse := parse_line_fields _ _ _ _ _ _ _ _ _ hfields
  have hq : question_of_fields (fmt_d i) f2 f3 f4 f5 f6 (fmt_d c) [f8].head? =
      { id := i, question := f2, options := [f3, f4, f5, f6],
        correct_answer := wrap32 (c - 1), explanation := f8,
        difficulty := Int.tmod i 10 + 1 } := by
    simp only [question_of_fields, atoi_fmt_d i hi.1 hi.2, atoi_fmt_d c hc.1 hc.2,
      strncpy_short _ _ h2, strncpy_short _ _ (hopt f3 (by simp)),
      strncpy_short _ _ (hopt f4 (by simp)), strncpy_short _ _ (hopt f5 (by simp)),
      strncpy_short _ _ (hopt f6 (by simp)), List.head?_cons, Option.getD_some,
      strncpy_short _ _ h8]
  rw [hq] at hparse
  have hne0 : (canonical_line i f2 f3 f4 f5 f6 c f8).length ≠ 0 := by
    intro h0
    rw [List.length_eq_zero.mp h0, fields_nil] at hfields
    simp at hfields
  have hacc : accepted_question (canonical_line i f2 f3 f4 f5 f6 c f8 ++ [10]) =
      some { id := i, question := f2, options := [f3, f4, f5, f6],
             correct_answer := wrap32 (c - 1), explanation := f8,
             difficulty := Int.tmod i 10 + 1 } := by
    simp [accepted_question, strip_newline_concat, hne0, hparse]
  have hline : question_line
      { id := i, question := f2, options := [f3, f4, f5, f6],
        correct_answer := wrap32 (c - 1), explanation := f8,
        difficulty := Int.tmod i 10 + 1 } = canonical_line i f2 f3 f4 f5 f6 c f8 ++ [10] := by
    have hnl : lit "\n" = [10] := by decide
    simp only [question_line, canonical_line, wrap32_round_trip c hc.1 hc.2, hnl,
      List.getD_cons_zero, List.getD_cons_succ]
  have h10 : 10 ∉ canonical_line i f2 f3 f4 f5 f6 c f8 :=
    canonical_line_clean i f2 f3 f4 f5 f6 c f8 10 (by decide)
      ⟨(fmt_d_clean i).2.1, (fmt_d_clean c).2.1⟩ (fun f hf => (hclean f hf).2.1)
  have h0 : 0 ∉ canonical_line i f2 f3 f4 f5 f6 c f8 :=
    canonical_line_clean i f2 f3 f4 f5 f6 c f8 0 (by decide)
      ⟨(fmt_d_clean i).2.2, (fmt_d_clean c).2.2⟩ (fun f hf => (hclean f hf).2.2)
  refine ⟨hacc, hline, ?_⟩
  rw [load_questions_file_single _ h10 h0 hlen, load_line_eq, hacc]
  have hstore : ∀ q : Question, append_question empty_store q = build_store [q] := fun _ => rfl
  simp only [hstore]
  have hhead := question_head_build_store
    [({ id := i, question := f2, options := [f3, f4, f5, f6],
        correct_answer := wrap32 (c - 1), explanation := f8,
        difficulty := Int.tmod i 10 + 1 } : Question)]
  rw [handle_get_questions_listing _ (by rw [hhead]; simp)
    (by rw [hhead]; simp [listing_text])
    (by
      rw [hhead]
      simp only [listing_text, List.append_nil, hline, List.length_append,
        List.length_singleton]
      omega), hhead]
  simp [listing_text, hline]

theorem C17_listing_round_trip_witness :
    (canonical_line 12 (lit "What?") (lit "a") (lit "b") (lit "c") (lit "d") 3
      (lit "Because") ++ [10] = lit "12|What?|a|b|c|d|3|Because\n") ∧
    (handle_get_questions
      (load_questions_file
        (canonical_line 12 (lit "What?") (lit "a") (lit "b") (lit "c") (lit "d") 3
          (lit "Because") ++ [10])) none).2 =
      some (canonical_line 12 (lit "What?") (lit "a") (lit "b") (lit "c") (lit "d") 3
        (lit "Because") ++ [10]) :=
  ⟨by decide,
   (C17_listing_round_trip 12 3 (lit "What?") (lit "a") (lit "b") (lit "c") (lit "d")
      (lit "Because") (by decide) (by decide) (by decide) (by decide) (by decide)
      (by decide) (by decide) (by decide)).2.2⟩

/-- C18 (as stated, refuted): the store loaded from 40000 lines `1|Q|a|b|c|d|1` holds
40000 questions, whose listing lines (38 bytes each) add up to more than the 1 MB
buffer; the body of the full listing is shorter than 1 MB, so it is not the text of one
line per stored question. -/
theorem C18_counterexample :
    (load_questions (List.replicate 40000 (lit "1|Q|a|b|c|d|1\n"))).question_head.length =
      40000 ∧
    (handle_get_questions (load_questions (List.replicate 40000 (lit "1|Q|a|b|c|d|1\n")))
      none).2 ≠
      some (listing_text
        (load_questions (List.replicate 40000 (lit "1|Q|a|b|c|d|1\n"))).question_head) :=
  listing_overflow 40000 (lit "1|Q|a|b|c|d|1\n")
    (question_of_fields (lit "1") (lit "Q") (lit "a") (lit "b") (lit "c") (lit "d")
      (lit "1") none)
    (by decide)
    (by
      have hline : (question_line (question_of_fields (lit "1") (lit "Q") (lit "a") (lit "b")
          (lit "c") (lit "d") (lit "1") none)).length = 38 := by decide
      rw [hline]
      decide)

/-- C18 (amended): for every non-empty store built by appends whose listing lines but the
last add up to less than 1 MB - 1024 bytes and whose listing lines all together to less
than 1 MB (this holds for up to 338 questions within the field bounds), the body of the
full listing is the text of one line per stored question, in insertion order, every
appended question included, also those whose id repeats an earlier one. -/
theorem C18_full_listing (qs : List Question) (hne : qs ≠ [])
    (h1 : (listing_text qs.dropLast).length < 1024 * 1024 - 1024)
    (h2 : (listing_text qs).length < 1024 * 1024) :
    (build_store qs).question_head = qs ∧
    (handle_get_questions (build_store qs) none).2 = some (listing_text qs) := by
  have hhead := question_head_build_store qs
  refine ⟨hhead, ?_⟩
  rw [handle_get_questions_listing (build_store qs) (by rw [hhead]; exact hne)
    (by rw [hhead]; exact h1) (by rw [hhead]; exact h2), hhead]

theorem C18_full_listing_witness :
    (handle_get_questions
      (build_store [sample_question 3 4, sample_question 7 8, sample_question 3 9]) none).2 =
      some (listing_text [sample_question 3 4, sample_question 7 8, sample_question 3 9]) ∧
    listing_text [sample_question 3 4, sample_question 7 8, sample_question 3 9] =
      lit "3|Q|a|b|c|d|1|\n7|Q|a|b|c|d|1|\n3|Q|a|b|c|d|1|\n" :=
  ⟨(C18_full_listing [sample_question 3 4, sample_question 7 8, sample_question 3 9]
      (by decide) (by decide) (by decide)).2, by decide⟩

/-! ## The requested count (C6) -/

theorem heap_read_zero (h : Heap) : heap_read h 0 = none := rfl

theorem first_free_le (h : Heap) : first_free h ≤ h.length := by
  induction h with
  | nil => simp [first_free]
  | cons c rest ih =>
    cases c with
    | none => simp [first_free]
    | some x => simp [first_free, ih]

theorem first_free_none (h : Heap) : (h.get? (first_free h)).join = none := by
  induction h with
  | nil => simp [first_free]
  | cons c rest ih =>
    cases c with
    | none => simp [first_free]
    | some x => simpa [first_free] using ih

theorem malloc_ne_zero (h : Heap) (c : Cell) : (malloc h c).1 ≠ 0 := by
  simp [malloc]

theorem malloc_fresh (h : Heap) (c : Cell) : heap_read h (malloc h c).1 = none := by
  simp only [malloc, heap_read]
  exact first_free_none h

theorem heap_read_set (h : Heap) (i : Nat) (x : Option Cell) (hi : i < h.length) (a : Nat) :
    heap_read (h.set i x) a = if a = i + 1 then x else heap_read h a := by
  cases a with
  | zero => simp [heap_read]
  | succ b =>
    simp only [heap_read, List.get?_eq_getElem?, List.getElem?_set, Nat.succ_inj']
    by_cases hb : i = b
    · subst hb
      simp [hi]
    · have hb2 : ¬ b = i := fun e => hb e.symm
      simp [hb, hb2]

theorem heap_read_malloc (h : Heap) (c : Cell) (a : Nat) :
    heap_read (malloc h c).2 a = if a = (malloc h c).1 then some c else heap_read h a := by
  simp only [malloc]
  by_cases hlt : first_free h < h.length
  · simp only [hlt, if_true]
    exact heap_read_set h _ _ hlt a
  · simp only [hlt, if_false]
    have hlen : first_free h = h.length := le_antisymm (first_free_le h) (not_lt.mp hlt)
    cases a with
    | zero => simp [heap_read]
    | succ b =>
      simp only [heap_read, List.get?_eq_getElem?, Nat.succ_inj', hlen]
      by_cases hb : b = h.length
      · subst hb
        simp
      · simp only [hb, if_false]
        rcases Nat.lt_or_gt_of_ne hb with hlt2 | hgt
        · rw [List.getElem?_append_left hlt2]
        · rw [List.getElem?_eq_none (by simp; omega), List.getElem?_eq_none (by omega)]

theorem heap_read_length (h : Heap) (p : Nat) (c : Cell) (hp : heap_read h p = some c) :
    p ≠ 0 ∧ p - 1 < h.length := by
  cases p with
  | zero => simp [heap_read] at hp
  | succ b =>
    refine ⟨by simp, ?_⟩
    simp only [heap_read, List.get?_eq_getElem?] at hp
    by_contra hge
    rw [List.getElem?_eq_none (by simpa using hge)] at hp
    simp at hp

theorem heap_write_of_read (h : Heap) (p : Nat) (c0 c : Cell) (hp : heap_read h p = some c0) :
    ∃ h1, heap_write h p c = some h1 ∧
      ∀ a, heap_read h1 a = if a = p then some c else heap_read h a := by
  obtain ⟨hp0, hlen⟩ := heap_read_length h p c0 hp
  refine ⟨h.set (p - 1) (some c), by simp [heap_write, hp], ?_⟩
  intro a
  rw [heap_read_set h _ _ hlen a]
  have : p - 1 + 1 = p := by omega
  rw [this]

theorem free_of_read (h : Heap) (p : Nat) (c0 : Cell) (hp : heap_read h p = some c0) :
    ∃ h1, free h p = some h1 ∧
      ∀ a, heap_read h1 a = if a = p then none else heap_read h a := by
  obtain ⟨hp0, hlen⟩ := heap_read_length h p c0 hp
  refine ⟨h.set (p - 1) none, by simp [free, hp, hp0], ?_⟩
  intro a
  rw [heap_read_set h _ _ hlen a]
  have : p - 1 + 1 = p := by omega
  rw [this]

theorem question_at_some (h : Heap) (p : Nat) (q : Question) :
    question_at h p = some q ↔ ∃ next, heap_read h p = some (Cell.question q next) := by
  unfold question_at
  cases hr : heap_read h p with
  | none => simp
  | some c =>
    cases c with
    | question q2 next => simp
    | bst a b c => simp
    | pq a b => simp
    | chars t => simp

/-- The memory `h1` keeps every `Question` record of `h`. -/
theorem question_at_keep (h h1 : Heap) (p : Nat) (q : Question)
    (hkeep : ∀ a q next, heap_read h a = some (Cell.question q next) →
      heap_read h1 a = some (Cell.question q next))
    (hq : question_at h p = some q) : question_at h1 p = some q := by
  rw [question_at_some] at hq ⊢
  obtain ⟨next, hn⟩ := hq
  exact ⟨next, hkeep p q next hn⟩

theorem list_in_cons (h : Heap) (e : Nat × Question) (rest : List (Nat × Question)) :
    list_in h (e :: rest) = true ↔
      heap_read h e.1 = some (Cell.question e.2 (head_addr rest)) ∧ list_in h rest = true := by
  simp [list_in]

theorem queue_in_cons (h : Heap) (e : Nat × Nat × Question)
    (rest : List (Nat × Nat × Question)) :
    queue_in h (e :: rest) = true ↔
      heap_read h e.1 = some (Cell.pq e.2.1 (head_addr rest)) ∧
      question_at h e.2.1 = some e.2.2 ∧ queue_in h rest = true := by
  simp [queue_in, and_assoc]

theorem tree_in_node (h : Heap) (addr question : Nat) (q : Question)
    (left right : TreeLayout) :
    tree_in h (.node addr question q left right) = true ↔
      heap_read h addr = some (Cell.bst question (root_addr left) (root_addr right)) ∧
      question_at h question = some q ∧ tree_in h left = true ∧ tree_in h right = true := by
  simp [tree_in, and_assoc]

theorem list_in_keep (h h1 : Heap) (l : List (Nat × Question))
    (hkeep : ∀ a q next, heap_read h a = some (Cell.question q next) →
      heap_read h1 a = some (Cell.question q next))
    (hl : list_in h l = true) : list_in h1 l = true := by
  induction l with
  | nil => rfl
  | cons e rest ih =>
    rw [list_in_cons] at hl ⊢
    exact ⟨hkeep _ _ _ hl.1, ih hl.2⟩

theorem queue_in_keep (h h1 : Heap) (l : List (Nat × Nat × Question))
    (hkeep : ∀ a q next, heap_read h a = some (Cell.question q next) →
      heap_read h1 a = some (Cell.question q next))
    (hsame : ∀ a ∈ l.map (fun e => e.1), heap_read h1 a = heap_read h a)
    (hl : queue_in h l = true) : queue_in h1 l = true := by
  induction l with
  | nil => rfl
  | cons e rest ih =>
    rw [queue_in_cons] at hl ⊢
    refine ⟨?_, question_at_keep h h1 _ _ hkeep hl.2.1, ?_⟩
    · rw [hsame e.1 (by simp)]
      exact hl.1
    · exact ih (fun a ha => hsame a (by simp at ha ⊢; exact Or.inr ha)) hl.2.2

theorem tree_in_keep (h h1 : Heap) (t : TreeLayout)
    (hsame : ∀ a, heap_read h a ≠ none → heap_read h1 a = heap_read h a)
    (ht : tree_in h t = true) : tree_in h1 t = true := by
  have hkeep : ∀ a q next, heap_read h a = some (Cell.question q next) →
      heap_read h1 a = some (Cell.question q next) := by
    intro a q next ha
    rw [hsame a (by rw [ha]; simp), ha]
  induction t with
  | null => rfl
  | node addr question q left right ihl ihr =>
    rw [tree_in_node] at ht ⊢
    refine ⟨?_, question_at_keep h h1 _ _ hkeep ht.2.1, ihl ht.2.2.1, ihr ht.2.2.2⟩
    rw [hsame addr (by rw [ht.1]; simp)]
    exact ht.1

theorem queue_in_addr (h : Heap) (l : List (Nat × Nat × Question)) (hl : queue_in h l = true)
    (a : Nat) (ha : a ∈ l.map (fun e => e.1)) :
    ∃ x y, heap_read h a = some (Cell.pq x y) := by
  induction l with
  | nil => simp at ha
  | cons e rest ih =>
    rw [queue_in_cons] at hl
    simp only [List.map_cons, List.mem_cons] at ha
    rcases ha with ha | ha
    · subst ha
      exact ⟨_, _, hl.1⟩
    · exact ih hl.2.2 ha

theorem head_addr_eq_zero (h : Heap) (l : List (Nat × Nat × Question))
    (hl : queue_in h l = true) : head_addr l = 0 ↔ l = [] := by
  cases l with
  | nil => simp [head_addr]
  | cons e rest =>
    rw [queue_in_cons] at hl
    simp only [head_addr, reduceCtorEq, iff_false]
    intro h0
    rw [h0, heap_read_zero] at hl
    simp at hl

theorem question_at_zero (h : Heap) : question_at h 0 = none := rfl

theorem search_bst_mem_eq (id : Int) (h : Heap) (t : TreeLayout) (fuel : Nat)
    (ht : tree_in h t = true) (hfuel : depth t < fuel) :
    ∃ p, search_bst_mem fuel h (root_addr t) id = some p ∧
      question_at h p = search_bst (tree_of t) id ∧
      (p = 0 ↔ search_bst (tree_of t) id = none) := by
  induction t generalizing fuel with
  | null =>
    cases fuel with
    | zero => simp [depth] at hfuel
    | succ f => exact ⟨0, by simp [search_bst_mem, root_addr], rfl, by simp [tree_of, search_bst]⟩
  | node addr question q left right ihl ihr =>
    rw [tree_in_node] at ht
    obtain ⟨hnode, hq, hleft, hright⟩ := ht
    cases fuel with
    | zero => simp [depth] at hfuel
    | succ f =>
      have hd : depth left < f ∧ depth right < f := by
        simp only [depth] at hfuel
        omega
      have haddr : addr ≠ 0 := by
        intro e
        rw [e, heap_read_zero] at hnode
        simp at hnode
      have hqp : question ≠ 0 := by
        intro e
        rw [e, question_at_zero] at hq
        simp at hq
      simp only [search_bst_mem, root_addr, haddr, if_false, hnode, hq, tree_of, search_bst]
      by_cases h1 : id = q.id
      · simp only [h1, if_true]
        exact ⟨question, rfl, hq, by simp [hqp]⟩
      · simp only [h1, if_false]
        by_cases h2 : id < q.id
        · simp only [h2, if_true]
          exact ihl f hleft hd.1
        · simp only [h2, if_false]
          exact ihr f hright hd.2

/-- The JSON text for the result of a lookup. -/
theorem get_question_by_id_json_mem_eq (fuel : Nat) (m : Memory) (t : TreeLayout) (id : Int)
    (ht : tree_in m.heap t = true) (hroot : m.question_bst_root = root_addr t)
    (hfuel : depth t < fuel) :
    ∃ m1 json, get_question_by_id_json_mem fuel m id = some (m1, json) ∧
      json ≠ 0 ∧ heap_read m.heap json = none ∧
      heap_read m1.heap json =
        some (Cell.chars ((search_bst (tree_of t) id).elim
          (lit "\x7b\"error\":\"Question not found\"\x7d") question_json)) ∧
      (∀ a, a ≠ json → heap_read m1.heap a = heap_read m.heap a) ∧
      m1.question_head = m.question_head ∧ m1.question_bst_root = m.question_bst_root ∧
      m1.priority_queue_head = m.priority_queue_head := by
  obtain ⟨p, hp, hq, hz⟩ := search_bst_mem_eq id m.heap t fuel ht hfuel
  unfold get_question_by_id_json_mem
  rw [hroot, hp]
  by_cases h0 : p = 0
  · have hnone := hz.mp h0
    simp only [h0, if_true]
    refine ⟨_, _, rfl, malloc_ne_zero _ _, malloc_fresh _ _, ?_, ?_, rfl, rfl, rfl⟩
    · simp only [heap_read_malloc, if_true, hnone, Option.elim]
    · intro a ha
      simp only [heap_read_malloc, ha, if_false]
  · simp only [h0, if_false]
    cases hs : search_bst (tree_of t) id with
    | none => exact absurd (hz.mpr hs) h0
    | some qd =>
      rw [hs] at hq
      simp only [hq]
      refine ⟨_, _, rfl, malloc_ne_zero _ _, malloc_fresh _ _, ?_, ?_, rfl, rfl, rfl⟩
      · simp only [heap_read_malloc, if_true, Option.elim]
      · intro a ha
        simp only [heap_read_malloc, ha, if_false]

theorem heap_write_keep (h h1 : Heap) (p x y : Nat) (c : Cell)
    (hp : heap_read h p = some (Cell.pq x y))
    (hw : ∀ a, heap_read h1 a = if a = p then some c else heap_read h a) :
    ∀ a q next, heap_read h a = some (Cell.question q next) →
      heap_read h1 a = some (Cell.question q next) := by
  intro a q next ha
  have hne : a ≠ p := by
    intro e
    rw [e, hp] at ha
    simp at ha
  rw [hw a, if_neg hne, ha]

theorem node_difficulty_of_queue (h : Heap) (e : Nat × Nat × Question)
    (rest : List (Nat × Nat × Question)) (hq : queue_in h (e :: rest) = true) :
    node_difficulty h e.1 = some e.2.2.difficulty := by
  rw [queue_in_cons] at hq
  simp [node_difficulty, hq.1, hq.2.1]

theorem insert_after_position_spec (nn qp : Nat) (q : Question) :
    ∀ (rest : List (Nat × Nat × Question)) (cur cqp : Nat) (h : Heap) (fuel : Nat),
      heap_read h cur = some (Cell.pq cqp (head_addr rest)) →
      queue_in h rest = true →
      question_at h qp = some q →
      heap_read h nn = some (Cell.pq qp 0) →
      nn ≠ cur → nn ∉ rest.map (fun e => e.1) → cur ∉ rest.map (fun e => e.1) →
      (rest.map (fun e => e.1)).Nodup →
      rest.length < fuel →
      ∃ h3 rest1, insert_after_position fuel h q.difficulty cur nn qp = some h3 ∧
        rest1.map (fun e => e.2.2) = pq_splice q (rest.map (fun e => e.2.2)) ∧
        (rest1.map (fun e => e.1)).Perm (nn :: rest.map (fun e => e.1)) ∧
        heap_read h3 cur = some (Cell.pq cqp (head_addr rest1)) ∧
        queue_in h3 rest1 = true ∧
        (∀ a q next, heap_read h a = some (Cell.question q next) →
          heap_read h3 a = some (Cell.question q next)) ∧
        (∀ a, a ≠ nn → a ≠ cur → a ∉ rest.map (fun e => e.1) →
          heap_read h3 a = heap_read h a) := by
  intro rest
  induction rest with
  | nil =>
    intro cur cqp h fuel hcur _ hq hnn hne _ _ _ hfuel
    cases fuel with
    | zero => simp at hfuel
    | succ f =>
      obtain ⟨h1, hw1, hr1⟩ := heap_write_of_read h nn _ (Cell.pq qp 0) hnn
      have hcur1 : heap_read h1 cur = some (Cell.pq cqp 0) := by
        rw [hr1 cur, if_neg (fun e => hne e.symm)]
        exact hcur
      obtain ⟨h3, hw3, hr3⟩ := heap_write_of_read h1 cur _ (Cell.pq cqp nn) hcur1
      have hkeep1 := heap_write_keep h h1 nn _ _ _ hnn hr1
      have hkeep3 := heap_write_keep h1 h3 cur _ _ _ hcur1 hr3
      have hfind : find_position (f + 1) h q.difficulty cur = some cur := by
        simp only [find_position, hcur, head_addr, if_true]
      refine ⟨h3, [(nn, qp, q)], ?_, by simp [pq_splice], by simp, ?_, ?_, ?_, ?_⟩
      · simp only [insert_after_position, hfind, hcur, head_addr, hw1, hw3]
      · rw [hr3 cur, if_pos rfl]
        rfl
      · rw [queue_in_cons]
        refine ⟨?_, ?_, rfl⟩
        · rw [hr3 nn, if_neg hne, hr1 nn, if_pos rfl]
          rfl
        · exact question_at_keep h1 h3 _ _ hkeep3 (question_at_keep h h1 _ _ hkeep1 hq)
      · intro a q2 next ha
        exact hkeep3 a q2 next (hkeep1 a q2 next ha)
      · intro a ha1 ha2 _
        rw [hr3 a, if_neg ha2, hr1 a, if_neg ha1]
  | cons n rest2 ih =>
    intro cur cqp h fuel hcur hrest hq hnn hne hnn2 hcur2 hnd hfuel
    cases fuel with
    | zero => simp at hfuel
    | succ f =>
      have hrest0 := hrest
      rw [queue_in_cons] at hrest
      obtain ⟨hn, hnq, hrest2⟩ := hrest
      have hn0 : n.1 ≠ 0 := by
        intro e
        rw [e, heap_read_zero] at hn
        simp at hn
      have hdiff := node_difficulty_of_queue h n rest2 hrest0
      simp only [List.map_cons, List.mem_cons, not_or, List.nodup_cons] at hnn2 hcur2 hnd
      simp only [List.length_cons] at hfuel
      by_cases hge : n.2.2.difficulty ≥ q.difficulty
      · have hfind : find_position (f + 1) h q.difficulty cur =
            find_position f h q.difficulty n.1 := by
          simp only [find_position, hcur, head_addr, hn0, if_false, hdiff, hge, if_true]
        obtain ⟨h3, rest1, hins, hmap, hperm, hn3, hq3, hkeep, hframe⟩ :=
          ih n.1 n.2.1 h f hn hrest2 hq hnn hnn2.1 hnn2.2 hnd.1 hnd.2 (by omega)
        refine ⟨h3, n :: rest1, ?_, ?_, ?_, ?_, ?_, hkeep, ?_⟩
        · simp only [insert_after_position, hfind] at hins ⊢
          exact hins
        · simp only [List.map_cons, pq_splice, hge, if_true, hmap]
        · simp only [List.map_cons]
          exact (List.Perm.cons _ hperm).trans (List.Perm.swap _ _ _)
        · rw [hframe cur (fun e => hne e.symm) hcur2.1 hcur2.2]
          exact hcur
        · rw [queue_in_cons]
          exact ⟨hn3, question_at_keep h h3 _ _ hkeep hnq, hq3⟩
        · intro a ha1 ha2 ha3
          simp only [List.map_cons, List.mem_cons, not_or] at ha3
          exact hframe a ha1 ha3.1 ha3.2
      · have hfind : find_position (f + 1) h q.difficulty cur = some cur := by
          simp only [find_position, hcur, head_addr, hn0, if_false, hdiff, hge]
        obtain ⟨h1, hw1, hr1⟩ := heap_write_of_read h nn _ (Cell.pq qp n.1) hnn
        have hcur1 : heap_read h1 cur = some (Cell.pq cqp n.1) := by
          rw [hr1 cur, if_neg (fun e => hne e.symm)]
          exact hcur
        obtain ⟨h3, hw3, hr3⟩ := heap_write_of_read h1 cur _ (Cell.pq cqp nn) hcur1
        have hkeep1 := heap_write_keep h h1 nn _ _ _ hnn hr1
        have hkeep3 := heap_write_keep h1 h3 cur _ _ _ hcur1 hr3
        have hkeep : ∀ a q next, heap_read h a = some (Cell.question q next) →
            heap_read h3 a = some (Cell.question q next) :=
          fun a q2 next ha => hkeep3 a q2 next (hkeep1 a q2 next ha)
        have hframe : ∀ a, a ≠ nn → a ≠ cur → heap_read h3 a = heap_read h a := by
          intro a ha1 ha2
          rw [hr3 a, if_neg ha2, hr1 a, if_neg ha1]
        refine ⟨h3, (nn, qp, q) :: n :: rest2, ?_, ?_, by simp, ?_, ?_, hkeep, ?_⟩
        · simp only [insert_after_position, hfind, hcur, head_addr, hw1, hw3]
        · simp only [List.map_cons, pq_splice, hge, if_false]
        · rw [hr3 cur, if_pos rfl]
          rfl
        · rw [queue_in_cons]
          refine ⟨?_, question_at_keep h h3 _ _ hkeep hq, ?_⟩
          · rw [hr3 nn, if_neg hne, hr1 nn, if_pos rfl]
            rfl
          · refine queue_in_keep h h3 _ hkeep ?_ hrest0
            intro a ha
            simp only [List.map_cons, List.mem_cons] at ha
            refine hframe a ?_ ?_
            · rintro rfl
              rcases ha with ha | ha
              · exact hnn2.1 ha
              · exact hnn2.2 ha
            · rintro rfl
              rcases ha with ha | ha
              · exact hcur2.1 ha
              · exact hcur2.2 ha
        · intro a ha1 ha2 _
          exact hframe a ha1 ha2

theorem copy_to_temp_queue_mem_spec (h : Heap) (tq : List (Nat × Nat × Question))
    (qp : Nat) (q : Question) (fuel : Nat)
    (hq : question_at h qp = some q) (htq : queue_in h tq = true)
    (hnd : (tq.map (fun e => e.1)).Nodup) (hfuel : tq.length < fuel) :
    ∃ h1 tq1 nn, copy_to_temp_queue_mem fuel h qp (head_addr tq) = some (h1, head_addr tq1) ∧
      heap_read h nn = none ∧
      tq1.map (fun e => e.2.2) = copy_to_temp_queue q (tq.map (fun e => e.2.2)) ∧
      (tq1.map (fun e => e.1)).Perm (nn :: tq.map (fun e => e.1)) ∧
      queue_in h1 tq1 = true ∧
      (∀ a q next, heap_read h a = some (Cell.question q next) →
        heap_read h1 a = some (Cell.question q next)) ∧
      (∀ a, a ≠ nn → a ∉ tq.map (fun e => e.1) → heap_read h1 a = heap_read h a) := by
  have hfresh := malloc_fresh h (Cell.pq qp 0)
  have hm := heap_read_malloc h (Cell.pq qp 0)
  generalize hnn : (malloc h (Cell.pq qp 0)).1 = nn at hfresh hm
  generalize hh0 : (malloc h (Cell.pq qp 0)).2 = h0 at hm
  have hkeep0 : ∀ a q next, heap_read h a = some (Cell.question q next) →
      heap_read h0 a = some (Cell.question q next) := by
    intro a q2 next ha
    have hne : a ≠ nn := by
      intro e
      rw [e, hfresh] at ha
      simp at ha
    rw [hm a, if_neg hne, ha]
  have hq0 := question_at_keep h h0 _ _ hkeep0 hq
  have hnn0 : heap_read h0 nn = some (Cell.pq qp 0) := by rw [hm nn, if_pos rfl]
  have hnotin : nn ∉ tq.map (fun e => e.1) := by
    intro hmem
    obtain ⟨x, y, hxy⟩ := queue_in_addr h tq htq nn hmem
    rw [hfresh] at hxy
    simp at hxy
  have htq0 : queue_in h0 tq = true := by
    refine queue_in_keep h h0 tq hkeep0 ?_ htq
    intro a ha
    have hne : a ≠ nn := fun e => hnotin (e ▸ ha)
    rw [hm a, if_neg hne]
  unfold copy_to_temp_queue_mem
  rw [hnn, hh0]
  simp only [hq0]
  cases tq with
  | nil =>
    obtain ⟨h2, hw2, hr2⟩ := heap_write_of_read h0 nn _ (Cell.pq qp 0) hnn0
    have hkeep2 := heap_write_keep h0 h2 nn _ _ _ hnn0 hr2
    refine ⟨h2, [(nn, qp, q)], nn, ?_, hfresh, by simp [copy_to_temp_queue], by simp, ?_, ?_, ?_⟩
    · simp only [head_addr, if_true, hw2, Option.map_some']
    · rw [queue_in_cons]
      refine ⟨?_, question_at_keep h0 h2 _ _ hkeep2 hq0, rfl⟩
      rw [hr2 nn, if_pos rfl]
      rfl
    · intro a q2 next ha
      exact hkeep2 a q2 next (hkeep0 a q2 next ha)
    · intro a ha _
      rw [hr2 a, if_neg ha, hm a, if_neg ha]
  | cons hd rest =>
    have htq00 := htq0
    rw [queue_in_cons] at htq0
    obtain ⟨hhd, hhdq, hrest⟩ := htq0
    have hhd0 : hd.1 ≠ 0 := by
      intro e
      rw [e, heap_read_zero] at hhd
      simp at hhd
    have hdiff := node_difficulty_of_queue h0 hd rest htq00
    simp only [List.map_cons, List.mem_cons, not_or, List.nodup_cons] at hnotin hnd
    simp only [List.length_cons] at hfuel
    simp only [head_addr, hhd0, if_false, hdiff]
    by_cases hgt : q.difficulty > hd.2.2.difficulty
    · simp only [hgt, if_true]
      obtain ⟨h2, hw2, hr2⟩ := heap_write_of_read h0 nn _ (Cell.pq qp hd.1) hnn0
      have hkeep2 := heap_write_keep h0 h2 nn _ _ _ hnn0 hr2
      have hkeep : ∀ a q next, heap_read h a = some (Cell.question q next) →
          heap_read h2 a = some (Cell.question q next) :=
        fun a q2 next ha => hkeep2 a q2 next (hkeep0 a q2 next ha)
      refine ⟨h2, (nn, qp, q) :: hd :: rest, nn, ?_, hfresh, ?_, by simp, ?_, hkeep, ?_⟩
      · simp only [hw2, Option.map_some', head_addr]
      · simp only [List.map_cons, copy_to_temp_queue, hgt, if_true]
      · rw [queue_in_cons]
        refine ⟨?_, question_at_keep h h2 _ _ hkeep hq, ?_⟩
        · rw [hr2 nn, if_pos rfl]
          rfl
        · refine queue_in_keep h0 h2 _ hkeep2 ?_ htq00
          intro a ha
          simp only [List.map_cons, List.mem_cons] at ha
          have hne : a ≠ nn := by
            rintro rfl
            rcases ha with ha | ha
            · exact hnotin.1 ha
            · exact hnotin.2 ha
          rw [hr2 a, if_neg hne]
      · intro a ha _
        rw [hr2 a, if_neg ha, hm a, if_neg ha]
    · simp only [hgt, if_false]
      obtain ⟨h3, rest1, hins, hmap, hperm, hhd3, hq3, hkeep3, hframe⟩ :=
        insert_after_position_spec nn qp q rest hd.1 hd.2.1 h0 fuel hhd hrest hq0 hnn0
          hnotin.1 hnotin.2 hnd.1 hnd.2 (by omega)
      have hkeep : ∀ a q next, heap_read h a = some (Cell.question q next) →
          heap_read h3 a = some (Cell.question q next) :=
        fun a q2 next ha => hkeep3 a q2 next (hkeep0 a q2 next ha)
      refine ⟨h3, hd :: rest1, nn, ?_, hfresh, ?_, ?_, ?_, hkeep, ?_⟩
      · simp only [hins, Option.map_some', head_addr]
      · simp only [List.map_cons, copy_to_temp_queue, hgt, if_false, hmap]
      · simp only [List.map_cons]
        exact (List.Perm.cons _ hperm).trans (List.Perm.swap _ _ _)
      · rw [queue_in_cons]
        exact ⟨hhd3, question_at_keep h0 h3 _ _ hkeep3 hhdq, hq3⟩
      · intro a ha1 ha2
        simp only [List.map_cons, List.mem_cons, not_or] at ha2
        rw [hframe a ha1 ha2.1 ha2.2, hm a, if_neg ha1]

theorem head_addr_nil {α : Type} : head_addr ([] : List (Nat × α)) = 0 := rfl

theorem head_addr_cons {α : Type} (e : Nat × α) (rest : List (Nat × α)) :
    head_addr (e :: rest) = e.1 := rfl

theorem free_keep (h h1 : Heap) (p x y : Nat)
    (hp : heap_read h p = some (Cell.pq x y))
    (hw : ∀ a, heap_read h1 a = if a = p then none else heap_read h a) :
    ∀ a q next, heap_read h a = some (Cell.question q next) →
      heap_read h1 a = some (Cell.question q next) := by
  intro a q next ha
  have hne : a ≠ p := by
    intro e
    rw [e, hp] at ha
    simp at ha
  rw [hw a, if_neg hne, ha]

theorem copy_loop_spec (walk : Nat) :
    ∀ (ql : List (Nat × Question)) (h : Heap) (tq : List (Nat × Nat × Question)) (fuel : Nat),
      list_in h ql = true → queue_in h tq = true → (tq.map (fun e => e.1)).Nodup →
      tq.length + ql.length ≤ walk → ql.length < fuel →
      ∃ h1 tq1 fresh,
        copy_loop walk fuel h (head_addr ql) (head_addr tq) = some (h1, head_addr tq1) ∧
        (∀ a ∈ fresh, heap_read h a = none) ∧
        tq1.map (fun e => e.2.2) =
          (ql.map (fun e => e.2)).foldl (fun t c => copy_to_temp_queue c t)
            (tq.map (fun e => e.2.2)) ∧
        (tq1.map (fun e => e.1)).Perm (fresh ++ tq.map (fun e => e.1)) ∧
        queue_in h1 tq1 = true ∧ (tq1.map (fun e => e.1)).Nodup ∧
        (∀ a q next, heap_read h a = some (Cell.question q next) →
          heap_read h1 a = some (Cell.question q next)) ∧
        (∀ a, a ∉ fresh → a ∉ tq.map (fun e => e.1) → heap_read h1 a = heap_read h a) := by
  intro ql
  induction ql with
  | nil =>
    intro h tq fuel _ htq hnd _ hfuel
    cases fuel with
    | zero => simp at hfuel
    | succ f =>
      exact ⟨h, tq, [], by simp [copy_loop, head_addr_nil], by simp, by simp, by simp, htq, hnd,
        fun a q next ha => ha, fun a _ _ => rfl⟩
  | cons e rest ih =>
    intro h tq fuel hl htq hnd hwalk hfuel
    cases fuel with
    | zero => simp at hfuel
    | succ f =>
      have hl0 := hl
      rw [list_in_cons] at hl
      obtain ⟨he, hrest⟩ := hl
      have he0 : e.1 ≠ 0 := by
        intro e0
        rw [e0, heap_read_zero] at he
        simp at he
      have hq : question_at h e.1 = some e.2 := (question_at_some h e.1 e.2).mpr ⟨_, he⟩
      simp only [List.length_cons] at hwalk hfuel
      obtain ⟨h1, tq1, nn, hcopy, hfresh, hmap1, hperm1, hq1, hkeep1, hframe1⟩ :=
        copy_to_temp_queue_mem_spec h tq e.1 e.2 walk hq htq hnd (by omega)
      have hnotin : nn ∉ tq.map (fun e => e.1) := by
        intro hmem
        obtain ⟨x, y, hxy⟩ := queue_in_addr h tq htq nn hmem
        rw [hfresh] at hxy
        simp at hxy
      have hnd1 : (tq1.map (fun e => e.1)).Nodup :=
        hperm1.nodup_iff.mpr (List.nodup_cons.mpr ⟨hnotin, hnd⟩)
      have hlen1 : tq1.length = tq.length + 1 := by
        have := hperm1.length_eq
        simpa using this
      obtain ⟨h2, tq2, fresh2, hloop, hfresh2, hmap2, hperm2, hq2, hnd2, hkeep2, hframe2⟩ :=
        ih h1 tq1 f (list_in_keep h h1 rest hkeep1 hrest) hq1 hnd1 (by omega) (by omega)
      have hmem1 : ∀ a, a ∈ tq1.map (fun e => e.1) ↔ a = nn ∨ a ∈ tq.map (fun e => e.1) := by
        intro a
        rw [hperm1.mem_iff, List.mem_cons]
      refine ⟨h2, tq2, fresh2 ++ [nn], ?_, ?_, ?_, ?_, hq2, hnd2, ?_, ?_⟩
      · simp only [copy_loop, head_addr_cons, he0, if_false, hcopy, hkeep1 _ _ _ he]
        exact hloop
      · intro a ha
        rw [List.mem_append, List.mem_singleton] at ha
        rcases ha with ha | ha
        · have hfree1 := hfresh2 a ha
          have hnot1 : a ∉ tq1.map (fun e => e.1) := by
            intro hmem
            obtain ⟨x, y, hxy⟩ := queue_in_addr h1 tq1 hq1 a hmem
            rw [hfree1] at hxy
            simp at hxy
          rw [hmem1, not_or] at hnot1
          rw [← hframe1 a hnot1.1 hnot1.2]
          exact hfree1
        · rw [ha]
          exact hfresh
      · rw [hmap2, hmap1]
        simp only [List.map_cons, List.foldl_cons]
      · refine hperm2.trans ?_
        have : fresh2 ++ [nn] ++ tq.map (fun e => e.1) =
            fresh2 ++ (nn :: tq.map (fun e => e.1)) := by simp
        rw [this]
        exact List.Perm.append_left fresh2 hperm1
      · intro a q next ha
        exact hkeep2 a q next (hkeep1 a q next ha)
      · intro a ha1 ha2
        rw [List.mem_append, List.mem_singleton, not_or] at ha1
        have hnot1 : a ∉ tq1.map (fun e => e.1) := by
          rw [hmem1, not_or]
          exact ⟨ha1.2, ha2⟩
        rw [hframe2 a ha1.1 hnot1, hframe1 a ha1.2 ha2]

theorem free_queue_spec :
    ∀ (tq : List (Nat × Nat × Question)) (h : Heap) (fuel : Nat),
      queue_in h tq = true → (tq.map (fun e => e.1)).Nodup → tq.length < fuel →
      ∃ h1, free_queue fuel h (head_addr tq) = some h1 ∧
        (∀ a ∈ tq.map (fun e => e.1), heap_read h1 a = none) ∧
        (∀ a, a ∉ tq.map (fun e => e.1) → heap_read h1 a = heap_read h a) := by
  intro tq
  induction tq with
  | nil =>
    intro h fuel _ _ hfuel
    cases fuel with
    | zero => simp at hfuel
    | succ f => exact ⟨h, by simp [free_queue, head_addr_nil], by simp, fun a _ => rfl⟩
  | cons e rest ih =>
    intro h fuel htq hnd hfuel
    cases fuel with
    | zero => simp at hfuel
    | succ f =>
      have htq0 := htq
      rw [queue_in_cons] at htq
      obtain ⟨he, _, hrest⟩ := htq
      have he0 : e.1 ≠ 0 := by
        intro e0
        rw [e0, heap_read_zero] at he
        simp at he
      simp only [List.map_cons, List.nodup_cons] at hnd
      simp only [List.length_cons] at hfuel
      obtain ⟨h1, hf1, hr1⟩ := free_of_read h e.1 _ he
      have hkeep1 := free_keep h h1 e.1 _ _ he hr1
      have hrest1 : queue_in h1 rest = true := by
        refine queue_in_keep h h1 rest hkeep1 ?_ hrest
        intro a ha
        have hne : a ≠ e.1 := fun e1 => hnd.1 (e1 ▸ ha)
        rw [hr1 a, if_neg hne]
      obtain ⟨h2, hf2, hnone2, hframe2⟩ := ih h1 f hrest1 hnd.2 (by omega)
      refine ⟨h2, ?_, ?_, ?_⟩
      · simp only [free_queue, head_addr_cons, he0, if_false, he, hf1]
        exact hf2
      · intro a ha
        simp only [List.map_cons, List.mem_cons] at ha
        by_cases hmem : a ∈ rest.map (fun e => e.1)
        · exact hnone2 a hmem
        · have hae : a = e.1 := by tauto
          rw [hframe2 a hmem, hr1 a, if_pos hae]
      · intro a ha
        simp only [List.map_cons, List.mem_cons, not_or] at ha
        rw [hframe2 a ha.2, hr1 a, if_neg ha.1]

theorem priority_loop_mem_spec (bs : Nat) (count : Int) :
    ∀ (tq : List (Nat × Nat × Question)) (h : Heap) (fuel added : Nat) (first : Bool)
      (text : List Nat) (offset : Nat) (text1 : List Nat) (offset1 : Nat),
      queue_in h tq = true → (tq.map (fun e => e.1)).Nodup → tq.length < fuel →
      priority_loop bs count (tq.map (fun e => e.2.2)) added first text offset =
        some (text1, offset1) →
      ∃ h1 k, priority_loop_mem bs count fuel h (head_addr tq) added first text offset =
          some (h1, head_addr (tq.drop k), text1, offset1) ∧
        queue_in h1 (tq.drop k) = true ∧
        (∀ a ∈ (tq.take k).map (fun e => e.1), heap_read h1 a = none) ∧
        (∀ a, a ∉ (tq.take k).map (fun e => e.1) → heap_read h1 a = heap_read h a) := by
  intro tq
  induction tq with
  | nil =>
    intro h fuel added first text offset text1 offset1 htq _ hfuel hp
    cases fuel with
    | zero => simp at hfuel
    | succ f =>
      simp only [List.map_nil, priority_loop, Option.some.injEq, Prod.mk.injEq] at hp
      refine ⟨h, 0, ?_, htq, by simp, fun a _ => rfl⟩
      simp [priority_loop_mem, head_addr_nil, hp.1, hp.2]
  | cons e rest ih =>
    intro h fuel added first text offset text1 offset1 htq hnd hfuel hp
    cases fuel with
    | zero => simp at hfuel
    | succ f =>
      have htq0 := htq
      rw [queue_in_cons] at htq
      obtain ⟨he, heq, hrest⟩ := htq
      have he0 : e.1 ≠ 0 := by
        intro e0
        rw [e0, heap_read_zero] at he
        simp at he
      simp only [List.map_cons, List.nodup_cons] at hnd
      simp only [List.length_cons] at hfuel
      simp only [List.map_cons] at hp
      unfold priority_loop at hp
      unfold priority_loop_mem
      simp only [head_addr_cons, ne_eq, he0, not_false_eq_true, true_and]
      by_cases hg : (added : Int) < count ∧ offset < bs - 1024
      · simp only [hg, and_self, if_true] at hp ⊢
        cases hc : (if first then some (text, offset)
            else snprintf_at bs text offset (lit ",")) with
        | none =>
          rw [hc] at hp
          simp at hp
        | some r1 =>
          obtain ⟨t1, o1⟩ := r1
          rw [hc] at hp
          simp only [he, heq] at hp ⊢
          cases hs : snprintf_at bs t1 o1 (question_json e.2.2) with
          | none =>
            rw [hs] at hp
            simp at hp
          | some r2 =>
            obtain ⟨t2, o2⟩ := r2
            rw [hs] at hp
            simp only at hp ⊢
            obtain ⟨h1, hf1, hr1⟩ := free_of_read h e.1 _ he
            have hkeep1 := free_keep h h1 e.1 _ _ he hr1
            have hrest1 : queue_in h1 rest = true := by
              refine queue_in_keep h h1 rest hkeep1 ?_ hrest
              intro a ha
              have hne : a ≠ e.1 := fun e1 => hnd.1 (e1 ▸ ha)
              rw [hr1 a, if_neg hne]
            obtain ⟨h2, k, hloop, hq2, hnone2, hframe2⟩ :=
              ih h1 f (added + 1) false t2 o2 text1 offset1 hrest1 hnd.2 (by omega) hp
            refine ⟨h2, k + 1, ?_, ?_, ?_, ?_⟩
            · simp only [hf1, List.drop_succ_cons]
              exact hloop
            · simpa using hq2
            · intro a ha
              simp only [List.take_succ_cons, List.map_cons, List.mem_cons] at ha
              by_cases hmem : a ∈ (rest.take k).map (fun e => e.1)
              · exact hnone2 a hmem
              · have hae : a = e.1 := by tauto
                rw [hframe2 a hmem, hr1 a, if_pos hae]
            · intro a ha
              simp only [List.take_succ_cons, List.map_cons, List.mem_cons, not_or] at ha
              rw [hframe2 a ha.2, hr1 a, if_neg ha.1]
      · simp only [hg, if_false, Option.some.injEq, Prod.mk.injEq] at hp ⊢
        refine ⟨h, 0, ?_, htq0, by simp, fun a _ => rfl⟩
        simp [head_addr_cons, hp.1, hp.2]

theorem effective_count_le (count_param : Option (List Nat)) :
    effective_count count_param ≤ 100 := by
  cases count_param with
  | none => decide
  | some p =>
    rw [effective_count_some]
    split <;> omega

theorem priority_questions_body_steps (count : Int) (qs : List Question) (body : List Nat)
    (hb : priority_questions_body count qs = some body) :
    ∃ text0 offset0 text1 offset1 offset2,
      snprintf_at (1024 * 1024) [] 0 (lit "[") = some (text0, offset0) ∧
      priority_loop (1024 * 1024) count (ranked_snapshot qs) 0 true text0 offset0 =
        some (text1, offset1) ∧
      snprintf_at (1024 * 1024) text1 offset1 (lit "]") = some (body, offset2) := by
  unfold priority_questions_body at hb
  simp only at hb
  cases h0 : snprintf_at (1024 * 1024) [] 0 (lit "[") with
  | none => rw [h0] at hb; simp at hb
  | some r0 =>
    obtain ⟨text0, offset0⟩ := r0
    rw [h0] at hb
    simp only at hb
    cases h1 : priority_loop (1024 * 1024) count (ranked_snapshot qs) 0 true text0 offset0 with
    | none => rw [h1] at hb; simp at hb
    | some r1 =>
      obtain ⟨text1, offset1⟩ := r1
      rw [h1] at hb
      simp only at hb
      cases h2 : snprintf_at (1024 * 1024) text1 offset1 (lit "]") with
      | none => rw [h2] at hb; simp at hb
      | some r2 =>
        obtain ⟨text2, offset2⟩ := r2
        rw [h2] at hb
        simp only [Option.some.injEq] at hb
        subst hb
        exact ⟨text0, offset0, text1, offset1, offset2, rfl, h1, h2⟩

theorem handle_get_priority_questions_mem_spec (fuel : Nat) (m : Memory)
    (ql : List (Nat × Question)) (count_param : Option (List Nat))
    (hl : list_in m.heap ql = true) (hhead : m.question_head = head_addr ql)
    (hbounds : ∀ e ∈ ql, within_bounds e.2) (hfuel : ql.length < fuel) :
    ∃ m1 body, handle_get_priority_questions_mem fuel m count_param = some (m1, body) ∧
      handle_get_priority_questions count_param (ql.map (fun e => e.2)) = some body ∧
      m1.question_head = m.question_head ∧ m1.question_bst_root = m.question_bst_root ∧
      m1.priority_queue_head = m.priority_queue_head ∧
      ∀ a, heap_read m1.heap a = heap_read m.heap a := by
  have hb : ∀ q ∈ ql.map (fun e => e.2), within_bounds q := by
    intro q hq
    rw [List.mem_map] at hq
    obtain ⟨e, he, rfl⟩ := hq
    exact hbounds e he
  have hpure := priority_questions_body_eq (ql.map (fun e => e.2))
    (effective_count count_param) hb (effective_count_le count_param)
  obtain ⟨text0, offset0, text1, offset1, offset2, hs0, hs1, hs2⟩ :=
    priority_questions_body_steps _ _ _ hpure
  obtain ⟨h1, tq1, fresh, hloop, hfresh, hmap, hperm, hq1, hnd1, hkeep1, hframe1⟩ :=
    copy_loop_spec fuel ql m.heap [] fuel hl rfl (by simp) (by simp; omega) hfuel
  have hmap1 : tq1.map (fun e => e.2.2) = ranked_snapshot (ql.map (fun e => e.2)) := by
    rw [hmap]
    rfl
  have hmem1 : ∀ a, a ∈ tq1.map (fun e => e.1) ↔ a ∈ fresh := by
    intro a
    rw [hperm.mem_iff]
    simp
  have hlen1 : tq1.length = ql.length := by
    have h1 : (tq1.map (fun e => e.2.2)).length = (ql.map (fun e => e.2)).length := by
      rw [hmap1]
      have := (snapshot_foldl (ql.map (fun e => e.2)) [] List.Pairwise.nil).1.length_eq
      simpa [ranked_snapshot] using this
    simpa using h1
  have hbfresh := malloc_fresh h1 (Cell.chars [])
  have hm := heap_read_malloc h1 (Cell.chars [])
  generalize hbb : (malloc h1 (Cell.chars [])).1 = b at hbfresh hm
  generalize hh2 : (malloc h1 (Cell.chars [])).2 = h2 at hm
  have hbnot : b ∉ tq1.map (fun e => e.1) := by
    intro hmem
    obtain ⟨x, y, hxy⟩ := queue_in_addr h1 tq1 hq1 b hmem
    rw [hbfresh] at hxy
    simp at hxy
  have hkeep2 : ∀ a q next, heap_read h1 a = some (Cell.question q next) →
      heap_read h2 a = some (Cell.question q next) := by
    intro a q next ha
    have hne : a ≠ b := by
      intro e
      rw [e, hbfresh] at ha
      simp at ha
    rw [hm a, if_neg hne, ha]
  have hq2 : queue_in h2 tq1 = true := by
    refine queue_in_keep h1 h2 tq1 hkeep2 ?_ hq1
    intro a ha
    have hne : a ≠ b := fun e => hbnot (e ▸ ha)
    rw [hm a, if_neg hne]
  rw [← hmap1] at hs1
  obtain ⟨h3, k, hloop3, hq3, hnone3, hframe3⟩ :=
    priority_loop_mem_spec (1024 * 1024) (effective_count count_param) tq1 h2 fuel 0 true
      text0 offset0 text1 offset1 hq2 hnd1 (by omega) hs1
  have hnd3 : ((tq1.drop k).map (fun e => e.1)).Nodup := by
    rw [List.map_drop]
    exact hnd1.sublist (List.drop_sublist _ _)
  obtain ⟨h4, hfree4, hnone4, hframe4⟩ :=
    free_queue_spec (tq1.drop k) h3 fuel hq3 hnd3 (by simp; omega)
  have hsplit : ∀ a, a ∈ tq1.map (fun e => e.1) ↔
      a ∈ (tq1.take k).map (fun e => e.1) ∨ a ∈ (tq1.drop k).map (fun e => e.1) := by
    intro a
    rw [← List.mem_append, ← List.map_append, List.take_append_drop]
  have hb4 : heap_read h4 b = some (Cell.chars []) := by
    have hnot := (not_congr (hsplit b)).mp hbnot
    rw [not_or] at hnot
    rw [hframe4 b hnot.2, hframe3 b hnot.1, hm b, if_pos rfl]
  obtain ⟨h5, hfree5, hr5⟩ := free_of_read h4 b _ hb4
  simp only [head_addr_nil] at hloop
  refine ⟨{ heap := h5, question_head := m.question_head,
            question_bst_root := m.question_bst_root,
            priority_queue_head := m.priority_queue_head }, _, ?_, hpure, rfl, rfl, rfl, ?_⟩
  · unfold handle_get_priority_questions_mem
    rw [hhead]
    simp only [hloop, hs0, hbb, hh2, hloop3, hfree4, hs2, hfree5]
  · intro a
    show heap_read h5 a = heap_read m.heap a
    rw [hr5 a]
    by_cases hab : a = b
    · rw [if_pos hab, hab]
      have hbf : b ∉ fresh := fun hmem => hbnot ((hmem1 b).mpr hmem)
      rw [← hframe1 b hbf (by simp)]
      exact hbfresh.symm
    · rw [if_neg hab]
      by_cases hmem : a ∈ tq1.map (fun e => e.1)
      · have hfree0 : heap_read m.heap a = none := hfresh a ((hmem1 a).mp hmem)
        rw [hfree0]
        by_cases hd : a ∈ (tq1.drop k).map (fun e => e.1)
        · exact hnone4 a hd
        · have ht : a ∈ (tq1.take k).map (fun e => e.1) := by
            have := (hsplit a).mp hmem
            tauto
          rw [hframe4 a hd]
          exact hnone3 a ht
      · have hnot := (not_congr (hsplit a)).mp hmem
        rw [not_or] at hnot
        have hnf : a ∉ fresh := fun hf => hmem ((hmem1 a).mpr hf)
        rw [hframe4 a hnot.2, hframe3 a hnot.1, hm a, if_neg hab, hframe1 a hnf (by simp)]

/-- C19: on the store laid out in dynamic memory (the linked list of `Question`
records, the `BSTNode`s, the `PQNode`s of the master queue), the ranking query
(`handle_get_priority_questions`: it allocates the nodes of its own queue with
`copy_to_temp_queue`, links them, consumes and frees them, and allocates and frees its
buffer) returns with every address holding what it held before the call and the three
globals unchanged, its body being that of the query on the list of records; the by-id
lookup (`get_question_by_id_json`) changes nothing but the fresh cell of the string it
returns, and memory is as before once the caller has freed that string; and in every
memory that still holds the cells of the store the lookup returns the same bytes, so
the same by-id lookup issued twice (or after a ranking query) yields the same JSON. -/
theorem C19_read_queries_keep_memory (m : Memory) (ql : List (Nat × Question))
    (t : TreeLayout) (count_param : Option (List Nat)) (id : Int) (fuel : Nat)
    (hlist : list_in m.heap ql = true) (hhead : m.question_head = head_addr ql)
    (htree : tree_in m.heap t = true) (hroot : m.question_bst_root = root_addr t)
    (hbounds : ∀ e ∈ ql, within_bounds e.2)
    (hfuel : ql.length < fuel ∧ depth t < fuel) :
    (∃ m1 body, handle_get_priority_questions_mem fuel m count_param = some (m1, body) ∧
      handle_get_priority_questions count_param (ql.map (fun e => e.2)) = some body ∧
      m1.question_head = m.question_head ∧ m1.question_bst_root = m.question_bst_root ∧
      m1.priority_queue_head = m.priority_queue_head ∧
      ∀ a, heap_read m1.heap a = heap_read m.heap a) ∧
    (∃ m1 json, get_question_by_id_json_mem fuel m id = some (m1, json) ∧
      heap_read m.heap json = none ∧
      heap_read m1.heap json =
        some (Cell.chars ((search_bst (tree_of t) id).elim
          (lit "\x7b\"error\":\"Question not found\"\x7d") question_json)) ∧
      (∀ a, a ≠ json → heap_read m1.heap a = heap_read m.heap a) ∧
      m1.question_head = m.question_head ∧ m1.question_bst_root = m.question_bst_root ∧
      m1.priority_queue_head = m.priority_queue_head ∧
      ∃ h2, free m1.heap json = some h2 ∧ ∀ a, heap_read h2 a = heap_read m.heap a) ∧
    (∀ m0 : Memory, m0.question_bst_root = m.question_bst_root →
      (∀ a, heap_read m.heap a ≠ none → heap_read m0.heap a = heap_read m.heap a) →
      ∃ m2 json2, get_question_by_id_json_mem fuel m0 id = some (m2, json2) ∧
        heap_read m2.heap json2 =
          some (Cell.chars ((search_bst (tree_of t) id).elim
            (lit "\x7b\"error\":\"Question not found\"\x7d") question_json))) := by
  refine ⟨handle_get_priority_questions_mem_spec fuel m ql count_param hlist hhead hbounds
    hfuel.1, ?_, ?_⟩
  · obtain ⟨m1, json, hcall, hj0, hfresh, hjson, hframe, hg1, hg2, hg3⟩ :=
      get_question_by_id_json_mem_eq fuel m t id htree hroot hfuel.2
    obtain ⟨h2, hfree, hr2⟩ := free_of_read m1.heap json _ hjson
    refine ⟨m1, json, hcall, hfresh, hjson, hframe, hg1, hg2, hg3, h2, hfree, ?_⟩
    intro a
    rw [hr2 a]
    by_cases ha : a = json
    · rw [if_pos ha, ha, hfresh]
    · rw [if_neg ha, hframe a ha]
  · intro m0 hroot0 hsame
    obtain ⟨m2, json2, hcall, _, _, hjson, _⟩ :=
      get_question_by_id_json_mem_eq fuel m0 t id (tree_in_keep m.heap m0.heap t hsame htree)
        (hroot0.trans hroot) hfuel.2
    exact ⟨m2, json2, hcall, hjson⟩

theorem C19_read_queries_keep_memory_witness :
    list_in sample_memory.heap sample_list = true ∧
    tree_in sample_memory.heap sample_tree = true ∧
    (∀ e ∈ sample_list, within_bounds e.2) ∧
    (handle_get_priority_questions_mem 4 sample_memory (some (lit "2"))).map
      (fun r => r.1.heap) = some (sample_memory.heap ++ [none, none, none]) ∧
    (∃ m1 body,
      handle_get_priority_questions_mem 4 sample_memory (some (lit "2")) = some (m1, body) ∧
      handle_get_priority_questions (some (lit "2")) (sample_list.map (fun e => e.2)) =
        some body ∧
      m1.question_head = sample_memory.question_head ∧
      m1.question_bst_root = sample_memory.question_bst_root ∧
      m1.priority_queue_head = sample_memory.priority_queue_head ∧
      ∀ a, heap_read m1.heap a = heap_read sample_memory.heap a) :=
  ⟨by decide, by decide, by decide, by decide,
   (C19_read_queries_keep_memory sample_memory sample_list sample_tree (some (lit "2")) 8 4
      (by decide) (by decide) (by decide) (by decide) (by decide) (by decide)).1⟩

/-! ## Lookup of an id that is not stored (C20) -/

theorem handle_get_questions_miss (qs : List Question) (p : List Nat) (hne : qs ≠ [])
    (habs : ∀ q ∈ qs, q.id ≠ atoi p) :
    (handle_get_questions (build_store qs) (some p)).2 =
      some (lit "\x7b\"error\":\"Question not found\"\x7d") := by
  have hhead := question_head_build_store qs
  have hsearch : search_bst (build_store qs).question_bst_root (atoi p) = none := by
    rw [search_bst_build_store, List.find?_eq_none]
    intro x hx
    simpa using habs x hx
  unfold handle_get_questions
  cases hq : (build_store qs).question_head with
  | nil => exact absurd (hhead ▸ hq) hne
  | cons q rest =>
    simp only [get_question_by_id_json, hsearch]

/-- C20 (as stated, refuted): on the empty store the request with `id=5` is answered
`{"error":"No questions available"}`, not `{"error":"Question not found"}`; and on the
store holding one question of id 1 the request with `id=4294967297`, an id that no
stored question carries, is answered with that question, because `atoi` truncates the
parameter to the `int` 1. -/
theorem C20_counterexample :
    (handle_get_questions empty_store (some (lit "5"))).2 =
      some (lit "\x7b\"error\":\"No questions available\"\x7d") ∧
    (handle_get_questions empty_store (some (lit "5"))).2 ≠
      some (lit "\x7b\"error\":\"Question not found\"\x7d") ∧
    strtol (lit "4294967297") = 4294967297 ∧
    (∀ q ∈ [sample_question 1 2], q.id ≠ 4294967297) ∧
    (handle_get_questions (build_store [sample_question 1 2]) (some (lit "4294967297"))).2 =
      some (question_json (sample_question 1 2)) ∧
    (handle_get_questions (build_store [sample_question 1 2]) (some (lit "4294967297"))).2 ≠
      some (lit "\x7b\"error\":\"Question not found\"\x7d") := by
  decide

/-- C20 (amended): for every non-empty store built by appends and every `id` parameter
for which `atoi` returns an `int` that is the id of no stored question, the body of the
response of `handle_get_questions` is exactly `{"error":"Question not found"}`; this
holds in particular for the decimal text of every `int` that is the id of no stored
question. On the empty store the body is `{"error":"No questions available"}`. -/
theorem C20_lookup_miss (qs : List Question) (p : List Nat) (hne : qs ≠ [])
    (habs : ∀ q ∈ qs, q.id ≠ atoi p) :
    (handle_get_questions (build_store qs) (some p)).2 =
      some (lit "\x7b\"error\":\"Question not found\"\x7d") ∧
    (handle_get_questions empty_store (some p)).2 =
      some (lit "\x7b\"error\":\"No questions available\"\x7d") ∧
    (∀ n : Int, -2147483648 ≤ n → n ≤ 2147483647 → (∀ q ∈ qs, q.id ≠ n) →
      (handle_get_questions (build_store qs) (some (fmt_d n))).2 =
        some (lit "\x7b\"error\":\"Question not found\"\x7d")) := by
  refine ⟨handle_get_questions_miss qs p hne habs, rfl, ?_⟩
  intro n h1 h2 hn
  exact handle_get_questions_miss qs (fmt_d n) hne (by rw [atoi_fmt_d n h1 h2]; exact hn)

theorem C20_lookup_miss_witness :
    (∀ q ∈ [sample_question 3 4, sample_question 7 8], q.id ≠ atoi (lit "5")) ∧
    (handle_get_questions (build_store [sample_question 3 4, sample_question 7 8])
      (some (lit "5"))).2 = some (lit "\x7b\"error\":\"Question not found\"\x7d") :=
  ⟨by decide,
   (C20_lookup_miss [sample_question 3 4, sample_question 7 8] (lit "5") (by decide)
     (by decide)).1⟩

/-! ## The line parser on the non-empty fields of a line -/

theorem strtok_r_none_fields (s r : List Nat) (h : strtok_r s (lit "|") = (none, r)) :
    fields 124 s = [] ∧ r = [] := by
  have h1 := strtok_r_fields s
  rw [h] at h1
  refine ⟨h1, ?_⟩
  unfold strtok_r at h
  cases hd : List.dropWhile (fun b => (lit "|").contains b) s with
  | nil => rw [hd] at h; simpa using h.symm
  | cons a t => rw [hd] at h; simp at h

theorem strtok_r_some_fields (s t r : List Nat) (h : strtok_r s (lit "|") = (some t, r)) :
    fields 124 s = t :: fields 124 r := by
  have h1 := strtok_r_fields s
  rw [h] at h1
  exact h1

theorem token_state_parse_option (st : ParseState) (i : Nat) :
    token_state (parse_option st i) = parse_option_tokens (token_state st) i := by
  rcases h : strtok_r st.rest (lit "|") with ⟨_ | t, r⟩
  · obtain ⟨hf, hr⟩ := strtok_r_none_fields _ _ h
    subst hr
    simp only [parse_option, h, parse_option_tokens, token_state, hf, fields_nil]
  · have hf := strtok_r_some_fields _ _ _ h
    simp only [parse_option, h, parse_option_tokens, token_state, hf]

theorem token_state_foldl (is : List Nat) (st : ParseState) :
    token_state (is.foldl parse_option st) =
      is.foldl parse_option_tokens (token_state st) := by
  induction is generalizing st with
  | nil => rfl
  | cons i t ih => simp only [List.foldl_cons, ih, token_state_parse_option]

theorem parse_line_eq_parse_tokens (l : List Nat) :
    parse_line l = parse_tokens (fields 124 l) := by
  rcases h1 : strtok_r l (lit "|") with ⟨_ | t1, r1⟩
  · obtain ⟨hf, _⟩ := strtok_r_none_fields _ _ h1
    simp only [parse_line, h1, hf, parse_tokens]
  · have hf1 := strtok_r_some_fields _ _ _ h1
    rcases h2 : strtok_r r1 (lit "|") with ⟨_ | t2, r2⟩
    · obtain ⟨hf, _⟩ := strtok_r_none_fields _ _ h2
      simp only [parse_line, h1, h2, hf1, hf, parse_tokens]
    · have hf2 := strtok_r_some_fields _ _ _ h2
      have hst := token_state_foldl (List.range 4)
        { new_question :=
            { zeroed_question with
              id := atoi t1, question := strncpy t2 (MAX_QUESTION_LENGTH - 1) },
          rest := r2, errors := [], frees := 0 }
      generalize hS : (List.range 4).foldl parse_option
        { new_question :=
            { zeroed_question with
              id := atoi t1, question := strncpy t2 (MAX_QUESTION_LENGTH - 1) },
          rest := r2, errors := [], frees := 0 } = S at hst
      have hT : (List.range 4).foldl parse_option_tokens
          { new_question :=
              { zeroed_question with
                id := atoi t1, question := strncpy t2 (MAX_QUESTION_LENGTH - 1) },
            rest := fields 124 r2, errors := [], frees := 0 } = token_state S := hst.symm
      rcases h3 : strtok_r S.rest (lit "|") with ⟨_ | t3, r3⟩
      · obtain ⟨hf, _⟩ := strtok_r_none_fields _ _ h3
        simp only [parse_line, h1, h2, hf1, hf2, parse_tokens, hS, hT, h3, token_state, hf]
      · have hf3 := strtok_r_some_fields _ _ _ h3
        rcases h4 : strtok_r r3 (lit "|") with ⟨_ | t4, r4⟩
        · obtain ⟨hf, _⟩ := strtok_r_none_fields _ _ h4
          simp only [parse_line, h1, h2, hf1, hf2, parse_tokens, hS, hT, h3, token_state,
            hf3, h4, hf]
        · have hf4 := strtok_r_some_fields _ _ _ h4
          simp only [parse_line, h1, h2, hf1, hf2, parse_tokens, hS, hT, h3, token_state,
            hf3, h4, hf4]

/-! ## Line terminators (C21) -/

theorem through_newline_cases (s : List Nat) :
    10 ∉ through_newline s ∨ ∃ l, through_newline s = l ++ [10] ∧ 10 ∉ l := by
  induction s with
  | nil => left; simp [through_newline]
  | cons b r ih =>
    by_cases hb : b = 10
    · right
      exact ⟨[], by simp [through_newline, hb], by simp⟩
    · rcases ih with h | ⟨l, hl, hn⟩
      · left
        simp only [through_newline, if_neg hb, List.mem_cons, not_or]
        exact ⟨fun e => hb e.symm, h⟩
      · right
        refine ⟨b :: l, by simp [through_newline, hb, hl], ?_⟩
        simp only [List.mem_cons, not_or]
        exact ⟨fun e => hb e.symm, hn⟩

theorem strip_newline_subset (l : List Nat) : strip_newline l ⊆ l := by
  unfold strip_newline
  split
  · exact (List.dropLast_sublist l).subset
  · exact List.Subset.refl l

theorem strip_c_str_through_newline (s : List Nat) :
    10 ∉ strip_newline (c_str (through_newline s)) := by
  rcases through_newline_cases s with h | ⟨l, hl, hn⟩
  · intro hm
    exact h ((c_str_initial _).subset (strip_newline_subset _ hm))
  · have hp := c_str_initial (through_newline s)
    rw [hl, List.prefix_concat_iff] at hp
    rcases hp with he | hp
    · rw [hl, he, strip_newline_concat]
      exact hn
    · intro hm
      rw [hl] at hm
      exact hn (hp.subset (strip_newline_subset _ hm))

theorem read_lines_through_newline (n fuel : Nat) (stream : List Nat) :
    ∀ line ∈ read_lines n fuel stream, ∃ s, line = through_newline s := by
  induction fuel generalizing stream with
  | zero => intro line h; simp [read_lines] at h
  | succ k ih =>
    intro line h
    cases stream with
    | nil => simp [read_lines, fgets] at h
    | cons b r =>
      simp only [read_lines, fgets, List.mem_cons] at h
      rcases h with h | h
      · exact ⟨_, h⟩
      · exact ih _ line h

theorem fields_subset (sep : Nat) (n : Nat) :
    ∀ l : List Nat, l.length ≤ n → ∀ f ∈ fields sep l, ∀ b ∈ f, b ∈ l := by
  induction n with
  | zero =>
    intro l hl f hf
    have : l = [] := List.length_eq_zero.mp (Nat.le_zero.mp hl)
    subst this
    simp [fields_nil] at hf
  | succ k ih =>
    intro l hl f hf b hb
    cases l with
    | nil => simp [fields_nil] at hf
    | cons x s =>
      have hs : s.length ≤ k := by simpa using hl
      by_cases hx : x = sep
      · subst hx
        rw [fields_cons_sep] at hf
        exact List.mem_cons_of_mem _ (ih s hs f hf b hb)
      · rw [fields_token sep x s hx, List.mem_cons] at hf
        rcases hf with hf | hf
        · subst hf
          exact (List.takeWhile_sublist _).subset hb
        · have hx1 : (!(x == sep)) = true := by simp [hx]
          have hsub : ((x :: s).dropWhile (fun b => !(b == sep))).drop 1 ⊆ s := by
            simp only [List.dropWhile_cons, hx1, if_true]
            exact fun a ha =>
              (List.dropWhile_sublist _).subset ((List.drop_sublist _ _).subset ha)
          have hlen : (((x :: s).dropWhile (fun b => !(b == sep))).drop 1).length ≤ k := by
            simp only [List.dropWhile_cons, hx1, if_true, List.length_drop]
            have := (List.dropWhile_sublist (fun b => !(b == sep)) (l := s)).length_le
            omega
          exact List.mem_cons_of_mem _ (hsub (ih _ hlen f hf b hb))

theorem parse_tokens_accepts (fs : List (List Nat)) (q : Question)
    (h : (parse_tokens fs).question = some q) :
    ∃ f1 f2 f3 f4 f5 f6 f7 rest, fs = f1 :: f2 :: f3 :: f4 :: f5 :: f6 :: f7 :: rest := by
  have hr : List.range 4 = [0, 1, 2, 3] := rfl
  rcases fs with _ | ⟨f1, _ | ⟨f2, _ | ⟨f3, _ | ⟨f4, _ | ⟨f5, _ | ⟨f6, _ | ⟨f7, rest⟩⟩⟩⟩⟩⟩⟩
  · simp [parse_tokens] at h
  · simp [parse_tokens] at h
  · simp [parse_tokens, parse_option_tokens, hr] at h
  · simp [parse_tokens, parse_option_tokens, hr] at h
  · simp [parse_tokens, parse_option_tokens, hr] at h
  · simp [parse_tokens, parse_option_tokens, hr] at h
  · simp [parse_tokens, parse_option_tokens, hr] at h
  · exact ⟨f1, f2, f3, f4, f5, f6, f7, rest, rfl⟩

theorem accepted_question_bytes (line : List Nat) (q : Question)
    (h : accepted_question line = some q) (b : Nat)
    (hb : b ∈ q.question ∨ (∃ o ∈ q.options, b ∈ o) ∨ b ∈ q.explanation) :
    b ∈ strip_newline line ∨ b ∈ lit "No explanation provided" := by
  unfold accepted_question at h
  split at h
  · simp at h
  · have ht := h
    rw [parse_line_eq_parse_tokens] at ht
    obtain ⟨f1, f2, f3, f4, f5, f6, f7, rest, hfs⟩ := parse_tokens_accepts _ _ ht
    have hq := parse_line_fields _ f1 f2 f3 f4 f5 f6 f7 rest hfs
    rw [hq] at h
    simp only [Option.some.injEq] at h
    subst h
    have hsub : ∀ f ∈ fields 124 (strip_newline line), ∀ c ∈ f, c ∈ strip_newline line :=
      fields_subset 124 _ _ (le_refl _)
    have htake : ∀ (f : List Nat) (n : Nat), f ∈ fields 124 (strip_newline line) →
        b ∈ strncpy f n → b ∈ strip_newline line :=
      fun f n hf hm => hsub f hf b (List.mem_of_mem_take hm)
    rw [hfs] at htake
    rcases hb with hb | ⟨o, ho, hb⟩ | hb
    · exact Or.inl (htake f2 _ (by simp) hb)
    · simp only [question_of_fields, List.mem_cons, List.mem_singleton, List.not_mem_nil,
        or_false] at ho
      rcases ho with ho | ho | ho | ho <;> subst ho
      · exact Or.inl (htake f3 _ (by simp) hb)
      · exact Or.inl (htake f4 _ (by simp) hb)
      · exact Or.inl (htake f5 _ (by simp) hb)
      · exact Or.inl (htake f6 _ (by simp) hb)
    · cases rest with
      | nil =>
        right
        simp only [question_of_fields, List.head?_nil, Option.getD_none] at hb
        exact List.mem_of_mem_take hb
      | cons f8 r =>
        left
        simp only [question_of_fields, List.head?_cons, Option.getD_some] at hb
        exact htake f8 _ (by simp) hb

theorem load_questions_file_mem (file : List Nat) (q : Question)
    (h : q ∈ (load_questions_file file).question_head) :
    ∃ s, accepted_question (c_str (through_newline s)) = some q := by
  unfold load_questions_file at h
  rw [load_questions_eq_build_store, question_head_build_store, List.mem_filterMap] at h
  obtain ⟨line, hl, hq⟩ := h
  rw [List.mem_map] at hl
  obtain ⟨raw, hraw, he⟩ := hl
  obtain ⟨s, hs⟩ := read_lines_through_newline _ _ _ raw hraw
  exact ⟨s, by rw [← hs, he]; exact hq⟩

/-- C21 (as stated, refuted): the line `1|q|a|b|c|d|1|e` terminated by CR LF is stored
with the explanation `e` followed by CR, and the line made of CR LF alone is not
skipped: its pass prints the "missing question text" message. -/
theorem C21_counterexample :
    (load_questions_file (lit "1|q|a|b|c|d|1|e\r\n")).question_head.map
      (fun q => q.explanation) = [lit "e\r"] ∧
    (lit "e\r").getLast? = some 13 ∧
    errors_of_line (lit "\r\n") = [ParseError.missing_text] := by
  decide

/-- C21 (amended): `load_questions` removes exactly one trailing LF of the line that
`fgets` stored and nothing else (a CR before it stays), so no field of a question
stored by `load_questions` from a file contains an LF; and a line that consists of LF
alone is skipped: it leaves the store as it is, prints no message and frees nothing. -/
theorem C21_newline_stripped (file : List Nat) :
    (∀ l : List Nat, strip_newline (l ++ [10]) = l) ∧
    (∀ l : List Nat, strip_newline (l ++ [13, 10]) = l ++ [13]) ∧
    (∀ l : List Nat, l.getLast? ≠ some 10 → strip_newline l = l) ∧
    (∀ q ∈ (load_questions_file file).question_head,
      10 ∉ q.question ∧ (∀ o ∈ q.options, 10 ∉ o) ∧ 10 ∉ q.explanation) ∧
    (∀ s : Store, load_line s [10] = s) ∧
    errors_of_line [10] = [] ∧ frees_of_line [10] = 0 ∧
    load_questions_file [10] = empty_store := by
  refine ⟨strip_newline_concat, ?_, ?_, ?_, ?_, by decide, by decide, by decide⟩
  · intro l
    have e : l ++ [13, 10] = (l ++ [13]) ++ [10] := by simp
    rw [e, strip_newline_concat]
  · intro l hl
    simp [strip_newline, hl]
  · intro q hq
    obtain ⟨s, hs⟩ := load_questions_file_mem file q hq
    have hno : ∀ b, (b ∈ q.question ∨ (∃ o ∈ q.options, b ∈ o) ∨ b ∈ q.explanation) →
        b ≠ 10 := by
      intro b hb e
      subst e
      rcases accepted_question_bytes _ q hs 10 hb with h | h
      · exact strip_c_str_through_newline s h
      · exact absurd h (by decide)
    refine ⟨fun h => hno 10 (Or.inl h) rfl, fun o ho h => hno 10 (Or.inr (Or.inl ⟨o, ho, h⟩)) rfl,
      fun h => hno 10 (Or.inr (Or.inr h)) rfl⟩
  · intro s
    simp [load_line, strip_newline]

/-! ## Master queue and snapshot queue (C22) -/

theorem insert_priority_queue_eq_copy (q : Question) (l : List Question) :
    insert_priority_queue q l = copy_to_temp_queue q l := by
  cases l <;> rfl

theorem priority_queue_head_foldl (qs : List Question) (s : Store) :
    (qs.foldl append_question s).priority_queue_head =
      qs.foldl (fun head q => insert_priority_queue q head) s.priority_queue_head := by
  induction qs generalizing s with
  | nil => rfl
  | cons q qs ih => simp [List.foldl_cons, ih, append_question]

/-- C22: for every list of questions, inserting them one by one with
`insert_priority_queue` and inserting them one by one with `copy_to_temp_queue`, both
from the empty queue, give the same sequence; each single insertion already gives the
same queue, and the master queue of the store built from the list is the ranked
snapshot of its list. -/
theorem C22_master_and_snapshot_agree (qs : List Question) :
    qs.foldl (fun head q => insert_priority_queue q head) [] =
      qs.foldl (fun head q => copy_to_temp_queue q head) [] ∧
    (∀ (q : Question) (l : List Question),
      insert_priority_queue q l = copy_to_temp_queue q l) ∧
    (build_store qs).priority_queue_head = ranked_snapshot (build_store qs).question_head := by
  have hfun : (fun head q => insert_priority_queue q head) =
      (fun head q => copy_to_temp_queue q head) := by
    funext head q
    exact insert_priority_queue_eq_copy q head
  refine ⟨by rw [hfun], insert_priority_queue_eq_copy, ?_⟩
  rw [question_head_build_store]
  unfold build_store ranked_snapshot
  rw [priority_queue_head_foldl, hfun]
  rfl

/-! ## Position of a new queue entry (C23) -/

theorem pq_splice_eq (q : Question) (l : List Question) :
    pq_splice q l =
      l.takeWhile (fun x => decide (x.difficulty ≥ q.difficulty)) ++
        q :: l.dropWhile (fun x => decide (x.difficulty ≥ q.difficulty)) := by
  induction l with
  | nil => rfl
  | cons n rest ih =>
    simp only [pq_splice]
    by_cases hc : n.difficulty ≥ q.difficulty
    · simp [hc, ih, List.takeWhile_cons, List.dropWhile_cons]
    · simp [hc, List.takeWhile_cons, List.dropWhile_cons]

/-- C23: for every queue with non-increasing difficulties and every new question,
`insert_priority_queue` yields the entries of difficulty at least that of the new
question (the longest such initial run), then the new question, then the remaining
entries, the first of which is the first entry of strictly smaller difficulty: the
entries before the new one all have difficulty at least its own, those after it all have
strictly smaller difficulty, the old entries keep their order, and the result is again
non-increasing. -/
theorem C23_insert_priority_queue_position (q : Question) (l : List Question)
    (hsorted : l.Pairwise (fun a b => a.difficulty ≥ b.difficulty)) :
    insert_priority_queue q l =
      l.takeWhile (fun x => decide (x.difficulty ≥ q.difficulty)) ++
        q :: l.dropWhile (fun x => decide (x.difficulty ≥ q.difficulty)) ∧
    l.takeWhile (fun x => decide (x.difficulty ≥ q.difficulty)) ++
      l.dropWhile (fun x => decide (x.difficulty ≥ q.difficulty)) = l ∧
    (∀ x ∈ l.takeWhile (fun x => decide (x.difficulty ≥ q.difficulty)),
      x.difficulty ≥ q.difficulty) ∧
    (∀ x ∈ l.dropWhile (fun x => decide (x.difficulty ≥ q.difficulty)),
      x.difficulty < q.difficulty) ∧
    (insert_priority_queue q l).Pairwise (fun a b => a.difficulty ≥ b.difficulty) := by
  have heq : insert_priority_queue q l = pq_splice q l := by
    rw [insert_priority_queue_eq_copy, copy_to_temp_queue_eq_splice]
  refine ⟨by rw [heq, pq_splice_eq], List.takeWhile_append_dropWhile _ l, ?_, ?_, ?_⟩
  · intro x hx
    have := List.mem_takeWhile_imp hx
    simpa using this
  · intro x hx
    cases hd : l.dropWhile (fun x => decide (x.difficulty ≥ q.difficulty)) with
    | nil => rw [hd] at hx; simp at hx
    | cons y ys =>
      have hy : ¬ y.difficulty ≥ q.difficulty := by
        have := List.head_dropWhile_not (fun x => decide (x.difficulty ≥ q.difficulty)) l
          (by rw [hd]; simp)
        simpa [hd] using this
      have hsub : (y :: ys).Pairwise (fun a b => a.difficulty ≥ b.difficulty) := by
        rw [← hd]
        exact List.Pairwise.sublist (List.dropWhile_sublist _) hsorted
      rw [hd] at hx
      rcases List.mem_cons.mp hx with e | hmem
      · rw [e]; omega
      · have := (List.pairwise_cons.mp hsub).1 x hmem
        omega
  · rw [heq]
    exact pq_splice_sorted q l hsorted

theorem C23_insert_priority_queue_position_witness :
    ([sample_question 4 9, sample_question 5 7, sample_question 6 7,
      sample_question 8 2].Pairwise (fun a b => a.difficulty ≥ b.difficulty)) ∧
    insert_priority_queue (sample_question 1 7)
      [sample_question 4 9, sample_question 5 7, sample_question 6 7, sample_question 8 2] =
      [sample_question 4 9, sample_question 5 7, sample_question 6 7, sample_question 1 7,
        sample_question 8 2] ∧
    (insert_priority_queue (sample_question 1 7)
      [sample_question 4 9, sample_question 5 7, sample_question 6 7,
        sample_question 8 2]).Pairwise (fun a b => a.difficulty ≥ b.difficulty) :=
  ⟨by decide, by decide,
   (C23_insert_priority_queue_position (sample_question 1 7)
      [sample_question 4 9, sample_question 5 7, sample_question 6 7, sample_question 8 2]
      (by decide)).2.2.2.2⟩

/-! ## Accumulated login payload (C24) -/

theorem deliver_accepted (table : AuthTable) (chunks : List (List Nat)) (ci : ConnectionInfo)
    (hne : ∀ c ∈ chunks, c ≠ [])
    (hacc : ∀ r ∈ (deliver table (some ci) chunks).2, r = MHD_Result.MHD_YES) :
    (deliver table (some ci) chunks).1 =
      some { post_data := if chunks = [] then ci.post_data
                          else some (ci.post_data.getD [] ++ chunks.flatten),
             post_size := ci.post_size + chunks.flatten.length } := by
  induction chunks generalizing ci with
  | nil => simp [deliver]
  | cons c cs ih =>
    cases c with
    | nil => exact absurd rfl (hne [] (List.mem_cons_self _ _))
    | cons b rest =>
      simp only [deliver] at hacc ⊢
      rw [handle_login_data] at hacc ⊢
      by_cases hover : ci.post_size + (b :: rest).length > MAX_POST_SIZE
      · rw [if_pos hover] at hacc
        have := hacc MHD_Result.MHD_NO (List.mem_cons_self _ _)
        exact absurd this (by decide)
      · simp only [hover, if_false] at hacc ⊢
        rw [ih _ (fun x hx => hne x (List.mem_cons_of_mem _ hx))
          (fun r hr => hacc r (List.mem_cons_of_mem _ hr))]
        simp only [Option.getD_some, List.flatten_cons, List.length_append, List.append_assoc,
          reduceCtorEq, if_false]
        by_cases hcs : cs = []
        · subst hcs
          simp
        · simp [hcs, Nat.add_assoc]

/-- C24: when the non-empty deliveries made to `handle_login` on a fresh connection are
all accepted, `post_data` holds the concatenation of the delivered chunks in delivery
order (it is still NULL when there was no delivery) and `post_size` is the length of
that concatenation; on the final zero-byte call the response is the one determined by
`parse_post_data` applied to that buffer, read as a C string, which is the whole
concatenation when no delivered byte is NUL. -/
theorem C24_accumulated_payload (table : AuthTable) (chunks : List (List Nat))
    (hne : ∀ c ∈ chunks, c ≠ [])
    (hacc : ∀ r ∈ (deliver table (some { post_data := none, post_size := 0 }) chunks).2,
      r = MHD_Result.MHD_YES) :
    (deliver table (some { post_data := none, post_size := 0 }) chunks).1 =
      some { post_data := if chunks = [] then none else some chunks.flatten,
             post_size := chunks.flatten.length } ∧
    (handle_login table []
      (deliver table (some { post_data := none, post_size := 0 }) chunks).1).response =
      (match parse_post_data
          (if chunks = [] then none else some (c_str chunks.flatten)) with
        | none => some { status := MHD_HTTP_BAD_REQUEST, body := error_response }
        | some (username, password) =>
          if check_auth_hash_table table username password then
            some { status := MHD_HTTP_OK, body := success_response }
          else some { status := MHD_HTTP_UNAUTHORIZED, body := error_response }) ∧
    (0 ∉ chunks.flatten → c_str chunks.flatten = chunks.flatten) := by
  have h := deliver_accepted table chunks { post_data := none, post_size := 0 } hne hacc
  simp only [Option.getD_none, List.nil_append, Nat.zero_add] at h
  refine ⟨h, ?_, c_str_of_no_nul _⟩
  rw [h, handle_login_complete]
  by_cases hc : chunks = []
  · simp only [hc, if_true, Option.map_none']
  · simp only [hc, if_false, Option.map_some']

theorem C24_accumulated_payload_witness :
    (deliver empty_auth_table (some { post_data := none, post_size := 0 })
      [lit "user", lit "name=alice&pass", lit "word=secret"]).2 =
      [MHD_Result.MHD_YES, MHD_Result.MHD_YES, MHD_Result.MHD_YES] ∧
    [lit "user", lit "name=alice&pass", lit "word=secret"].flatten =
      lit "username=alice&password=secret" ∧
    (deliver empty_auth_table (some { post_data := none, post_size := 0 })
      [lit "user", lit "name=alice&pass", lit "word=secret"]).1 =
      some { post_data :=
               if [lit "user", lit "name=alice&pass", lit "word=secret"] = [] then none
               else some [lit "user", lit "name=alice&pass", lit "word=secret"].flatten,
             post_size := [lit "user", lit "name=alice&pass", lit "word=secret"].flatten.length } :=
  ⟨by decide, by decide,
   (C24_accumulated_payload empty_auth_table
      [lit "user", lit "name=alice&pass", lit "word=secret"] (by decide) (by decide)).1⟩

/-! ## The hash of a username (C25) -/

theorem hash_step_eq (h b : Nat) (hb : b < 128) :
    hash_step h b = (h * 33 + b) % 4294967296 := by
  have hu : to_unsigned (char_to_int b) = b := by
    unfold to_unsigned char_to_int
    simp only [hb, if_true]
    omega
  unfold hash_step
  rw [hu]
  omega

theorem hash_foldl_eq (s : List Nat) (h : Nat) (hs : ∀ b ∈ s, b < 128) :
    s.foldl hash_step h = s.foldl (fun h b => (h * 33 + b) % 4294967296) h := by
  induction s generalizing h with
  | nil => rfl
  | cons b t ih =>
    rw [List.foldl_cons, List.foldl_cons, hash_step_eq h b (hs b (List.mem_cons_self _ _))]
    exact ih _ (fun x hx => hs x (List.mem_cons_of_mem _ hx))

/-- C25: for every string of bytes below 128, `hash_string` is the fold
`h := (h * 33 + byte) mod 2^32` over the bytes from `h = 5381`, reduced modulo 101: each
step `((h << 5) + h) + c` in `unsigned int` arithmetic equals `(h * 33 + c) mod 2^32`.
For every string the result is below 101, the number of slots of the table. -/
theorem C25_hash_string_formula (s : List Nat) (hs : ∀ b ∈ s, b < 128) :
    hash_string s = (s.foldl (fun h b => (h * 33 + b) % 4294967296) 5381) % 101 ∧
    (∀ h b : Nat, b < 128 → hash_step h b = (h * 33 + b) % 4294967296) ∧
    (∀ t : List Nat, hash_string t < HASH_TABLE_SIZE) ∧ HASH_TABLE_SIZE = 101 := by
  refine ⟨?_, hash_step_eq, ?_, rfl⟩
  · unfold hash_string
    rw [hash_foldl_eq s 5381 hs]
    rfl
  · intro t
    unfold hash_string
    exact Nat.mod_lt _ (by decide)

theorem C25_hash_string_formula_witness :
    (∀ b ∈ lit "alice", b < 128) ∧
    hash_string (lit "alice") =
      ((lit "alice").foldl (fun h b => (h * 33 + b) % 4294967296) 5381) % 101 ∧
    hash_string (lit "alice") = 89 :=
  ⟨by decide, (C25_hash_string_formula (lit "alice") (by decide)).1, by decide⟩

/-! ## Credential lines (C26) -/

theorem read_lines_one (n : Nat) (l : List Nat) (h : 10 ∉ l) (hlen : l.length + 1 ≤ n - 1) :
    read_lines n (l ++ [10]).length (l ++ [10]) = [l ++ [10]] := by
  have hf : fgets n (l ++ [10]) = some (l ++ [10], []) := by
    have htake : (l ++ [10]).take (n - 1) = l ++ [10] :=
      List.take_of_length_le (by simp only [List.length_append, List.length_singleton]; omega)
    cases hl : l ++ [10] with
    | nil => simp at hl
    | cons b t =>
      rw [← hl]
      have : fgets n (l ++ [10]) =
          some (through_newline ((l ++ [10]).take (n - 1)),
            (l ++ [10]).drop (through_newline ((l ++ [10]).take (n - 1))).length) := by
        rw [hl]; rfl
      rw [this, htake, through_newline_line l [] h]
      simp
  have hfuel : (l ++ [10]).length = l.length + 1 := by simp
  rw [hfuel, read_lines, hf]
  simp only
  cases hn : l.length with
  | zero => rfl
  | succ n => rfl

theorem strchr_none_iff (s : List Nat) (c : Nat) : strchr s c = none ↔ c ∉ s := by
  induction s with
  | nil => simp [strchr]
  | cons b t ih =>
    simp only [strchr]
    by_cases hb : b = c
    · simp [hb]
    · have hb' : ¬ c = b := fun e => hb e.symm
      simp [hb, hb', ih]

theorem strchr_some_dropWhile (s : List Nat) (c : Nat) (e : List Nat)
    (h : strchr s c = some e) : e = s.dropWhile (fun b => b != c) := by
  induction s with
  | nil => simp [strchr] at h
  | cons b t ih =>
    simp only [strchr] at h
    split at h
    · rename_i hb
      simp at h
      rw [← h]
      simp [List.dropWhile_cons, hb]
    · rename_i hb
      rw [ih h]
      simp [List.dropWhile_cons, hb]

theorem split_credential_eq (line : List Nat) :
    split_credential line =
      if 58 ∈ strip_newline line then
        some ((strip_newline line).takeWhile (fun b => b != 58),
              ((strip_newline line).dropWhile (fun b => b != 58)).drop 1)
      else none := by
  simp only [split_credential]
  cases hs : strchr (strip_newline line) 58 with
  | none =>
    have := (strchr_none_iff _ _).mp hs
    simp [this]
  | some e =>
    have hmem : 58 ∈ strip_newline line := by
      by_contra hno
      rw [(strchr_none_iff _ _).mpr hno] at hs
      exact absurd hs (by simp)
    simp only [hmem, if_true]
    rw [strchr_some_takeWhile _ _ _ hs, strchr_some_dropWhile _ _ _ hs]

theorem split_credential_line (u p : List Nat) (hu : 58 ∉ u) :
    split_credential (u ++ 58 :: p ++ [10]) = some (u, p) := by
  have hstrip : strip_newline (u ++ 58 :: p ++ [10]) = u ++ 58 :: p := by
    have e : u ++ 58 :: p ++ [10] = (u ++ 58 :: p) ++ [10] := by simp
    rw [e, strip_newline_concat]
  rw [split_credential_eq, hstrip]
  simp only [List.mem_append, List.mem_cons, true_or, or_true, if_true]
  rw [takeWhile_ne_append 58 u p hu, dropWhile_ne_append 58 u p hu]
  rfl

theorem check_insert_mono (table : AuthTable) (u p u2 p2 : List Nat)
    (h : check_auth_hash_table table u p = true) :
    check_auth_hash_table (insert_auth_entry table u2 p2) u p = true := by
  unfold check_auth_hash_table at h ⊢
  rw [scan_chain_iff] at h ⊢
  simp only [insert_auth_entry]
  split
  · exact List.mem_cons_of_mem _ h
  · exact h

theorem check_load_auth_line_mono (table : AuthTable) (line u p : List Nat)
    (h : check_auth_hash_table table u p = true) :
    check_auth_hash_table (load_auth_line table line) u p = true := by
  unfold load_auth_line
  cases split_credential line with
  | none => exact h
  | some pr => exact check_insert_mono table u p pr.1 pr.2 h

theorem check_foldl_load_auth_line (lines : List (List Nat)) (table : AuthTable)
    (u p : List Nat) (h : check_auth_hash_table table u p = true) :
    check_auth_hash_table (lines.foldl load_auth_line table) u p = true := by
  induction lines generalizing table with
  | nil => exact h
  | cons l ls ih => exact ih _ (check_load_auth_line_mono table l u p h)

theorem check_after_line (lines : List (List Nat)) (table : AuthTable) (line u p : List Nat)
    (hsplit : split_credential line = some (u, p))
    (hu : u.length < MAX_USERNAME_LENGTH) (hp : p.length < MAX_PASSWORD_LENGTH)
    (hmem : line ∈ lines) :
    check_auth_hash_table (lines.foldl load_auth_line table) u p = true := by
  induction lines generalizing table with
  | nil => simp at hmem
  | cons l ls ih =>
    rw [List.foldl_cons]
    rcases List.mem_cons.mp hmem with e | hm
    · apply check_foldl_load_auth_line
      rw [← e]
      unfold load_auth_line
      rw [hsplit]
      have h1 : strncpy u (MAX_USERNAME_LENGTH - 1) = u := strncpy_short u _ (by omega)
      have h2 : strncpy p (MAX_PASSWORD_LENGTH - 1) = p := strncpy_short p _ (by omega)
      simp [check_auth_hash_table, insert_auth_entry, scan_chain, h1, h2]
    · exact ih _ hm

/-- C26 (as stated, refuted): the credential line `u:` followed by 200 bytes `p` and a
newline is longer than the 130-byte buffer: `fgets` stores its first 129 bytes, and the
password passed to `insert_auth_entry` is the first 127 bytes after the colon, not
everything up to the newline. -/
theorem C26_counterexample :
    credential_pairs (lit "u:" ++ List.replicate 200 112 ++ [10]) =
      [(lit "u", List.replicate 127 112)] ∧
    List.replicate 127 112 ≠ List.replicate 200 112 := by
  decide!

/-- C26 (amended): for every credential line as read by `fgets`, `load_auth_data` splits
at the first `:` only: the username passed to `insert_auth_entry` is the text before the
first colon, the password is everything after it up to the stripped trailing newline,
and a line without colon inserts nothing. For `u` free of `:` and `u`, `p` shorter than
64 bytes, the line `u:p` gives the pair `(u, p)`, and `check_auth_hash_table(u, p)` is
true after loading any lines among which it occurs; such a line, free of NUL and of
inner newlines, fits the 130-byte buffer, so the file made of it is loaded as that pair. -/
theorem C26_load_auth_data_split (u p : List Nat) (hu : 58 ∉ u)
    (hlu : u.length < MAX_USERNAME_LENGTH) (hlp : p.length < MAX_PASSWORD_LENGTH) :
    (∀ line : List Nat, split_credential line =
      if 58 ∈ strip_newline line then
        some ((strip_newline line).takeWhile (fun b => b != 58),
              ((strip_newline line).dropWhile (fun b => b != 58)).drop 1)
      else none) ∧
    (∀ (table : AuthTable) (line : List Nat), 58 ∉ strip_newline line →
      load_auth_line table line = table) ∧
    split_credential (u ++ 58 :: p ++ [10]) = some (u, p) ∧
    (∀ lines : List (List Nat), (u ++ 58 :: p ++ [10]) ∈ lines →
      check_auth_hash_table (load_auth_lines lines) u p = true) ∧
    (10 ∉ u ++ p → 0 ∉ u ++ p →
      credential_pairs (u ++ 58 :: p ++ [10]) = [(u, p)] ∧
      check_auth_hash_table (load_auth_data (u ++ 58 :: p ++ [10])) u p = true) := by
  have hsplit := split_credential_line u p hu
  refine ⟨split_credential_eq, ?_, hsplit, ?_, ?_⟩
  · intro table line hno
    unfold load_auth_line
    rw [split_credential_eq, if_neg hno]
  · intro lines hmem
    exact check_after_line lines empty_auth_table _ u p hsplit hlu hlp hmem
  · intro h10 h0
    have e : u ++ 58 :: p ++ [10] = (u ++ 58 :: p) ++ [10] := by simp
    have h10' : 10 ∉ u ++ 58 :: p := by
      simp only [List.mem_append, List.mem_cons, not_or] at h10 ⊢
      exact ⟨h10.1, by decide, h10.2⟩
    have h0' : 0 ∉ (u ++ 58 :: p) ++ [10] := by
      simp only [List.mem_append, List.mem_cons, List.mem_singleton, not_or] at h0 ⊢
      exact ⟨⟨h0.1, by decide, h0.2⟩, by decide, by simp⟩
    have hlen : (u ++ 58 :: p).length + 1 ≤
        (MAX_USERNAME_LENGTH + MAX_PASSWORD_LENGTH + 2) - 1 := by
      simp only [List.length_append, List.length_cons, MAX_USERNAME_LENGTH,
        MAX_PASSWORD_LENGTH] at hlu hlp ⊢
      omega
    have hread := read_lines_one (MAX_USERNAME_LENGTH + MAX_PASSWORD_LENGTH + 2)
      (u ++ 58 :: p) h10' hlen
    rw [← e] at hread
    constructor
    · unfold credential_pairs
      rw [hread]
      simp only [List.map_cons, List.map_nil, List.filterMap_cons, List.filterMap_nil]
      rw [c_str_of_no_nul _ (e ▸ h0'), hsplit]
    · unfold load_auth_data
      rw [hread]
      simp only [List.map_cons, List.map_nil]
      rw [c_str_of_no_nul _ (e ▸ h0')]
      exact check_after_line _ empty_auth_table _ u p hsplit hlu hlp
        (List.mem_singleton.mpr rfl)

theorem C26_load_auth_data_split_witness :
    58 ∉ lit "alice" ∧
    split_credential (lit "alice" ++ 58 :: lit "se:cret" ++ [10]) =
      some (lit "alice", lit "se:cret") ∧
    lit "alice" ++ 58 :: lit "se:cret" ++ [10] = lit "alice:se:cret\n" ∧
    credential_pairs (lit "alice" ++ 58 :: lit "se:cret" ++ [10]) =
      [(lit "alice", lit "se:cret")] ∧
    check_auth_hash_table (load_auth_data (lit "alice" ++ 58 :: lit "se:cret" ++ [10]))
      (lit "alice") (lit "se:cret") = true :=
  ⟨by decide,
   (C26_load_auth_data_split (lit "alice") (lit "se:cret") (by decide) (by decide)
      (by decide)).2.2.1,
   by decide,
   ((C26_load_auth_data_split (lit "alice") (lit "se:cret") (by decide) (by decide)
      (by decide)).2.2.2.2 (by decide) (by decide)).1,
   ((C26_load_auth_data_split (lit "alice") (lit "se:cret") (by decide) (by decide)
      (by decide)).2.2.2.2 (by decide) (by decide)).2⟩

/-! ## The search tree invariant (C27) -/

theorem tree_ids_insert_bst (t : BSTNode) (q : Question) (x : Int) :
    x ∈ tree_ids (insert_bst t q) ↔ x ∈ tree_ids t ∨ x = q.id := by
  induction t with
  | null => simp [insert_bst, tree_ids]
  | node rq l r ihl ihr =>
    unfold insert_bst
    by_cases h1 : q.id < rq.id
    · simp only [h1, if_true, tree_ids, List.mem_append, List.mem_cons, ihl]
      tauto
    · by_cases h2 : q.id > rq.id
      · simp only [h1, h2, if_true, if_false, tree_ids, List.mem_append, List.mem_cons, ihr]
        tauto
      · have he : q.id = rq.id := by omega
        simp only [h1, h2, if_false, tree_ids, List.mem_append, List.mem_cons]
        rw [he]
        tauto

theorem is_bst_insert_bst (t : BSTNode) (q : Question) (h : is_bst t) :
    is_bst (insert_bst t q) := by
  induction t with
  | null => simp [insert_bst, is_bst, tree_ids]
  | node rq l r ihl ihr =>
    obtain ⟨hl, hr, hbl, hbr⟩ := h
    unfold insert_bst
    by_cases h1 : q.id < rq.id
    · simp only [h1, if_true, is_bst]
      refine ⟨?_, hr, ihl hbl, hbr⟩
      intro x hx
      rcases (tree_ids_insert_bst l q x).mp hx with hx' | hx'
      · exact hl x hx'
      · rw [hx']; exact h1
    · by_cases h2 : q.id > rq.id
      · simp only [h1, h2, if_true, if_false, is_bst]
        refine ⟨hl, ?_, hbl, ihr hbr⟩
        intro x hx
        rcases (tree_ids_insert_bst r q x).mp hx with hx' | hx'
        · exact hr x hx'
        · rw [hx']; exact h2
      · simp only [h1, h2, if_false, is_bst]
        exact ⟨hl, hr, hbl, hbr⟩

theorem tree_ids_increasing (t : BSTNode) (h : is_bst t) :
    (tree_ids t).Pairwise (fun a b => a < b) := by
  induction t with
  | null => simp [tree_ids]
  | node rq l r ihl ihr =>
    obtain ⟨hl, hr, hbl, hbr⟩ := h
    simp only [tree_ids]
    rw [List.pairwise_append]
    refine ⟨ihl hbl, ?_, ?_⟩
    · rw [List.pairwise_cons]
      exact ⟨hr, ihr hbr⟩
    · intro a ha b hb
      rcases List.mem_cons.mp hb with e | hb'
      · rw [e]; exact hl a ha
      · have h1 := hl a ha
        have h2 := hr b hb'
        omega

theorem foldl_insert_bst_invariant (qs : List Question) (t : BSTNode) (h : is_bst t) :
    is_bst (qs.foldl insert_bst t) ∧
    ∀ x, x ∈ tree_ids (qs.foldl insert_bst t) ↔ x ∈ tree_ids t ∨ ∃ q ∈ qs, q.id = x := by
  induction qs generalizing t with
  | nil => simp [h]
  | cons q qs ih =>
    obtain ⟨h1, h2⟩ := ih (insert_bst t q) (is_bst_insert_bst t q h)
    refine ⟨h1, ?_⟩
    intro x
    rw [List.foldl_cons, h2, tree_ids_insert_bst]
    simp only [List.mem_cons, exists_eq_or_imp]
    constructor
    · rintro ((h | h) | h)
      · exact Or.inl h
      · exact Or.inr (Or.inl h.symm)
      · exact Or.inr (Or.inr h)
    · rintro (h | h | h)
      · exact Or.inl (Or.inl h)
      · exact Or.inl (Or.inr h.symm)
      · exact Or.inr h

/-- C27: every tree built from the empty tree by `insert_bst` calls is a strict binary
search tree on the question id (ids of a left subtree smaller, ids of a right subtree
larger than the id of the node), its ids read in order are strictly increasing (no id
occurs twice), its ids are exactly the ids of the inserted questions, and `search_bst`
finds a question exactly for those ids, each time one carrying the id asked for. -/
theorem C27_insert_bst_invariant (qs : List Question) :
    is_bst (qs.foldl insert_bst BSTNode.null) ∧
    (tree_ids (qs.foldl insert_bst BSTNode.null)).Pairwise (fun a b => a < b) ∧
    (tree_ids (qs.foldl insert_bst BSTNode.null)).Nodup ∧
    (∀ id : Int, id ∈ tree_ids (qs.foldl insert_bst BSTNode.null) ↔ ∃ q ∈ qs, q.id = id) ∧
    (∀ id : Int, (search_bst (qs.foldl insert_bst BSTNode.null) id).isSome = true ↔
      ∃ q ∈ qs, q.id = id) ∧
    (∀ (id : Int) (q : Question),
      search_bst (qs.foldl insert_bst BSTNode.null) id = some q → q.id = id ∧ q ∈ qs) := by
  obtain ⟨h1, h2⟩ := foldl_insert_bst_invariant qs BSTNode.null (by simp [is_bst])
  have hinc := tree_ids_increasing _ h1
  refine ⟨h1, hinc, ?_, ?_, ?_, ?_⟩
  · exact hinc.imp (fun hab => by omega)
  · intro id
    rw [h2]
    simp [tree_ids]
  · intro id
    rw [search_bst_foldl]
    simp only [search_bst, Option.none_or, List.find?_isSome, decide_eq_true_eq]
  · intro id q hq
    rw [search_bst_foldl] at hq
    simp only [search_bst, Option.none_or] at hq
    have h3 := List.find?_some hq
    exact ⟨by simpa using h3, List.mem_of_find?_eq_some hq⟩

/-! ## Empty fields (C28) -/

end ExamPlatform
